import Mathlib

/- Verification of the propositional-logic core of calculadoraLogica:
   scanner, parser, AST evaluation and truth-table enumeration.

   Embedding conventions:
   - the input text and all lexemes are `List Char`; token types and
     variable names are `String` (built with `String.mk`);
   - JavaScript arrays used as stacks become Lean lists with the head as
     the top of the stack;
   - loops whose step consumes a variable amount of input carry an
     explicit fuel argument so that every definition is structurally
     recursive and kernel-evaluable; the chosen fuel is proved sufficient
     wherever a claim depends on it;
   - `Array.prototype.pop()` on an empty array yields `undefined` in the
     source, which would poison the parse result; the embedding makes
     that outcome explicit as a `bug` result, as it also does for the
     source's `assert` and `unreachable` failures. -/

namespace CalcLogica

/-- AST node variants, one per node constructor of the source
(trueNode, falseNode, negateNode, andNode, orNode, impliesNode,
iffNode, variableNode). -/
inductive Node where
  | trueNode : Node
  | falseNode : Node
  | negateNode (underlying : Node) : Node
  | andNode (lhs rhs : Node) : Node
  | orNode (lhs rhs : Node) : Node
  | impliesNode (lhs rhs : Node) : Node
  | iffNode (lhs rhs : Node) : Node
  | variableNode (index : Nat) : Node
deriving DecidableEq, Repr

/-- The per-node `evaluate(assignment)` methods of the source.
`variableNode` reads `assignment[this.index]`; an out-of-range read in
JavaScript yields `undefined`, a falsy value, modelled here as `false`
through `List.getD`.  All claims about evaluation restrict attention to
in-range indices, where the two semantics agree. -/
def evaluate : Node → List Bool → Bool
  | .trueNode, _ => true
  | .falseNode, _ => false
  | .negateNode u, a => !(evaluate u a)
  | .andNode l r, a => evaluate l a && evaluate r a
  | .orNode l r, a => evaluate l a || evaluate r a
  | .impliesNode l r, a => !(evaluate l a) || evaluate r a
  | .iffNode l r, a => (evaluate l a) == (evaluate r a)
  | .variableNode i, a => a.getD i false

/-- nextAssignment: walking from right to left, find the first `false`
entry, set it to `true` and every entry after it to `false`; return
`none` when every entry is `true` (the source returns `false` without
changing the array).  The recursion tries the tail first, matching the
source's right-to-left scan for the rightmost `false`. -/
def nextAssignment : List Bool → Option (List Bool)
  | [] => none
  | b :: rest =>
    match nextAssignment rest with
    | some rest2 => some (b :: rest2)
    | none => if b then none else some (true :: rest.map fun _ => false)

/-- One unrolling of the `do { callback(...) } while (nextAssignment(...))`
loop of generateTruthTable: record the callback invocation
`(assignment, evaluate ast assignment)` for the current assignment, then
continue with the successor assignment.  The fuel argument bounds the
number of iterations; `generateTruthTable` supplies `2 ^ numVars`,
which is proved to be exact. -/
def generateTruthTableAux (ast : Node) : Nat → List Bool → List (List Bool × Bool)
  | 0, _ => []
  | fuel + 1, assignment =>
    (assignment, evaluate ast assignment) ::
      match nextAssignment assignment with
      | none => []
      | some next => generateTruthTableAux ast fuel next

/-- generateTruthTable: start from the all-false assignment of length
`numVars` and report every callback invocation of the enumeration loop,
in order. -/
def generateTruthTable (ast : Node) (numVars : Nat) : List (List Bool × Bool) :=
  generateTruthTableAux ast (2 ^ numVars) (List.replicate numVars false)

/-- The number an assignment denotes when read as a binary counter with
index 0 as the most significant bit. -/
def toNatMSB : List Bool → Nat
  | [] => 0
  | b :: rest => (cond b (2 ^ rest.length) 0) + toNatMSB rest

/-- kScannerConstants.EOF, the sentinel character appended to the input. -/
def kScannerEOF : Char := '$'

/-- JavaScript's \s character class: ASCII whitespace together with the
Unicode space separators. -/
def isWhitespace (c : Char) : Bool :=
  c = ' ' || (9 ≤ c.toNat && c.toNat ≤ 13) || c.toNat = 0xa0 ||
  c.toNat = 0x1680 || (0x2000 ≤ c.toNat && c.toNat ≤ 0x200a) ||
  c.toNat = 0x2028 || c.toNat = 0x2029 || c.toNat = 0x202f ||
  c.toNat = 0x205f || c.toNat = 0x3000 || c.toNat = 0xfeff

def isLetterChar (c : Char) : Bool :=
  ('A' ≤ c && c ≤ 'Z') || ('a' ≤ c && c ≤ 'z')

def isDigitChar (c : Char) : Bool := '0' ≤ c && c ≤ '9'

/-- A character that may begin a variable name: regex [A-Za-z_]. -/
def isVariableStartChar (c : Char) : Bool := isLetterChar c || c = '_'

/-- A character that may continue a variable name: regex [A-Za-z_0-9]. -/
def isVariableChar (c : Char) : Bool :=
  isLetterChar c || c = '_' || isDigitChar c

/-- The character class accepted by checkIntegrity:
[A-Za-z_0-9\\\/<>\-~^()\s&|=!∧∨→↔⊤⊥¬]. -/
def okayChar (c : Char) : Bool :=
  isLetterChar c || c = '_' || isDigitChar c ||
  c = '\\' || c = '/' || c = '<' || c = '>' || c = '-' || c = '~' ||
  c = '^' || c = '(' || c = ')' || isWhitespace c ||
  c = '&' || c = '|' || c = '=' || c = '!' ||
  c.toNat = 0x2227 || c.toNat = 0x2228 || c.toNat = 0x2192 ||
  c.toNat = 0x2194 || c.toNat = 0x22A4 || c.toNat = 0x22A5 || c.toNat = 0xAC

/-- Decidable equality of Except values, used to evaluate scan results
on concrete inputs. -/
instance exceptDecEq {ε α : Type} [DecidableEq ε] [DecidableEq α] :
    DecidableEq (Except ε α) := fun x y =>
  match x, y with
  | .ok a, .ok b =>
    if h : a = b then .isTrue (h ▸ rfl)
    else .isFalse (fun hc => h (Except.ok.inj hc))
  | .error a, .error b =>
    if h : a = b then .isTrue (h ▸ rfl)
    else .isFalse (fun hc => h (Except.error.inj hc))
  | .ok _, .error _ => .isFalse (fun hc => Except.noConfusion hc)
  | .error _, .ok _ => .isFalse (fun hc => Except.noConfusion hc)

/-- The structured error value thrown by scannerFail and parseError.
The source field `end` is a Lean keyword and is embedded as `endPos`. -/
structure ErrObj where
  description : String
  start : Nat
  endPos : Nat
deriving DecidableEq, Repr

def checkIntegrityAux : List Char → Nat → Option ErrObj
  | [], _ => none
  | c :: rest, i =>
    if okayChar c then checkIntegrityAux rest (i + 1)
    else some ⟨"Illegal character", i, i + 1⟩

/-- checkIntegrity: scan the input for a character outside the allowed
class; the first offender produces the scanner failure. -/
def checkIntegrity (input : List Char) : Option ErrObj :=
  checkIntegrityAux input 0

/-- isReservedWord: the exact words that cannot be variable names. -/
def isReservedWord (t : List Char) : Bool :=
  t = "T".toList || t = "F".toList || t = "and".toList || t = "or".toList ||
  t = "not".toList || t = "iff".toList || t = "implies".toList ||
  t = "true".toList || t = "false".toList

/-- tryReadVariableName at the current position, given the remaining
input `s` (the source indexes the full string; here `s` is the suffix
starting at that index, and charAt past the end reads as an empty string
that matches no class).  The initial [A-Za-z_] test plus the
[A-Za-z_0-9]* read loop amount to takeWhile, since a start character is
also a continuation character. -/
def tryReadVariableName (s : List Char) : Option (List Char) :=
  match s with
  | [] => none
  | c :: _ =>
    if isVariableStartChar c then
      let result := s.takeWhile isVariableChar
      if isReservedWord result then none else some result
    else none

/-- tryReadOperator, given the remaining input `s` starting at the
current index.  The source guard `index < input.length - (k - 1)` for a
k-character candidate is equivalent to `k ≤ s.length` (JavaScript
evaluates the subtraction over the integers, so a short input makes the
guard false, exactly as the Nat inequality does), and
`input.substring(index, index + k)` is `s.take k`.  Candidates are
tried from longest to shortest, exactly as in the source. -/
def tryReadOperator (s : List Char) : Option (List Char) :=
  if 15 ≤ s.length ∧ (s.take 15 = "\\leftrightarrow".toList ∨
      s.take 15 = "\\Leftrightarrow".toList) then
    some (s.take 15)
  else if 11 ≤ s.length ∧ (s.take 11 = "\\rightarrow".toList ∨
      s.take 11 = "\\Rightarrow".toList) then
    some (s.take 11)
  else if 7 ≤ s.length ∧ s.take 7 = "implies".toList then
    some (s.take 7)
  else if 6 ≤ s.length ∧ s.take 6 = "\\wedge".toList then
    some (s.take 6)
  else if 5 ≤ s.length ∧ (s.take 5 = "false".toList ∨ s.take 5 = "\\lnot".toList ∨
      s.take 5 = "\\lneg".toList ∨ s.take 5 = "\\land".toList) then
    some (s.take 5)
  else if 4 ≤ s.length ∧ (s.take 4 = "true".toList ∨ s.take 4 = "\\top".toList ∨
      s.take 4 = "\\bot".toList ∨ s.take 4 = "\\lor".toList ∨
      s.take 4 = "\\vee".toList ∨ s.take 4 = "\\neg".toList) then
    some (s.take 4)
  else if 3 ≤ s.length ∧ (s.take 3 = "<->".toList ∨ s.take 3 = "and".toList ∨
      s.take 3 = "<=>".toList ∨ s.take 3 = "not".toList ∨
      s.take 3 = "iff".toList ∨ s.take 3 = "\\to".toList) then
    some (s.take 3)
  else if 2 ≤ s.length ∧ (s.take 2 = "/\\".toList ∨ s.take 2 = "\\/".toList ∨
      s.take 2 = "->".toList ∨ s.take 2 = "&&".toList ∨
      s.take 2 = "||".toList ∨ s.take 2 = "or".toList ∨
      s.take 2 = "=>".toList) then
    some (s.take 2)
  else
    match s with
    | c :: _ =>
      if c = '(' || c = ')' || c = '~' || c = 'T' || c = 'F' || c = '^' ||
          c = '!' || c = '∧' || c = '∨' || c = '→' || c = '↔' || c = '⊤' ||
          c = '⊥' || c = '¬' then
        some [c]
      else none
    | [] => none

/-- Every operator spelling tryReadOperator can return, longest first. -/
def opSpellings : List (List Char) :=
  ["\\leftrightarrow".toList, "\\Leftrightarrow".toList,
   "\\rightarrow".toList, "\\Rightarrow".toList,
   "implies".toList, "\\wedge".toList,
   "false".toList, "\\lnot".toList, "\\lneg".toList, "\\land".toList,
   "true".toList, "\\top".toList, "\\bot".toList, "\\lor".toList,
   "\\vee".toList, "\\neg".toList,
   "<->".toList, "and".toList, "<=>".toList, "not".toList,
   "iff".toList, "\\to".toList,
   "/\\".toList, "\\/".toList, "->".toList, "&&".toList,
   "||".toList, "or".toList, "=>".toList,
   ['('], [')'], ['~'], ['T'], ['F'], ['^'], ['!'],
   ['∧'], ['∨'], ['→'], ['↔'], ['⊤'], ['⊥'], ['¬']]

/-- translate: map every accepted spelling to its canonical token type. -/
def translate (input : String) : String :=
  if input = "&&" || input = "and" || input = "∧" || input = "\\land" ||
      input = "\\wedge" || input = "^" then "/\\"
  else if input = "||" || input = "or" || input = "∨" || input = "\\lor" ||
      input = "\\vee" then "\\/"
  else if input = "=>" || input = "→" || input = "implies" || input = "\\to" ||
      input = "\\rightarrow" || input = "\\Rightarrow" then "->"
  else if input = "<=>" || input = "↔" || input = "iff" ||
      input = "\\leftrightarrow" || input = "\\Leftrightarrow" then "<->"
  else if input = "not" || input = "!" || input = "¬" || input = "\\lnot" ||
      input = "\\neg" then "~"
  else if input = "⊤" || input = "true" || input = "\\top" then "T"
  else if input = "⊥" || input = "false" || input = "\\bot" then "F"
  else input

/-- Preliminary token: the source stores the variable NAME in the
token's index field until numberVariables renumbers it; the embedding
calls that field `name`.  Non-variable tokens leave it at "". -/
structure PToken where
  type : String
  name : String := ""
  start : Nat
  endPos : Nat
deriving DecidableEq, Repr

/-- Final token: after numberVariables, a variable token carries the
numeric index of its name in the sorted variable table (0 for
non-variable tokens, whose index field the source leaves undefined). -/
structure Token where
  type : String
  index : Nat := 0
  start : Nat
  endPos : Nat
deriving DecidableEq, Repr

def makeIdentityToken (str : List Char) (index : Nat) : PToken :=
  ⟨translate (String.mk str), "", index, index + str.length⟩

def makeVariableToken (name : List Char) (start stop : Nat) : PToken :=
  ⟨"variable", String.mk name, start, stop⟩

/-- scanVariable records the name in the variable set; a JavaScript
object keeps string keys in insertion order and ignores re-insertion,
modelled by append-if-absent. -/
def insertVariable (name : String) (variableSet : List String) : List String :=
  if name ∈ variableSet then variableSet else variableSet ++ [name]

/-- The main loop of preliminaryScan over the remaining input `s`
(a suffix of input ++ [kScannerEOF]); `i` is the absolute index where
the suffix starts, used for token ranges.  Branch order follows the
source: EOF sentinel, variable, operator, whitespace, failure.  The
source's isVariableStart/scanVariable and isOperatorStart/tryReadOperator
pairs each call the same pure reader twice; here each reader is invoked
once and matched.  On an empty suffix charAt yields "", which matches no
class and is not whitespace, so the source fails; with the sentinel
appended this position is never reached.  The fuel argument exceeds the
number of loop iterations, which consume at least one character each. -/
def preliminaryScanAux : Nat → List Char → Nat → List String →
    Except ErrObj (List PToken × List String)
  | 0, _, _, _ => .error ⟨"out of fuel", 0, 0⟩
  | fuel + 1, s, i, variableSet =>
    match s with
    | [] => .error ⟨"O carácter  não deveria estar aqui.", i, i + 1⟩
    | c :: rest =>
      if c = kScannerEOF then
        .ok ([makeIdentityToken [c] i], variableSet)
      else
        match tryReadVariableName s with
        | some varName =>
          match preliminaryScanAux fuel (s.drop varName.length)
              (i + varName.length)
              (insertVariable (String.mk varName) variableSet) with
          | .ok (toks, vs) =>
            .ok (makeVariableToken varName i (i + varName.length) :: toks, vs)
          | .error e => .error e
        | none =>
          match tryReadOperator s with
          | some token =>
            match preliminaryScanAux fuel (s.drop token.length)
                (i + token.length) variableSet with
            | .ok (toks, vs) => .ok (makeIdentityToken token i :: toks, vs)
            | .error e => .error e
          | none =>
            if isWhitespace c then
              preliminaryScanAux fuel rest (i + 1) variableSet
            else
              .error ⟨"O carácter " ++ String.mk [c] ++
                " não deveria estar aqui.", i, i + 1⟩

/-- preliminaryScan: append the EOF sentinel and run the scan loop.
Each iteration except the final EOF one consumes at least one character,
so (input ++ [EOF]).length + 1 units of fuel are more than enough. -/
def preliminaryScan (input : List Char) :
    Except ErrObj (List PToken × List String) :=
  preliminaryScanAux (input.length + 2) (input ++ [kScannerEOF]) 0 []

/-- Non-strict lexicographic comparison of character lists by character
code.  On the ASCII variable names this program produces it coincides
with the UTF-16 code-unit comparison JavaScript's Array.sort applies. -/
def charListLe : List Char → List Char → Bool
  | [], _ => true
  | _ :: _, [] => false
  | a :: as, b :: bs =>
    if a.toNat < b.toNat then true
    else if b.toNat < a.toNat then false
    else charListLe as bs

/-- Strict lexicographic comparison of character lists by character
code. -/
def charListLt : List Char → List Char → Bool
  | _, [] => false
  | [], _ :: _ => true
  | a :: as, b :: bs =>
    a.toNat < b.toNat || (a.toNat = b.toNat && charListLt as bs)

def stringLe (a b : String) : Bool := charListLe a.toList b.toList

def stringLt (a b : String) : Bool := charListLt a.toList b.toList

/-- numberVariables: sort the collected names alphabetically (the
JavaScript Array.sort comparison is lexicographic on UTF-16 code
units, `stringLe` here; since the collected names are distinct, every
correct sort produces the same list as insertionSort) and rewrite each
variable token's name to the position of that name in the sorted table
(every scanned name is in the table, so the source's rewritten-set
lookup is total and equals indexOf). -/
def numberVariables (preliminary : List PToken × List String) :
    List Token × List String :=
  let vars := List.insertionSort (fun a b => stringLe a b = true) preliminary.2
  (preliminary.1.map fun t =>
      if t.type = "variable" then
        ⟨t.type, vars.indexOf t.name, t.start, t.endPos⟩
      else ⟨t.type, 0, t.start, t.endPos⟩,
    vars)

/-- scan: integrity check, preliminary scan, then variable numbering. -/
def scan (input : List Char) : Except ErrObj (List Token × List String) :=
  match checkIntegrity input with
  | some e => .error e
  | none =>
    match preliminaryScan input with
    | .ok preliminary => .ok (numberVariables preliminary)
    | .error e => .error e

/-- isOperand: T, F and variables. -/
def isOperand (token : Token) : Bool :=
  token.type = "T" || token.type = "F" || token.type = "variable"

/-- wrapOperand: build the AST leaf for an operand token; the source's
unreachable(...) fallback is the none outcome. -/
def wrapOperand (token : Token) : Option Node :=
  if token.type = "T" then some .trueNode
  else if token.type = "F" then some .falseNode
  else if token.type = "variable" then some (.variableNode token.index)
  else none

def isBinaryOperator (token : Token) : Bool :=
  token.type = "<->" || token.type = "->" ||
  token.type = "/\\" || token.type = "\\/"

/-- priorityOf, with the EOF marker pretending to be an operator of
minimal priority; the source's unreachable(...) fallback is none. -/
def priorityOf (token : Token) : Option Int :=
  if token.type = "$" then some (-1)
  else if token.type = "<->" then some 0
  else if token.type = "->" then some 1
  else if token.type = "\\/" then some 2
  else if token.type = "/\\" then some 3
  else none

/-- createOperatorNode; the source's unreachable(...) fallback is none. -/
def createOperatorNode (lhs : Node) (token : Token) (rhs : Node) :
    Option Node :=
  if token.type = "<->" then some (.iffNode lhs rhs)
  else if token.type = "->" then some (.impliesNode lhs rhs)
  else if token.type = "\\/" then some (.orNode lhs rhs)
  else if token.type = "/\\" then some (.andNode lhs rhs)
  else none

/-- addOperand: pop pending negations off the operator stack, wrapping
the node in negateNode each time, then push the node onto the operand
stack.  Returns the new (operands, operators) pair. -/
def addOperand : Node → List Node → List Token → List Node × List Token
  | node, operands, t :: rest =>
    if t.type = "~" then addOperand (.negateNode node) operands rest
    else (node :: operands, t :: rest)
  | node, operands, [] => (node :: operands, [])

/-- A parse-time failure: a thrown user error, or an internal
inconsistency (a source assert/unreachable firing, or a stack pop on an
empty array, whose undefined result would poison the computation). -/
inductive PFail where
  | userErr (e : ErrObj)
  | bug (message : String)
deriving DecidableEq, Repr

def parseError (why : String) (start stop : Nat) : PFail :=
  .userErr ⟨why, start, stop⟩

/-- The precedence-resolution loop run when a binary operator or the
EOF marker arrives in operator position: while the stacked operator is
not an open parenthesis and has strictly greater priority than the
current token, pop it together with two operands and rebuild.  The fuel
bounds the number of iterations; each one removes at least the popped
operator from the stack, so the stack length suffices. -/
def resolveOperators : Nat → Token → List Token → List Node →
    Except PFail (List Token × List Node)
  | _, _, [], operands => .ok ([], operands)
  | fuel, currToken, top :: rest, operands =>
    if top.type = "(" then .ok (top :: rest, operands)
    else
      match priorityOf top, priorityOf currToken with
      | some pt, some pc =>
        if pt ≤ pc then .ok (top :: rest, operands)
        else
          match fuel with
          | 0 => .error (.bug "fuel")
          | fuel + 1 =>
            match operands with
            | rhs :: lhs :: operandsRest =>
              match createOperatorNode lhs top rhs with
              | some node =>
                let pair := addOperand node operandsRest rest
                resolveOperators fuel currToken pair.2 pair.1
              | none => .error (.bug "createOperatorNode")
            | _ => .error (.bug "operand stack underflow")
      | _, _ => .error (.bug "priorityOf")

/-- The loop run when a close parenthesis arrives: pop and resolve
operators until the matching open parenthesis; a pending negation here
is the user error "Nada é negado por este operador.", and an empty
operator stack is the unmatched-close-parenthesis error.  When the
parenthesis is found the finished subtree is popped and re-pushed
through addOperand to absorb negations stacked before the parenthesis. -/
def closeParenLoop : Nat → Token → List Token → List Node →
    Except PFail (List Token × List Node)
  | _, currToken, [], _ =>
    .error (parseError
      "Este parêntesis fechado não corresponde a nenhum parêntesis aberto."
      currToken.start currToken.endPos)
  | fuel, currToken, currOp :: rest, operands =>
    if currOp.type = "(" then
      match operands with
      | expr :: operandsRest =>
        let pair := addOperand expr operandsRest rest
        .ok (pair.2, pair.1)
      | [] => .error (.bug "operand stack underflow")
    else if currOp.type = "~" then
      .error (parseError "Nada é negado por este operador."
        currOp.start currOp.endPos)
    else
      match fuel with
      | 0 => .error (.bug "fuel")
      | fuel + 1 =>
        match operands with
        | rhs :: lhs :: operandsRest =>
          match createOperatorNode lhs currOp rhs with
          | some node =>
            let pair := addOperand node operandsRest rest
            closeParenLoop fuel currToken pair.2 pair.1
          | none => .error (.bug "createOperatorNode")
        | _ => .error (.bug "operand stack underflow")

/-- The token loop of parse.  needOperand distinguishes the two parser
states; operators/operands are the two stacks, list head on top.
Reaching the EOF token in operator position pushes it and breaks out of
the loop, returning the stacks; exhausting the token list without an
EOF (which scan never produces) falls through to the same post-loop
checks. -/
def parseLoop : List Token → List Token → List Node → Bool →
    Except PFail (List Token × List Node)
  | [], operators, operands, _ => .ok (operators, operands)
  | currToken :: ts, operators, operands, needOperand =>
    if needOperand then
      if isOperand currToken then
        match wrapOperand currToken with
        | some node =>
          let pair := addOperand node operands operators
          parseLoop ts pair.2 pair.1 false
        | none => .error (.bug "wrapOperand")
      else if currToken.type = "(" || currToken.type = "~" then
        parseLoop ts (currToken :: operators) operands true
      else if currToken.type = "$" then
        match operators with
        | [] => .error (parseError "" 0 0)
        | top :: _ =>
          if top.type = "(" then
            .error (parseError
              "Este parêntesis aberto não tem parêntesis fechado correspondente."
              top.start top.endPos)
          else
            .error (parseError "Falta um operando a este operador."
              top.start top.endPos)
      else
        .error (parseError
          "Esperávamos aqui uma variável, uma constante ou um parêntesis aberto."
          currToken.start currToken.endPos)
    else
      if isBinaryOperator currToken || currToken.type = "$" then
        match resolveOperators operators.length currToken operators operands with
        | .ok (operators2, operands2) =>
          if currToken.type = "$" then
            .ok (currToken :: operators2, operands2)
          else
            parseLoop ts (currToken :: operators2) operands2 true
        | .error e => .error e
      else if currToken.type = ")" then
        match closeParenLoop operators.length currToken operators operands with
        | .ok (operators2, operands2) => parseLoop ts operators2 operands2 false
        | .error e => .error e
      else
        .error (parseError
          "Esperávamos aqui um parêntesis fechado ou um conectivo binário."
          currToken.start currToken.endPos)

/-- The overall result of parse (which is the compile operation: it
runs scan itself).  A bug outcome records a source assert or
unreachable firing, or a stack pop on an empty array. -/
inductive PResult where
  | ok (ast : Node) (vars : List String)
  | err (e : ErrObj)
  | bug (message : String)
deriving DecidableEq, Repr

/-- parse: scan the input, run the token loop, then the post-loop
checks: assert the operator stack is non-empty, assert its top is the
EOF marker, report a leftover open parenthesis as an unmatched-paren
error (asserting anything else left over is an open parenthesis), and
return the remaining operand as the AST root. -/
def parse (input : List Char) : PResult :=
  match scan input with
  | .error e => .err e
  | .ok (tokens, vars) =>
    match parseLoop tokens [] [] true with
    | .error (.userErr e) => .err e
    | .error (.bug m) => .bug m
    | .ok (operators, operands) =>
      match operators with
      | [] => .bug "Não há operadores na pilha de operadores"
      | top :: rest =>
        if top.type = "$" then
          match rest with
          | [] =>
            match operands with
            | ast :: _ => .ok ast vars
            | [] => .bug "operand stack underflow"
          | mismatched :: _ =>
            if mismatched.type = "(" then
              .err ⟨"Não há parêntesis fechado correspondente para este parêntesis aberto.",
                mismatched.start, mismatched.endPos⟩
            else .bug "De alguma forma, falhou um operador de factorização em EOF"
        else .bug "O topo da pilha não é EOF"

def isBug : PResult → Bool
  | .bug _ => true
  | _ => false

/-- The per-node toString methods of the source: fully parenthesized
rendering of every binary node, a bare prefix entity for negation, HTML
entities for the connective glyphs and constants, and the variable's
name for a variable reference (an out-of-range index would read
undefined in the source; modelled with getD ""). -/
def nodeToString : Node → List String → String
  | .trueNode, _ => "&#8868;"
  | .falseNode, _ => "&#8869;"
  | .negateNode u, vars => "&not;" ++ nodeToString u vars
  | .andNode l r, vars =>
    "(" ++ nodeToString l vars ++ " &and; " ++ nodeToString r vars ++ ")"
  | .orNode l r, vars =>
    "(" ++ nodeToString l vars ++ " &or; " ++ nodeToString r vars ++ ")"
  | .impliesNode l r, vars =>
    "(" ++ nodeToString l vars ++ " &rarr; " ++ nodeToString r vars ++ ")"
  | .iffNode l r, vars =>
    "(" ++ nodeToString l vars ++ " &harr; " ++ nodeToString r vars ++ ")"
  | .variableNode i, vars => vars.getD i ""

/-- After an ampersand, recognise the tail of one of the seven HTML
entities nodeToString emits, returning the Unicode character a browser
renders and the remaining input. -/
def entityHead (l : List Char) : Option (Char × List Char) :=
  if l.take 6 = "#8868;".toList then some ('⊤', l.drop 6)
  else if l.take 6 = "#8869;".toList then some ('⊥', l.drop 6)
  else if l.take 4 = "not;".toList then some ('¬', l.drop 4)
  else if l.take 4 = "and;".toList then some ('∧', l.drop 4)
  else if l.take 3 = "or;".toList then some ('∨', l.drop 3)
  else if l.take 5 = "rarr;".toList then some ('→', l.drop 5)
  else if l.take 5 = "harr;".toList then some ('↔', l.drop 5)
  else none

/-- Decoding loop: each step consumes at least one character, so fuel
equal to the input length suffices. -/
def decodeEntitiesAux : Nat → List Char → List Char
  | 0, _ => []
  | _, [] => []
  | fuel + 1, c :: rest =>
    if c = '&' then
      match entityHead rest with
      | some (d, rest2) => d :: decodeEntitiesAux fuel rest2
      | none => c :: decodeEntitiesAux fuel rest
    else c :: decodeEntitiesAux fuel rest

/-- Decode the seven HTML entities nodeToString emits into the Unicode
characters a browser renders them as, leaving every other character
unchanged. -/
def decodeEntities (l : List Char) : List Char := decodeEntitiesAux l.length l

/-- The indexes of every variable reference in an AST, in order. -/
def varIndices : Node → List Nat
  | .trueNode => []
  | .falseNode => []
  | .negateNode u => varIndices u
  | .andNode l r => varIndices l ++ varIndices r
  | .orNode l r => varIndices l ++ varIndices r
  | .impliesNode l r => varIndices l ++ varIndices r
  | .iffNode l r => varIndices l ++ varIndices r
  | .variableNode i => [i]

/-- The variable index carried by a token (none for other tokens). -/
def tokenVarIndices (t : Token) : List Nat :=
  if t.type = "variable" then [t.index] else []

/-- A well-formed variable name: non-empty, starting with [A-Za-z_],
consisting of [A-Za-z_0-9], and not a reserved word — exactly what
tryReadVariableName can produce. -/
def goodName : List Char → Bool
  | [] => false
  | c :: rest =>
    isVariableStartChar c && (c :: rest).all isVariableChar &&
      !(isReservedWord (c :: rest))

/-- The four binary connectives, used to state the equal-priority
chain-associativity property. -/
inductive BinConn where
  | andC : BinConn
  | orC : BinConn
  | impC : BinConn
  | iffC : BinConn
deriving DecidableEq, Repr

def binConnType : BinConn → String
  | .andC => "/\\"
  | .orC => "\\/"
  | .impC => "->"
  | .iffC => "<->"

def binConnNode : BinConn → Node → Node → Node
  | .andC => .andNode
  | .orC => .orNode
  | .impC => .impliesNode
  | .iffC => .iffNode

/-- The operator token of a binary connective (ranges zeroed; the parser
never reads ranges on a successful parse). -/
def binConnToken (o : BinConn) : Token := ⟨binConnType o, 0, 0, 0⟩

/-- The token sequence of the chain `v ⊕ w₁ ⊕ w₂ ⊕ ...` of one binary
connective over variable tokens. -/
def chainTokens (o : BinConn) : Nat → List Nat → List Token
  | v, [] => [⟨"variable", v, 0, 0⟩]
  | v, w :: ws =>
    ⟨"variable", v, 0, 0⟩ :: binConnToken o :: chainTokens o w ws

/-- The right-associated AST of the same chain:
`v ⊕ (w₁ ⊕ (w₂ ⊕ ...))`. -/
def rightChain (o : BinConn) : Nat → List Nat → Node
  | v, [] => .variableNode v
  | v, w :: ws => binConnNode o (.variableNode v) (rightChain o w ws)

/-- The spelling → canonical-token-kind table of the specification
(§4.1), spelled exactly as listed there. -/
def specOperatorTable : List (List Char × String) :=
  [("/\\".toList, "/\\"), ("&&".toList, "/\\"), ("and".toList, "/\\"),
   ("^".toList, "/\\"), ("∧".toList, "/\\"), ("\\land".toList, "/\\"),
   ("\\wedge".toList, "/\\"),
   ("\\/".toList, "\\/"), ("||".toList, "\\/"), ("or".toList, "\\/"),
   ("∨".toList, "\\/"), ("\\lor".toList, "\\/"), ("\\vee".toList, "\\/"),
   ("->".toList, "->"), ("=>".toList, "->"), ("implies".toList, "->"),
   ("→".toList, "->"), ("\\to".toList, "->"), ("\\rightarrow".toList, "->"),
   ("\\Rightarrow".toList, "->"),
   ("<->".toList, "<->"), ("<=>".toList, "<->"), ("iff".toList, "<->"),
   ("↔".toList, "<->"), ("\\leftrightarrow".toList, "<->"),
   ("\\Leftrightarrow".toList, "<->"),
   ("~".toList, "~"), ("!".toList, "~"), ("not".toList, "~"),
   ("¬".toList, "~"), ("\\lnot".toList, "~"), ("\\neg".toList, "~"),
   ("T".toList, "T"), ("true".toList, "T"), ("⊤".toList, "T"),
   ("\\top".toList, "T"),
   ("F".toList, "F"), ("false".toList, "F"), ("⊥".toList, "F"),
   ("\\bot".toList, "F"),
   ("(".toList, "("), (")".toList, ")")]

/-- The characters of nodeToString's rendering once the seven HTML
entities are decoded to the glyphs a browser shows. -/
def dchars : Node → List String → List Char
  | .trueNode, _ => ['⊤']
  | .falseNode, _ => ['⊥']
  | .negateNode u, vars => '¬' :: dchars u vars
  | .andNode l r, vars =>
    '(' :: (dchars l vars ++ (' ' :: '∧' :: ' ' :: (dchars r vars ++ [')'])))
  | .orNode l r, vars =>
    '(' :: (dchars l vars ++ (' ' :: '∨' :: ' ' :: (dchars r vars ++ [')'])))
  | .impliesNode l r, vars =>
    '(' :: (dchars l vars ++ (' ' :: '→' :: ' ' :: (dchars r vars ++ [')'])))
  | .iffNode l r, vars =>
    '(' :: (dchars l vars ++ (' ' :: '↔' :: ' ' :: (dchars r vars ++ [')'])))
  | .variableNode k, vars => (vars.getD k "").toList

/-- The (type, recorded name) signature of the preliminary token
sequence the scanner reads back from a rendered AST. -/
def linSig : Node → List String → List (String × String)
  | .trueNode, _ => [("T", "")]
  | .falseNode, _ => [("F", "")]
  | .negateNode u, vars => ("~", "") :: linSig u vars
  | .andNode l r, vars =>
    ("(", "") :: (linSig l vars ++ ("/\\", "") :: (linSig r vars ++ [(")", "")]))
  | .orNode l r, vars =>
    ("(", "") :: (linSig l vars ++ ("\\/", "") :: (linSig r vars ++ [(")", "")]))
  | .impliesNode l r, vars =>
    ("(", "") :: (linSig l vars ++ ("->", "") :: (linSig r vars ++ [(")", "")]))
  | .iffNode l r, vars =>
    ("(", "") :: (linSig l vars ++ ("<->", "") :: (linSig r vars ++ [(")", "")]))
  | .variableNode k, vars => [("variable", vars.getD k "")]

/-- The (type, index) signature of the final token sequence compiled
from a rendered AST. -/
def linIdxSig : Node → List (String × Nat)
  | .trueNode => [("T", 0)]
  | .falseNode => [("F", 0)]
  | .negateNode u => ("~", 0) :: linIdxSig u
  | .andNode l r =>
    ("(", 0) :: (linIdxSig l ++ ("/\\", 0) :: (linIdxSig r ++ [(")", 0)]))
  | .orNode l r =>
    ("(", 0) :: (linIdxSig l ++ ("\\/", 0) :: (linIdxSig r ++ [(")", 0)]))
  | .impliesNode l r =>
    ("(", 0) :: (linIdxSig l ++ ("->", 0) :: (linIdxSig r ++ [(")", 0)]))
  | .iffNode l r =>
    ("(", 0) :: (linIdxSig l ++ ("<->", 0) :: (linIdxSig r ++ [(")", 0)]))
  | .variableNode k => [("variable", k)]

/-- The scanner loop run with its canonical fuel, one more than the
remaining input length. -/
def scanFrom (s : List Char) (i : Nat) (varSet : List String) :
    Except ErrObj (List PToken × List String) :=
  preliminaryScanAux (s.length + 1) s i varSet

/-- Prepend a block of tokens to a successful scan result. -/
def psPrepend (pt : List PToken) :
    Except ErrObj (List PToken × List String) →
    Except ErrObj (List PToken × List String)
  | .ok (toks, vs) => .ok (pt ++ toks, vs)
  | .error e => .error e

/-- The variable set built up while scanning the listed variable
references. -/
def pushVars (vars : List String) : List Nat → List String → List String
  | [], varSet => varSet
  | k :: ks, varSet => pushVars vars ks (insertVariable (vars.getD k "") varSet)

/-- The nine single-character glyphs the rendering emits at operator
positions. -/
def glyphChars : List Char := ['(', ')', '¬', '∧', '∨', '→', '↔', '⊤', '⊥']

theorem toNatMSB_lt (a : List Bool) : toNatMSB a < 2 ^ a.length := by
  induction a with
  | nil => simp [toNatMSB]
  | cons b rest ih =>
    simp only [toNatMSB, List.length_cons, pow_succ]
    cases b <;> simp <;> omega

theorem toNatMSB_replicate_false (n : Nat) :
    toNatMSB (List.replicate n false) = 0 := by
  induction n with
  | zero => rfl
  | succ n ih => simp [List.replicate_succ, toNatMSB, ih]

theorem toNatMSB_map_false (l : List Bool) :
    toNatMSB (l.map fun _ => false) = 0 := by
  rw [List.map_const']
  exact toNatMSB_replicate_false _

theorem nextAssignment_eq_none (a : List Bool) :
    nextAssignment a = none ↔ toNatMSB a = 2 ^ a.length - 1 := by
  induction a with
  | nil => simp [nextAssignment, toNatMSB]
  | cons b rest ih =>
    have hlt := toNatMSB_lt rest
    have hpos : 1 ≤ 2 ^ rest.length := Nat.one_le_two_pow
    simp only [nextAssignment, toNatMSB, List.length_cons, pow_succ]
    cases h : nextAssignment rest with
    | some rest2 =>
      have hne : ¬ toNatMSB rest = 2 ^ rest.length - 1 := by
        rw [← ih]; simp [h]
      constructor
      · intro hcontra; exact Option.noConfusion hcontra
      · intro heq; exfalso; cases b <;> simp at heq <;> omega
    | none =>
      have hmax : toNatMSB rest = 2 ^ rest.length - 1 := ih.mp h
      cases b with
      | true => simp; omega
      | false => simp; omega

theorem nextAssignment_eq_some (a a' : List Bool)
    (h : nextAssignment a = some a') :
    a'.length = a.length ∧ toNatMSB a' = toNatMSB a + 1 := by
  induction a generalizing a' with
  | nil => simp [nextAssignment] at h
  | cons b rest ih =>
    simp only [nextAssignment] at h
    cases hr : nextAssignment rest with
    | some rest2 =>
      rw [hr] at h
      simp only [Option.some.injEq] at h
      subst h
      obtain ⟨hlen, hval⟩ := ih rest2 hr
      constructor
      · simp [hlen]
      · simp only [toNatMSB, hlen]
        omega
    | none =>
      rw [hr] at h
      have hmax : toNatMSB rest = 2 ^ rest.length - 1 :=
        (nextAssignment_eq_none rest).mp hr
      have hpos : 1 ≤ 2 ^ rest.length := Nat.one_le_two_pow
      cases b with
      | true => simp at h
      | false =>
        rw [if_neg (by simp)] at h
        simp only [Option.some.injEq] at h
        subst h
        constructor
        · simp
        · simp only [toNatMSB, List.length_map, toNatMSB_map_false,
            cond_true, cond_false]
          omega

theorem toNatMSB_injective (v w : List Bool)
    (hlen : v.length = w.length) (hval : toNatMSB v = toNatMSB w) : v = w := by
  induction v generalizing w with
  | nil => cases w with
    | nil => rfl
    | cons c t => simp at hlen
  | cons b rest ih =>
    cases w with
    | nil => simp at hlen
    | cons c t =>
      simp only [List.length_cons, Nat.succ.injEq] at hlen
      have h1 : toNatMSB rest < 2 ^ t.length := by
        have := toNatMSB_lt rest; rwa [hlen] at this
      have h2 := toNatMSB_lt t
      simp only [toNatMSB, hlen] at hval
      have hbc : b = c := by
        cases b <;> cases c <;> simp at hval ⊢ <;> omega
      subst hbc
      have : toNatMSB rest = toNatMSB t := by
        cases b <;> simp at hval <;> omega
      rw [ih t hlen this]

theorem generateTruthTableAux_spec (fuel : Nat) :
    ∀ (ast : Node) (a : List Bool), 2 ^ a.length - toNatMSB a ≤ fuel →
      (((generateTruthTableAux ast fuel a).map Prod.fst).map toNatMSB
          = List.range' (toNatMSB a) (2 ^ a.length - toNatMSB a))
      ∧ ∀ v ∈ (generateTruthTableAux ast fuel a).map Prod.fst,
          v.length = a.length := by
  induction fuel with
  | zero =>
    intro ast a hfuel
    have := toNatMSB_lt a
    omega
  | succ fuel ih =>
    intro ast a hfuel
    have hlt := toNatMSB_lt a
    simp only [generateTruthTableAux]
    cases h : nextAssignment a with
    | none =>
      have hmax : toNatMSB a = 2 ^ a.length - 1 :=
        (nextAssignment_eq_none a).mp h
      have hone : 2 ^ a.length - toNatMSB a = 1 := by omega
      rw [hone]
      simp [List.range']
    | some a' =>
      have hsome := nextAssignment_eq_some a a' h
      have hnotmax : toNatMSB a ≠ 2 ^ a.length - 1 := by
        intro hcontra
        have := (nextAssignment_eq_none a).mpr hcontra
        rw [this] at h; exact Option.noConfusion h
      obtain ⟨hlen, hval⟩ := hsome
      have hfuel' : 2 ^ a'.length - toNatMSB a' ≤ fuel := by
        rw [hlen, hval]; omega
      obtain ⟨ih1, ih2⟩ := ih ast a' hfuel'
      constructor
      · simp only [List.map_cons, ih1, hlen, hval]
        have hcount : 2 ^ a.length - toNatMSB a
            = (2 ^ a.length - (toNatMSB a + 1)) + 1 := by omega
        rw [hcount, List.range'_succ]
      · intro v hv
        simp only [List.map_cons, List.mem_cons] at hv
        rcases hv with rfl | hv
        · rfl
        · rw [ih2 v hv, hlen]

/-- C1.  The enumeration operation invokes its sink exactly `2 ^ n`
times, each time with a distinct assignment of length `n`; every boolean
vector of length `n` occurs; the visit order is the ascending
binary-counter order in which index 0 is the most significant bit
(conjunct four: the sequence of counter values is `0, 1, ..., 2 ^ n - 1`);
and for `n = 0` the sink is invoked exactly once with the empty
assignment. -/
theorem claim1_enumeration (ast : Node) (n : Nat) :
    (generateTruthTable ast n).length = 2 ^ n
  ∧ ((generateTruthTable ast n).map Prod.fst).Nodup
  ∧ (∀ v, v ∈ (generateTruthTable ast n).map Prod.fst ↔ v.length = n)
  ∧ (((generateTruthTable ast n).map Prod.fst).map toNatMSB
      = List.range (2 ^ n))
  ∧ generateTruthTable ast 0 = [([], evaluate ast [])] := by
  have hstart : toNatMSB (List.replicate n false) = 0 :=
    toNatMSB_replicate_false n
  have hlen0 : (List.replicate n false).length = n := List.length_replicate n false
  have hspec := generateTruthTableAux_spec (2 ^ n) ast (List.replicate n false)
    (by rw [hlen0, hstart]; exact Nat.sub_le _ _)
  rw [hlen0, hstart, Nat.sub_zero] at hspec
  obtain ⟨hmap, hlens⟩ := hspec
  have hrange : (((generateTruthTable ast n).map Prod.fst).map toNatMSB
      = List.range (2 ^ n)) := by
    rw [generateTruthTable, hmap, List.range_eq_range']
  refine ⟨?_, ?_, ?_, hrange, ?_⟩
  · have := congrArg List.length hrange
    simpa using this
  · have hnodup : (((generateTruthTable ast n).map Prod.fst).map toNatMSB).Nodup := by
      rw [hrange]; exact List.nodup_range _
    exact hnodup.of_map toNatMSB
  · intro v
    constructor
    · intro hv
      exact hlens v hv
    · intro hvlen
      have hvlt : toNatMSB v < 2 ^ n := by
        have := toNatMSB_lt v; rwa [hvlen] at this
      have : toNatMSB v ∈ ((generateTruthTable ast n).map Prod.fst).map toNatMSB := by
        rw [hrange]; exact List.mem_range.mpr hvlt
      obtain ⟨u, hu, huval⟩ := List.mem_map.mp this
      have hueq : u = v := toNatMSB_injective u v
        (by rw [hlens u hu, hvlen]) huval
      rwa [hueq] at hu
  · rfl

/-- C4.  Truth-functional semantics of evaluation: constants return
their literal, a variable reference returns the assignment entry at its
index (for every in-range index), negation complements its child,
and/or are boolean conjunction/disjunction, implication is
(not lhs) or rhs, and iff is boolean equality of the two sides;
consequently "~p \/ q" and "p -> q" compile to ASTs with identical
truth tables over all four assignments on {p, q}. -/
theorem claim4_evaluation_semantics :
    (∀ a, evaluate .trueNode a = true)
  ∧ (∀ a, evaluate .falseNode a = false)
  ∧ (∀ (i : Nat) (a : List Bool) (h : i < a.length),
      evaluate (.variableNode i) a = a[i])
  ∧ (∀ u a, evaluate (.negateNode u) a = !(evaluate u a))
  ∧ (∀ l r a, evaluate (.andNode l r) a = (evaluate l a && evaluate r a))
  ∧ (∀ l r a, evaluate (.orNode l r) a = (evaluate l a || evaluate r a))
  ∧ (∀ l r a, evaluate (.impliesNode l r) a = (!(evaluate l a) || evaluate r a))
  ∧ (∀ l r a, evaluate (.iffNode l r) a = (evaluate l a == evaluate r a))
  ∧ (∃ ast1 ast2,
      parse "~p \\/ q".toList = .ok ast1 ["p", "q"]
      ∧ parse "p -> q".toList = .ok ast2 ["p", "q"]
      ∧ (generateTruthTable ast1 2).map Prod.fst
          = (generateTruthTable ast2 2).map Prod.fst
      ∧ (generateTruthTable ast1 2).map Prod.snd
          = (generateTruthTable ast2 2).map Prod.snd
      ∧ (generateTruthTable ast1 2).length = 4) := by
  refine ⟨fun a => rfl, fun a => rfl, ?_, fun u a => rfl, fun l r a => rfl,
    fun l r a => rfl, fun l r a => rfl, fun l r a => rfl,
    .orNode (.negateNode (.variableNode 0)) (.variableNode 1),
    .impliesNode (.variableNode 0) (.variableNode 1),
    by decide, by decide, by decide, by decide, by decide⟩
  intro i a h
  exact List.getD_eq_getElem a false h

theorem claim4_evaluation_semantics_witness :
    (2 < ([false, true, true] : List Bool).length)
  ∧ evaluate (.variableNode 2) [false, true, true] = true :=
  ⟨by decide, by
    have := claim4_evaluation_semantics.2.2.1 2 [false, true, true] (by decide)
    simpa using this⟩

theorem binConn_facts (o : BinConn) :
    isBinaryOperator (binConnToken o) = true
  ∧ ¬ (binConnToken o).type = "("
  ∧ ¬ (binConnToken o).type = "~"
  ∧ ¬ (binConnToken o).type = "$"
  ∧ ∃ p : Int, priorityOf (binConnToken o) = some p ∧ 0 ≤ p := by
  cases o <;> exact ⟨rfl, by decide, by decide, by decide, _, rfl, by decide⟩

theorem createOperatorNode_binConn (o : BinConn) (l r : Node) :
    createOperatorNode l (binConnToken o) r = some (binConnNode o l r) := by
  cases o <;> rfl

theorem addOperand_cons_of_ne (node : Node) (opn : List Node) (t : Token)
    (rest : List Token) (h : ¬ t.type = "~") :
    addOperand node opn (t :: rest) = (node :: opn, t :: rest) := by
  simp [addOperand, h]

theorem addOperand_replicate_binConn (o : BinConn) (node : Node)
    (opn : List Node) (n : Nat) :
    addOperand node opn (List.replicate n (binConnToken o))
      = (node :: opn, List.replicate n (binConnToken o)) := by
  cases n with
  | zero => rfl
  | succ n =>
    rw [List.replicate_succ]
    exact addOperand_cons_of_ne _ _ _ _ (binConn_facts o).2.2.1

theorem priorityOf_eof (e : Token) (he : e.type = "$") :
    priorityOf e = some (-1) := by
  simp [priorityOf, he]

theorem resolveOperators_nil (fuel : Nat) (curr : Token) (opn : List Node) :
    resolveOperators fuel curr [] opn = .ok ([], opn) := by
  cases fuel <;> rfl

theorem resolveOperators_same (o : BinConn) (fuel : Nat) (n : Nat)
    (opn : List Node) :
    resolveOperators fuel (binConnToken o) (List.replicate n (binConnToken o)) opn
      = .ok (List.replicate n (binConnToken o), opn) := by
  cases n with
  | zero => exact resolveOperators_nil fuel _ opn
  | succ n => rw [List.replicate_succ]; cases fuel <;> cases o <;> rfl

theorem resolveOperators_chain (o : BinConn) (e : Token) (he : e.type = "$") :
    ∀ (rest : List Node) (top : Node),
      resolveOperators rest.length e (List.replicate rest.length (binConnToken o))
          (top :: rest)
        = .ok ([], [rest.foldl (fun acc n => binConnNode o n acc) top]) := by
  intro rest
  induction rest with
  | nil => intro top; rfl
  | cons r1 rest2 ih =>
    intro top
    obtain ⟨-, hparen, -, -, p, hp, hp0⟩ := binConn_facts o
    rw [List.length_cons, List.replicate_succ]
    simp only [resolveOperators]
    rw [if_neg hparen, hp, priorityOf_eof e he]
    simp only []
    rw [if_neg (by omega : ¬ p ≤ (-1 : Int))]
    simp only [createOperatorNode_binConn, addOperand_replicate_binConn]
    rw [ih (binConnNode o r1 top)]
    simp

theorem parseLoop_chain (o : BinConn) (e : Token) (he : e.type = "$") :
    ∀ (vs : List Nat) (v : Nat) (pre : List Nat),
      parseLoop (chainTokens o v vs ++ [e])
          (List.replicate pre.length (binConnToken o))
          ((pre.map Node.variableNode).reverse) true
        = .ok ([e], [pre.foldr
            (fun w acc => binConnNode o (.variableNode w) acc)
            (rightChain o v vs)]) := by
  intro vs
  induction vs with
  | nil =>
    intro v pre
    have hop : isOperand ⟨"variable", v, 0, 0⟩ = true := rfl
    have hwrap : wrapOperand ⟨"variable", v, 0, 0⟩
        = some (Node.variableNode v) := rfl
    simp only [chainTokens, List.cons_append, List.nil_append, parseLoop,
      hop, hwrap, eq_self_iff_true, if_true, he, Bool.false_eq_true, if_false,
      or_true]
    rw [addOperand_replicate_binConn]
    simp only [List.length_replicate]
    have hlen : pre.length = ((pre.map Node.variableNode).reverse).length := by
      simp
    rw [hlen, resolveOperators_chain o e he ((pre.map Node.variableNode).reverse)
      (Node.variableNode v)]
    simp [List.foldl_reverse, List.foldr_map, rightChain]
  | cons w ws ih =>
    intro v pre
    have hop : isOperand ⟨"variable", v, 0, 0⟩ = true := rfl
    have hwrap : wrapOperand ⟨"variable", v, 0, 0⟩
        = some (Node.variableNode v) := rfl
    simp only [chainTokens, List.cons_append, parseLoop,
      hop, hwrap, eq_self_iff_true, if_true, Bool.false_eq_true, if_false,
      (binConn_facts o).1, true_or]
    rw [addOperand_replicate_binConn]
    simp only [List.length_replicate]
    rw [resolveOperators_same]
    simp only []
    rw [if_neg (binConn_facts o).2.2.2.1]
    have hstack : Node.variableNode v :: (pre.map Node.variableNode).reverse
        = ((pre ++ [v]).map Node.variableNode).reverse := by
      simp
    have hops : binConnToken o :: List.replicate pre.length (binConnToken o)
        = List.replicate (pre ++ [v]).length (binConnToken o) := by
      simp [List.replicate_succ]
    rw [hstack, hops]
    simp only [List.append_eq, Bool.true_or, eq_self_iff_true, if_true]
    rw [ih w (pre ++ [v])]
    simp [List.foldr_append, rightChain]

/-- C3.  Because the precedence-resolution loop pops a stacked operator
only when its priority is strictly greater than the incoming one,
chains of one binary connective (the only way two binary operators
share a priority) group right-associatively: for every connective and
every chain of variables, the parser loop produces the right-nested
tree; in particular "p and q and r" parses to And(p, And(q, r)) and
not to And(And(p, q), r). -/
theorem claim3_right_associativity :
    (∀ (o : BinConn) (v : Nat) (vs : List Nat) (a b : Nat),
      parseLoop (chainTokens o v vs ++ [⟨"$", 0, a, b⟩]) [] [] true
        = .ok ([⟨"$", 0, a, b⟩], [rightChain o v vs]))
  ∧ parse "p and q and r".toList
      = .ok (.andNode (.variableNode 0)
          (.andNode (.variableNode 1) (.variableNode 2))) ["p", "q", "r"]
  ∧ parse "p and q and r".toList
      ≠ .ok (.andNode (.andNode (.variableNode 0) (.variableNode 1))
          (.variableNode 2)) ["p", "q", "r"] := by
  refine ⟨?_, by decide, by decide⟩
  intro o v vs a b
  have h := parseLoop_chain o ⟨"$", 0, a, b⟩ rfl vs v []
  simpa using h

theorem tryReadOperator_mem (s t : List Char)
    (h : tryReadOperator s = some t) :
    t ∈ opSpellings ∧ s.take t.length = t ∧ 1 ≤ t.length
      ∧ t.length ≤ s.length := by
  unfold tryReadOperator at h
  split_ifs at h with h15 h11 h7 h6 h5 h4 h3 h2
  · simp only [Option.some.injEq] at h; subst h
    have hl : (s.take 15).length = 15 := by rw [List.length_take]; omega
    refine ⟨?_, by rw [hl], by omega, by omega⟩
    rcases h15.2 with hc | hc <;> rw [hc] <;> decide
  · simp only [Option.some.injEq] at h; subst h
    have hl : (s.take 11).length = 11 := by rw [List.length_take]; omega
    refine ⟨?_, by rw [hl], by omega, by omega⟩
    rcases h11.2 with hc | hc <;> rw [hc] <;> decide
  · simp only [Option.some.injEq] at h; subst h
    have hl : (s.take 7).length = 7 := by rw [List.length_take]; omega
    refine ⟨?_, by rw [hl], by omega, by omega⟩
    rw [h7.2]; decide
  · simp only [Option.some.injEq] at h; subst h
    have hl : (s.take 6).length = 6 := by rw [List.length_take]; omega
    refine ⟨?_, by rw [hl], by omega, by omega⟩
    rw [h6.2]; decide
  · simp only [Option.some.injEq] at h; subst h
    have hl : (s.take 5).length = 5 := by rw [List.length_take]; omega
    refine ⟨?_, by rw [hl], by omega, by omega⟩
    rcases h5.2 with hc | hc | hc | hc <;> rw [hc] <;> decide
  · simp only [Option.some.injEq] at h; subst h
    have hl : (s.take 4).length = 4 := by rw [List.length_take]; omega
    refine ⟨?_, by rw [hl], by omega, by omega⟩
    rcases h4.2 with hc | hc | hc | hc | hc | hc <;> rw [hc] <;> decide
  · simp only [Option.some.injEq] at h; subst h
    have hl : (s.take 3).length = 3 := by rw [List.length_take]; omega
    refine ⟨?_, by rw [hl], by omega, by omega⟩
    rcases h3.2 with hc | hc | hc | hc | hc | hc <;> rw [hc] <;> decide
  · simp only [Option.some.injEq] at h; subst h
    have hl : (s.take 2).length = 2 := by rw [List.length_take]; omega
    refine ⟨?_, by rw [hl], by omega, by omega⟩
    rcases h2.2 with hc | hc | hc | hc | hc | hc | hc <;> rw [hc] <;> decide
  · rcases s with _ | ⟨c, cs⟩
    · exact absurd h (by simp)
    · simp only [] at h
      split_ifs at h with hc
      · simp only [Option.some.injEq] at h; subst h
        refine ⟨?_, rfl, by simp, by simp⟩
        simp only [Bool.or_eq_true, decide_eq_true_eq] at hc
        casesm* _ ∨ _ <;> subst_vars <;> decide

theorem opSpellings_g15 :
    ∀ u ∈ opSpellings,

      (¬ u.length = 15 ∨ u = "\\leftrightarrow".toList ∨ u = "\\Leftrightarrow".toList) := by
  decide

theorem opSpellings_g11 :
    ∀ u ∈ opSpellings,
      (¬ u.length = 11 ∨ u = "\\rightarrow".toList ∨ u = "\\Rightarrow".toList) := by
  decide

theorem opSpellings_g7 :
    ∀ u ∈ opSpellings,
      (¬ u.length = 7 ∨ u = "implies".toList) := by
  decide

theorem opSpellings_g6 :
    ∀ u ∈ opSpellings,
      (¬ u.length = 6 ∨ u = "\\wedge".toList) := by
  decide

theorem opSpellings_g5 :
    ∀ u ∈ opSpellings,
      (¬ u.length = 5 ∨ u = "false".toList ∨ u = "\\lnot".toList ∨
        u = "\\lneg".toList ∨ u = "\\land".toList) := by
  decide

theorem opSpellings_g4 :
    ∀ u ∈ opSpellings,
      (¬ u.length = 4 ∨ u = "true".toList ∨ u = "\\top".toList ∨
        u = "\\bot".toList ∨ u = "\\lor".toList ∨ u = "\\vee".toList ∨
        u = "\\neg".toList) := by
  decide

theorem opSpellings_g3 :
    ∀ u ∈ opSpellings,
      (¬ u.length = 3 ∨ u = "<->".toList ∨ u = "and".toList ∨
        u = "<=>".toList ∨ u = "not".toList ∨ u = "iff".toList ∨
        u = "\\to".toList) := by
  decide

theorem opSpellings_g2 :
    ∀ u ∈ opSpellings,
      (¬ u.length = 2 ∨ u = "/\\".toList ∨ u = "\\/".toList ∨
        u = "->".toList ∨ u = "&&".toList ∨ u = "||".toList ∨
        u = "or".toList ∨ u = "=>".toList) := by
  decide

theorem opSpellings_g1 :
    ∀ u ∈ opSpellings,
      (¬ u.length = 1 ∨ u = ['('] ∨ u = [')'] ∨ u = ['~'] ∨ u = ['T'] ∨
        u = ['F'] ∨ u = ['^'] ∨ u = ['!'] ∨ u = ['∧'] ∨ u = ['∨'] ∨
        u = ['→'] ∨ u = ['↔'] ∨ u = ['⊤'] ∨ u = ['⊥'] ∨ u = ['¬']) := by
  decide

theorem opSpellings_glens :
    ∀ u ∈ opSpellings,
      (u.length = 15 ∨ u.length = 11 ∨ u.length = 7 ∨ u.length = 6 ∨
        u.length = 5 ∨ u.length = 4 ∨ u.length = 3 ∨ u.length = 2 ∨
        u.length = 1)  := by
  decide

theorem tryReadOperator_maximal (s w : List Char) (hw : w ∈ opSpellings)
    (hpre : s.take w.length = w) (hlen : w.length ≤ s.length) :
    ∃ t, tryReadOperator s = some t ∧ w.length ≤ t.length := by
  have g15 := opSpellings_g15 w hw
  have g11 := opSpellings_g11 w hw
  have g7 := opSpellings_g7 w hw
  have g6 := opSpellings_g6 w hw
  have g5 := opSpellings_g5 w hw
  have g4 := opSpellings_g4 w hw
  have g3 := opSpellings_g3 w hw
  have g2 := opSpellings_g2 w hw
  have g1 := opSpellings_g1 w hw
  have glen := opSpellings_glens w hw
  have hw15 : w.length ≤ 15 := by
    rcases glen with h|h|h|h|h|h|h|h|h <;> omega
  by_cases h15 : 15 ≤ s.length ∧ (s.take 15 = "\\leftrightarrow".toList ∨
      s.take 15 = "\\Leftrightarrow".toList)
  · refine ⟨s.take 15, ?_, ?_⟩
    · unfold tryReadOperator; rw [if_pos h15]
    · rw [List.length_take]; have := h15.1; omega
  have hne15 : ¬ w.length = 15 := by
    intro h
    rw [h] at hpre
    exact h15 ⟨by omega, by rw [hpre]; exact g15.resolve_left (fun hn => hn h)⟩
  by_cases h11 : 11 ≤ s.length ∧ (s.take 11 = "\\rightarrow".toList ∨
      s.take 11 = "\\Rightarrow".toList)
  · refine ⟨s.take 11, ?_, ?_⟩
    · unfold tryReadOperator; rw [if_neg h15, if_pos h11]
    · rw [List.length_take]
      have hle : w.length ≤ 11 := by rcases glen with h|h|h|h|h|h|h|h|h <;> omega
      have := h11.1; omega
  have hne11 : ¬ w.length = 11 := by
    intro h
    rw [h] at hpre
    exact h11 ⟨by omega, by rw [hpre]; exact g11.resolve_left (fun hn => hn h)⟩
  by_cases h7 : 7 ≤ s.length ∧ s.take 7 = "implies".toList
  · refine ⟨s.take 7, ?_, ?_⟩
    · unfold tryReadOperator; rw [if_neg h15, if_neg h11, if_pos h7]
    · rw [List.length_take]
      have hle : w.length ≤ 7 := by rcases glen with h|h|h|h|h|h|h|h|h <;> omega
      have := h7.1; omega
  have hne7 : ¬ w.length = 7 := by
    intro h
    rw [h] at hpre
    exact h7 ⟨by omega, by rw [hpre]; exact g7.resolve_left (fun hn => hn h)⟩
  by_cases h6 : 6 ≤ s.length ∧ s.take 6 = "\\wedge".toList
  · refine ⟨s.take 6, ?_, ?_⟩
    · unfold tryReadOperator; rw [if_neg h15, if_neg h11, if_neg h7, if_pos h6]
    · rw [List.length_take]
      have hle : w.length ≤ 6 := by rcases glen with h|h|h|h|h|h|h|h|h <;> omega
      have := h6.1; omega
  have hne6 : ¬ w.length = 6 := by
    intro h
    rw [h] at hpre
    exact h6 ⟨by omega, by rw [hpre]; exact g6.resolve_left (fun hn => hn h)⟩
  by_cases h5 : 5 ≤ s.length ∧ (s.take 5 = "false".toList ∨
      s.take 5 = "\\lnot".toList ∨ s.take 5 = "\\lneg".toList ∨
      s.take 5 = "\\land".toList)
  · refine ⟨s.take 5, ?_, ?_⟩
    · unfold tryReadOperator
      rw [if_neg h15, if_neg h11, if_neg h7, if_neg h6, if_pos h5]
    · rw [List.length_take]
      have hle : w.length ≤ 5 := by rcases glen with h|h|h|h|h|h|h|h|h <;> omega
      have := h5.1; omega
  have hne5 : ¬ w.length = 5 := by
    intro h
    rw [h] at hpre
    exact h5 ⟨by omega, by rw [hpre]; exact g5.resolve_left (fun hn => hn h)⟩
  by_cases h4 : 4 ≤ s.length ∧ (s.take 4 = "true".toList ∨
      s.take 4 = "\\top".toList ∨ s.take 4 = "\\bot".toList ∨
      s.take 4 = "\\lor".toList ∨ s.take 4 = "\\vee".toList ∨
      s.take 4 = "\\neg".toList)
  · refine ⟨s.take 4, ?_, ?_⟩
    · unfold tryReadOperator
      rw [if_neg h15, if_neg h11, if_neg h7, if_neg h6, if_neg h5, if_pos h4]
    · rw [List.length_take]
      have hle : w.length ≤ 4 := by rcases glen with h|h|h|h|h|h|h|h|h <;> omega
      have := h4.1; omega
  have hne4 : ¬ w.length = 4 := by
    intro h
    rw [h] at hpre
    exact h4 ⟨by omega, by rw [hpre]; exact g4.resolve_left (fun hn => hn h)⟩
  by_cases h3 : 3 ≤ s.length ∧ (s.take 3 = "<->".toList ∨
      s.take 3 = "and".toList ∨ s.take 3 = "<=>".toList ∨
      s.take 3 = "not".toList ∨ s.take 3 = "iff".toList ∨
      s.take 3 = "\\to".toList)
  · refine ⟨s.take 3, ?_, ?_⟩
    · unfold tryReadOperator
      rw [if_neg h15, if_neg h11, if_neg h7, if_neg h6, if_neg h5, if_neg h4,
        if_pos h3]
    · rw [List.length_take]
      have hle : w.length ≤ 3 := by rcases glen with h|h|h|h|h|h|h|h|h <;> omega
      have := h3.1; omega
  have hne3 : ¬ w.length = 3 := by
    intro h
    rw [h] at hpre
    exact h3 ⟨by omega, by rw [hpre]; exact g3.resolve_left (fun hn => hn h)⟩
  by_cases h2 : 2 ≤ s.length ∧ (s.take 2 = "/\\".toList ∨
      s.take 2 = "\\/".toList ∨ s.take 2 = "->".toList ∨
      s.take 2 = "&&".toList ∨ s.take 2 = "||".toList ∨
      s.take 2 = "or".toList ∨ s.take 2 = "=>".toList)
  · refine ⟨s.take 2, ?_, ?_⟩
    · unfold tryReadOperator
      rw [if_neg h15, if_neg h11, if_neg h7, if_neg h6, if_neg h5, if_neg h4,
        if_neg h3, if_pos h2]
    · rw [List.length_take]
      have hle : w.length ≤ 2 := by rcases glen with h|h|h|h|h|h|h|h|h <;> omega
      have := h2.1; omega
  have hne2 : ¬ w.length = 2 := by
    intro h
    rw [h] at hpre
    exact h2 ⟨by omega, by rw [hpre]; exact g2.resolve_left (fun hn => hn h)⟩
  have h1len : w.length = 1 := by
    rcases glen with h|h|h|h|h|h|h|h|h <;> omega
  rcases s with _ | ⟨c, cs⟩
  · rw [List.length_nil] at hlen; omega
  · rw [h1len] at hpre
    have hcw : w = [c] := hpre.symm
    subst hcw
    have hmem1 := g1.resolve_left (fun hn => hn h1len)
    have hcond : (c = '(' || c = ')' || c = '~' || c = 'T' || c = 'F' ||
        c = '^' || c = '!' || c = '∧' || c = '∨' || c = '→' || c = '↔' ||
        c = '⊤' || c = '⊥' || c = '¬') = true := by
      rcases hmem1 with h|h|h|h|h|h|h|h|h|h|h|h|h|h <;>
        (injection h with h1 h2; subst h1; rfl)
    refine ⟨[c], ?_, by rw [h1len]⟩
    unfold tryReadOperator
    rw [if_neg h15, if_neg h11, if_neg h7, if_neg h6, if_neg h5, if_neg h4,
      if_neg h3, if_neg h2]
    simp [hcond]

/-- C5.  For every operator spelling in the specification's translation
table, scanning an input consisting of exactly that spelling yields one
token of the corresponding canonical kind followed by the end-of-input
token; and wherever any accepted spelling starts, tryReadOperator
matches a spelling at least as long, so a longer spelling such as
"implies" is never split into shorter tokens. -/
theorem claim5_maximal_munch :
    (∀ p ∈ specOperatorTable,
      scan p.1 = .ok ([⟨p.2, 0, 0, p.1.length⟩,
        ⟨"$", 0, p.1.length, p.1.length + 1⟩], []))
  ∧ (∀ (s w : List Char), w ∈ opSpellings → s.take w.length = w →
      w.length ≤ s.length →
      ∃ t, tryReadOperator s = some t ∧ w.length ≤ t.length) := by
  exact ⟨by decide, tryReadOperator_maximal⟩

theorem claim5_maximal_munch_witness :
    (("implies".toList, "->") ∈ specOperatorTable
      ∧ scan "implies".toList
          = .ok ([⟨"->", 0, 0, ("implies".toList).length⟩,
              ⟨"$", 0, ("implies".toList).length, ("implies".toList).length + 1⟩], []))
  ∧ ("implies".toList ∈ opSpellings
      ∧ ∃ t, tryReadOperator "implies->".toList = some t
          ∧ ("implies".toList).length ≤ t.length) :=
  ⟨⟨by decide, claim5_maximal_munch.1 ("implies".toList, "->") (by decide)⟩,
   ⟨by decide, claim5_maximal_munch.2 "implies->".toList "implies".toList
      (by decide) (by decide) (by decide)⟩⟩

theorem isVariableChar_of_start {c : Char}
    (h : isVariableStartChar c = true) : isVariableChar c = true := by
  simp only [isVariableStartChar, Bool.or_eq_true] at h
  simp only [isVariableChar, Bool.or_eq_true]
  tauto

theorem take_takeWhile (p : Char → Bool) :
    ∀ (l : List Char), l.take (l.takeWhile p).length = l.takeWhile p := by
  intro l
  induction l with
  | nil => rfl
  | cons c cs ih =>
    by_cases h : p c
    · rw [List.takeWhile_cons_of_pos h]
      simp only [List.length_cons, List.take_succ_cons, ih]
    · rw [List.takeWhile_cons_of_neg h]
      rfl

theorem length_takeWhile (p : Char → Bool) :
    ∀ (l : List Char), (l.takeWhile p).length ≤ l.length := by
  intro l
  induction l with
  | nil => simp
  | cons c cs ih =>
    by_cases h : p c
    · rw [List.takeWhile_cons_of_pos h]; simpa using ih
    · rw [List.takeWhile_cons_of_neg h]; simp

theorem mem_takeWhile (p : Char → Bool) :
    ∀ (l : List Char), ∀ c ∈ l.takeWhile p, p c = true := by
  intro l
  induction l with
  | nil => simp
  | cons c cs ih =>
    by_cases h : p c
    · rw [List.takeWhile_cons_of_pos h]
      intro d hd
      rcases List.mem_cons.mp hd with rfl | hd
      · exact h
      · exact ih d hd
    · rw [List.takeWhile_cons_of_neg h]
      simp

theorem tryReadVariableName_sound (s n : List Char)
    (h : tryReadVariableName s = some n) :
    goodName n = true ∧ s.take n.length = n ∧ 1 ≤ n.length
      ∧ n.length ≤ s.length := by
  match s with
  | [] => exact absurd h (by simp [tryReadVariableName])
  | c :: cs =>
    simp only [tryReadVariableName] at h
    split_ifs at h with hstart hres
    simp only [Option.some.injEq] at h
    subst h
    have htw : (c :: cs).takeWhile isVariableChar
        = c :: cs.takeWhile isVariableChar :=
      List.takeWhile_cons_of_pos (isVariableChar_of_start hstart)
    refine ⟨?_, take_takeWhile _ _, ?_, ?_⟩
    · rw [htw]
      simp only [goodName, Bool.and_eq_true, Bool.not_eq_true']
      refine ⟨⟨hstart, ?_⟩, ?_⟩
      · rw [← htw]
        simp only [List.all_eq_true]
        exact mem_takeWhile _ _
      · rw [← htw]
        simp only [Bool.not_eq_true] at hres ⊢
        exact hres
    · rw [htw]; simp
    · exact length_takeWhile _ _

theorem goodName_all_varChar {n : List Char} (h : goodName n = true) :
    ∀ c ∈ n, isVariableChar c = true := by
  match n with
  | [] => simp [goodName] at h
  | c :: cs =>
    simp only [goodName, Bool.and_eq_true, List.all_eq_true] at h
    exact h.1.2

theorem opSpellings_no_dollar : ∀ w ∈ opSpellings, '$' ∉ w := by decide

theorem opSpellings_translate_ne : ∀ w ∈ opSpellings,
    ¬ translate (String.mk w) = "$" ∧ ¬ translate (String.mk w) = "variable" := by
  decide

theorem dollar_not_varChar : isVariableChar '$' = false := rfl

theorem length_le_of_no_dollar (body u : List Char)
    (h : (body ++ ['$']).take u.length = u) (hd : '$' ∉ u)
    (hle : u.length ≤ body.length + 1) : u.length ≤ body.length := by
  by_contra hgt
  have hlen : u.length = body.length + 1 := by omega
  have hfull : (body ++ ['$']).take u.length = body ++ ['$'] := by
    rw [hlen]
    have : (body ++ ['$']).length = body.length + 1 := by simp
    rw [← this, List.take_length]
  rw [hfull] at h
  exact hd (h ▸ List.mem_append_right body (by simp))

theorem insertVariable_mem (m : String) (vs : List String) (n : String) :
    n ∈ insertVariable m vs ↔ n = m ∨ n ∈ vs := by
  unfold insertVariable
  split_ifs with h
  · constructor
    · exact fun hn => Or.inr hn
    · rintro (rfl | hn)
      · exact h
      · exact hn
  · simp [or_comm]

theorem insertVariable_nodup (m : String) (vs : List String)
    (h : vs.Nodup) : (insertVariable m vs).Nodup := by
  unfold insertVariable
  split_ifs with hm
  · exact h
  · rw [List.nodup_append]
    refine ⟨h, List.nodup_singleton m, ?_⟩
    intro x hx hx2
    simp only [List.mem_singleton] at hx2
    subst hx2
    exact hm hx

theorem preliminaryScanAux_cons (fuel : Nat) (c : Char) (rest : List Char)
    (i : Nat) (varSet : List String) (hc : ¬ c = kScannerEOF) :
    preliminaryScanAux (fuel + 1) (c :: rest) i varSet
      = match tryReadVariableName (c :: rest) with
        | some varName =>
          match preliminaryScanAux fuel ((c :: rest).drop varName.length)
              (i + varName.length)
              (insertVariable (String.mk varName) varSet) with
          | .ok (toks, vs) =>
            .ok (makeVariableToken varName i (i + varName.length) :: toks, vs)
          | .error e => .error e
        | none =>
          match tryReadOperator (c :: rest) with
          | some token =>
            match preliminaryScanAux fuel ((c :: rest).drop token.length)
                (i + token.length) varSet with
            | .ok (toks, vs) => .ok (makeIdentityToken token i :: toks, vs)
            | .error e => .error e
          | none =>
            if isWhitespace c then preliminaryScanAux fuel rest (i + 1) varSet
            else .error ⟨"O carácter " ++ String.mk [c] ++
              " não deveria estar aqui.", i, i + 1⟩ := by
  simp only [preliminaryScanAux, if_neg hc]

theorem preliminaryScanAux_spec :
    ∀ (fuel : Nat) (body : List Char) (i : Nat) (varSet : List String),
      body.length + 1 < fuel → '$' ∉ body → varSet.Nodup →
      (∀ e, preliminaryScanAux fuel (body ++ ['$']) i varSet = .error e →
        i ≤ e.start ∧ e.endPos = e.start + 1 ∧ e.start < i + body.length
        ∧ ∃ c, e.description = "O carácter " ++ String.mk [c] ++
            " não deveria estar aqui.")
      ∧ (∀ toks vs,
          preliminaryScanAux fuel (body ++ ['$']) i varSet = .ok (toks, vs) →
          ∃ ts, toks = ts ++ [⟨"$", "", i + body.length, i + body.length + 1⟩]
          ∧ (∀ t ∈ ts, ¬ t.type = "$" ∧ i ≤ t.start ∧ t.start < t.endPos
              ∧ t.endPos ≤ i + body.length
              ∧ (t.type = "variable" →
                  t.name ∈ vs ∧ goodName t.name.toList = true))
          ∧ vs.Nodup
          ∧ (∀ n, n ∈ vs ↔ n ∈ varSet ∨
              ∃ t ∈ ts, t.type = "variable" ∧ t.name = n)) := by
  intro fuel
  induction fuel with
  | zero => intro body i varSet hfuel; omega
  | succ fuel ih =>
    intro body i varSet hfuel hdollar hnodup
    match body with
    | [] =>
      have hred : preliminaryScanAux (fuel + 1) ([] ++ ['$']) i varSet
          = .ok ([makeIdentityToken ['$'] i], varSet) := rfl
      constructor
      · intro e he
        rw [hred] at he
        exact Except.noConfusion he
      · intro toks vs h
        rw [hred] at h
        simp only [Except.ok.injEq, Prod.mk.injEq] at h
        obtain ⟨htoks, hvs⟩ := h
        subst htoks; subst hvs
        refine ⟨[], by simp [makeIdentityToken, translate], by simp,
          hnodup, by simp⟩
    | c :: body2 =>
      have hc : ¬ c = kScannerEOF := by
        intro hcc
        exact hdollar (by rw [show ('$' : Char) = c from hcc.symm]; exact List.mem_cons_self c body2)
      rw [List.cons_append, preliminaryScanAux_cons fuel c (body2 ++ ['$'])
        i varSet hc]
      cases hv : tryReadVariableName (c :: (body2 ++ ['$'])) with
      | some varName =>
        obtain ⟨hgood, htake, hone, hlev⟩ := tryReadVariableName_sound _ _ hv
        have hnd : '$' ∉ varName := by
          intro hmem
          exact absurd (goodName_all_varChar hgood '$' hmem) (by decide)
        have htake2 : ((c :: body2) ++ ['$']).take varName.length = varName := by
          rw [List.cons_append]; exact htake
        have hlen2 : varName.length ≤ (c :: body2).length := by
          refine length_le_of_no_dollar (c :: body2) varName htake2 hnd ?_
          simpa [List.length_append] using hlev
        have hdrop : (c :: (body2 ++ ['$'])).drop varName.length
            = ((c :: body2).drop varName.length) ++ ['$'] := by
          rw [← List.cons_append]
          exact List.drop_append_of_le_length hlen2
        have hdl : ((c :: body2).drop varName.length).length
            = (c :: body2).length - varName.length := by
          rw [List.length_drop]
        have hcb : (c :: body2).length = body2.length + 1 := rfl
        have hsub := ih ((c :: body2).drop varName.length) (i + varName.length)
          (insertVariable (String.mk varName) varSet)
          (by omega)
          (fun hm => hdollar (List.drop_subset _ _ hm))
          (insertVariable_nodup _ _ hnodup)
        dsimp only []
        rw [hdrop]
        have hlendrop : i + varName.length
            + ((c :: body2).drop varName.length).length
            = i + (c :: body2).length := by
          rw [List.length_drop]; omega
        constructor
        · intro e he
          cases hrec : preliminaryScanAux fuel
              (((c :: body2).drop varName.length) ++ ['$'])
              (i + varName.length)
              (insertVariable (String.mk varName) varSet) with
          | ok val =>
            rw [hrec] at he
            exact absurd he (by simp)
          | error e2 =>
            rw [hrec] at he
            simp only [Except.error.injEq] at he
            subst he
            obtain ⟨ha, hb, hcc, hd⟩ := hsub.1 e2 hrec
            refine ⟨by omega, hb, by omega, hd⟩
        · intro toks vs h
          cases hrec : preliminaryScanAux fuel
              (((c :: body2).drop varName.length) ++ ['$'])
              (i + varName.length)
              (insertVariable (String.mk varName) varSet) with
          | error e2 =>
            rw [hrec] at h
            exact absurd h (by simp)
          | ok val =>
            obtain ⟨toks2, vs2⟩ := val
            rw [hrec] at h
            simp only [Except.ok.injEq, Prod.mk.injEq] at h
            obtain ⟨htoks, hvs⟩ := h
            subst htoks; subst hvs
            obtain ⟨ts2, hts2, hP, hnd2, hmem2⟩ := hsub.2 toks2 vs2 hrec
            refine ⟨makeVariableToken varName i (i + varName.length) :: ts2,
              ?_, ?_, hnd2, ?_⟩
            · rw [hts2, hlendrop]
              simp
            · intro t ht
              rcases List.mem_cons.mp ht with rfl | ht
              · refine ⟨by simp [makeVariableToken], by simp [makeVariableToken],
                  by simp [makeVariableToken]; omega,
                  by simp [makeVariableToken]; omega, ?_⟩
                intro _
                constructor
                · exact (hmem2 (String.mk varName)).2
                    (Or.inl ((insertVariable_mem _ _ _).mpr (Or.inl rfl)))
                · simpa [makeVariableToken] using hgood
              · obtain ⟨hq1, hq2, hq3, hq4, hq5⟩ := hP t ht
                exact ⟨hq1, by omega, hq3, by omega, hq5⟩
            · intro n
              rw [hmem2 n]
              constructor
              · rintro (hin | ⟨t, ht, htv, htn⟩)
                · rcases (insertVariable_mem _ _ _).mp hin with rfl | hn3
                  · exact Or.inr ⟨makeVariableToken varName i (i + varName.length),
                      List.mem_cons_self _ _, by simp [makeVariableToken]⟩
                  · exact Or.inl hn3
                · exact Or.inr ⟨t, List.mem_cons_of_mem _ ht, htv, htn⟩
              · rintro (hn | ⟨t, ht, htv, htn⟩)
                · exact Or.inl ((insertVariable_mem _ _ _).mpr (Or.inr hn))
                · rcases List.mem_cons.mp ht with rfl | ht2
                  · exact Or.inl ((insertVariable_mem _ _ _).mpr
                      (Or.inl (by simpa [makeVariableToken] using htn.symm)))
                  · exact Or.inr ⟨t, ht2, htv, htn⟩
      | none =>
        cases ho : tryReadOperator (c :: (body2 ++ ['$'])) with
        | some token =>
          obtain ⟨hmem, htake, hone, hlev⟩ := tryReadOperator_mem _ _ ho
          have hnd : '$' ∉ token := opSpellings_no_dollar token hmem
          have htake2 : ((c :: body2) ++ ['$']).take token.length = token := by
            rw [List.cons_append]; exact htake
          have hlen2 : token.length ≤ (c :: body2).length := by
            refine length_le_of_no_dollar (c :: body2) token htake2 hnd ?_
            simpa [List.length_append] using hlev
          have hdrop : (c :: (body2 ++ ['$'])).drop token.length
              = ((c :: body2).drop token.length) ++ ['$'] := by
            rw [← List.cons_append]
            exact List.drop_append_of_le_length hlen2
          have hdl : ((c :: body2).drop token.length).length
              = (c :: body2).length - token.length := by
            rw [List.length_drop]
          have hcb : (c :: body2).length = body2.length + 1 := rfl
          have hsub := ih ((c :: body2).drop token.length) (i + token.length)
            varSet
            (by omega)
            (fun hm => hdollar (List.drop_subset _ _ hm))
            hnodup
          dsimp only []
          rw [hdrop]
          have hlendrop : i + token.length
              + ((c :: body2).drop token.length).length
              = i + (c :: body2).length := by
            rw [List.length_drop]; omega
          constructor
          · intro e he
            cases hrec : preliminaryScanAux fuel
                (((c :: body2).drop token.length) ++ ['$'])
                (i + token.length) varSet with
            | ok val =>
              rw [hrec] at he
              exact absurd he (by simp)
            | error e2 =>
              rw [hrec] at he
              simp only [Except.error.injEq] at he
              subst he
              obtain ⟨ha, hb, hcc, hd⟩ := hsub.1 e2 hrec
              refine ⟨by omega, hb, by omega, hd⟩
          · intro toks vs h
            cases hrec : preliminaryScanAux fuel
                (((c :: body2).drop token.length) ++ ['$'])
                (i + token.length) varSet with
            | error e2 =>
              rw [hrec] at h
              exact absurd h (by simp)
            | ok val =>
              obtain ⟨toks2, vs2⟩ := val
              rw [hrec] at h
              simp only [Except.ok.injEq, Prod.mk.injEq] at h
              obtain ⟨htoks, hvs⟩ := h
              subst htoks; subst hvs
              obtain ⟨ts2, hts2, hP, hnd2, hmem2⟩ := hsub.2 toks2 vs2 hrec
              refine ⟨makeIdentityToken token i :: ts2, ?_, ?_, hnd2, ?_⟩
              · rw [hts2, hlendrop]
                simp
              · intro t ht
                rcases List.mem_cons.mp ht with rfl | ht
                · refine ⟨(opSpellings_translate_ne token hmem).1,
                    by simp [makeIdentityToken],
                    by simp [makeIdentityToken]; omega,
                    by simp [makeIdentityToken]; omega, ?_⟩
                  intro habs
                  exact absurd habs (opSpellings_translate_ne token hmem).2
                · obtain ⟨hq1, hq2, hq3, hq4, hq5⟩ := hP t ht
                  exact ⟨hq1, by omega, hq3, by omega, hq5⟩
              · intro n
                rw [hmem2 n]
                constructor
                · rintro (hn | ⟨t, ht, htv, htn⟩)
                  · exact Or.inl hn
                  · exact Or.inr ⟨t, List.mem_cons_of_mem _ ht, htv, htn⟩
                · rintro (hn | ⟨t, ht, htv, htn⟩)
                  · exact Or.inl hn
                  · rcases List.mem_cons.mp ht with rfl | ht
                    · exact absurd htv (opSpellings_translate_ne token hmem).2
                    · exact Or.inr ⟨t, ht, htv, htn⟩
        | none =>
          dsimp only []
          by_cases hws : isWhitespace c
          · rw [if_pos hws]
            have hsub := ih body2 (i + 1) varSet
              (by simp only [List.length_cons] at hfuel; omega)
              (fun hm => hdollar (List.mem_cons_of_mem _ hm))
              hnodup
            constructor
            · intro e he
              obtain ⟨ha, hb, hcc, hd⟩ := hsub.1 e he
              refine ⟨by omega, hb, by simp only [List.length_cons]; omega, hd⟩
            · intro toks vs h
              obtain ⟨ts2, hts2, hP, hnd2, hmem2⟩ := hsub.2 toks vs h
              refine ⟨ts2, ?_, ?_, hnd2, hmem2⟩
              · rw [hts2]
                have : i + 1 + body2.length = i + (c :: body2).length := by
                  simp only [List.length_cons]; omega
                rw [this]
              · intro t ht
                obtain ⟨hq1, hq2, hq3, hq4, hq5⟩ := hP t ht
                exact ⟨hq1, by omega, hq3,
                  by simp only [List.length_cons]; omega, hq5⟩
          · rw [if_neg hws]
            constructor
            · intro e he
              simp only [Except.error.injEq] at he
              subst he
              refine ⟨le_refl i, rfl, by simp only [List.length_cons]; omega,
                c, rfl⟩
            · intro toks vs h
              exact absurd h (by simp)


/-- Characters with equal code points are equal. -/
theorem char_toNat_inj {a b : Char} (h : a.toNat = b.toNat) : a = b :=
  Char.ext (UInt32.ext h)

/-- Strings with equal character lists are equal. -/
theorem string_ext_toList {s t : String} (h : s.toList = t.toList) : s = t := by
  cases s
  cases t
  simp only [String.toList] at h
  exact congrArg String.mk h

/-- charListLe is total. -/
theorem charListLe_total : ∀ a b : List Char,
    charListLe a b = true ∨ charListLe b a = true := by
  intro a
  induction a with
  | nil => exact fun b => Or.inl rfl
  | cons x xs ih =>
    intro b
    cases b with
    | nil => exact Or.inr rfl
    | cons y ys =>
      by_cases h1 : x.toNat < y.toNat
      · exact Or.inl (by simp only [charListLe]; rw [if_pos h1])
      · by_cases h2 : y.toNat < x.toNat
        · exact Or.inr (by simp only [charListLe]; rw [if_pos h2])
        · rcases ih ys with h | h
          · exact Or.inl (by
              simp only [charListLe]; rw [if_neg h1, if_neg h2]; exact h)
          · exact Or.inr (by
              simp only [charListLe]; rw [if_neg h2, if_neg h1]; exact h)

/-- charListLe is transitive. -/
theorem charListLe_trans : ∀ a b c : List Char,
    charListLe a b = true → charListLe b c = true → charListLe a c = true := by
  intro a
  induction a with
  | nil => intro b c _ _; rfl
  | cons x xs ih =>
    intro b c hab hbc
    cases b with
    | nil => exact absurd hab (by simp [charListLe])
    | cons y ys =>
      cases c with
      | nil => exact absurd hbc (by simp [charListLe])
      | cons z zs =>
        simp only [charListLe] at hab hbc ⊢
        split_ifs at hab hbc ⊢ <;>
          first
          | rfl
          | exact ih ys zs hab hbc
          | omega

/-- charListLe is antisymmetric. -/
theorem charListLe_antisymm : ∀ a b : List Char,
    charListLe a b = true → charListLe b a = true → a = b := by
  intro a
  induction a with
  | nil =>
    intro b hab hba
    cases b with
    | nil => rfl
    | cons y ys => exact absurd hba (by simp [charListLe])
  | cons x xs ih =>
    intro b hab hba
    cases b with
    | nil => exact absurd hab (by simp [charListLe])
    | cons y ys =>
      simp only [charListLe] at hab hba
      by_cases h1 : x.toNat < y.toNat
      · rw [if_neg (by omega), if_pos h1] at hba
        exact absurd hba (by simp)
      · by_cases h2 : y.toNat < x.toNat
        · rw [if_neg h1, if_pos h2] at hab
          exact absurd hab (by simp)
        · rw [if_neg h1, if_neg h2] at hab
          rw [if_neg h2, if_neg h1] at hba
          have hxy : x = y := char_toNat_inj (by omega)
          rw [hxy, ih ys hab hba]

/-- Non-strict below plus inequality gives strict below. -/
theorem charListLt_of_le_of_ne : ∀ a b : List Char,
    charListLe a b = true → ¬ a = b → charListLt a b = true := by
  intro a
  induction a with
  | nil =>
    intro b hle hne
    cases b with
    | nil => exact absurd rfl hne
    | cons y ys => rfl
  | cons x xs ih =>
    intro b hle hne
    cases b with
    | nil => exact absurd hle (by simp [charListLe])
    | cons y ys =>
      simp only [charListLe] at hle
      simp only [charListLt, Bool.or_eq_true, Bool.and_eq_true,
        decide_eq_true_eq]
      by_cases h1 : x.toNat < y.toNat
      · exact Or.inl h1
      · by_cases h2 : y.toNat < x.toNat
        · rw [if_neg h1, if_pos h2] at hle
          exact absurd hle (by simp)
        · rw [if_neg h1, if_neg h2] at hle
          have hxy : x = y := char_toNat_inj (by omega)
          refine Or.inr ⟨by omega, ih ys hle ?_⟩
          intro hc
          exact hne (by rw [hxy, hc])

theorem stringLe_total (a b : String) :
    stringLe a b = true ∨ stringLe b a = true :=
  charListLe_total a.toList b.toList

theorem stringLe_trans {a b c : String} (h1 : stringLe a b = true)
    (h2 : stringLe b c = true) : stringLe a c = true :=
  charListLe_trans a.toList b.toList c.toList h1 h2

theorem stringLe_antisymm {a b : String} (h1 : stringLe a b = true)
    (h2 : stringLe b a = true) : a = b :=
  string_ext_toList (charListLe_antisymm a.toList b.toList h1 h2)

theorem stringLt_of_le_of_ne {a b : String} (h1 : stringLe a b = true)
    (h2 : ¬ a = b) : stringLt a b = true :=
  charListLt_of_le_of_ne a.toList b.toList h1
    (fun hc => h2 (string_ext_toList hc))

/-- A nonstrictly sorted list without duplicates is strictly sorted. -/
theorem pairwise_stringLt_of_le_nodup : ∀ l : List String,
    List.Pairwise (fun a b => stringLe a b = true) l → l.Nodup →
    List.Pairwise (fun a b => stringLt a b = true) l := by
  intro l
  induction l with
  | nil => intro _ _; exact List.Pairwise.nil
  | cons x xs ih =>
    intro hle hnd
    rw [List.pairwise_cons] at hle ⊢
    rw [List.nodup_cons] at hnd
    refine ⟨fun b hb => stringLt_of_le_of_ne (hle.1 b hb) ?_, ih hle.2 hnd.2⟩
    intro he
    exact hnd.1 (he ▸ hb)

/-- The sort used by numberVariables: the sorted variable table is
distinct, strictly sorted and has the same members as its input. -/
theorem insertionSort_stringLe_spec (l : List String) (hnd : l.Nodup) :
    (List.insertionSort (fun a b => stringLe a b = true) l).Nodup
    ∧ List.Pairwise (fun a b => stringLt a b = true)
        (List.insertionSort (fun a b => stringLe a b = true) l)
    ∧ (∀ x, x ∈ List.insertionSort (fun a b => stringLe a b = true) l
        ↔ x ∈ l) := by
  haveI : IsTotal String (fun a b => stringLe a b = true) := ⟨stringLe_total⟩
  haveI : IsTrans String (fun a b => stringLe a b = true) :=
    ⟨fun a b c h1 h2 => stringLe_trans h1 h2⟩
  have hperm := List.perm_insertionSort (fun a b => stringLe a b = true) l
  have hnd2 : (List.insertionSort (fun a b => stringLe a b = true) l).Nodup :=
    hperm.nodup_iff.mpr hnd
  have hsorted := List.sorted_insertionSort (fun a b => stringLe a b = true) l
  exact ⟨hnd2, pairwise_stringLt_of_le_nodup _ hsorted hnd2,
    fun x => hperm.mem_iff⟩

/-- checkIntegrityAux reports the first unacceptable character with a
one-character span inside the input, or certifies every character
acceptable. -/
theorem checkIntegrityAux_spec : ∀ (l : List Char) (i : Nat),
    (∀ e, checkIntegrityAux l i = some e →
      e.description = "Illegal character" ∧ i ≤ e.start
      ∧ e.endPos = e.start + 1 ∧ e.start < i + l.length)
    ∧ (checkIntegrityAux l i = none → ∀ c ∈ l, okayChar c = true) := by
  intro l
  induction l with
  | nil =>
    intro i
    exact ⟨fun e he => Option.noConfusion he,
      fun _ c hc => absurd hc (List.not_mem_nil c)⟩
  | cons d rest ih =>
    intro i
    have hlen : (d :: rest).length = rest.length + 1 := rfl
    constructor
    · intro e he
      by_cases hd : okayChar d = true
      · have hred : checkIntegrityAux (d :: rest) i
            = checkIntegrityAux rest (i + 1) := by
          simp only [checkIntegrityAux]
          rw [if_pos hd]
        rw [hred] at he
        have hr := (ih (i + 1)).1 e he
        exact ⟨hr.1, by omega, hr.2.2.1, by rw [hlen]; omega⟩
      · have hred : checkIntegrityAux (d :: rest) i
            = some ⟨"Illegal character", i, i + 1⟩ := by
          simp only [checkIntegrityAux]
          rw [if_neg hd]
        rw [hred] at he
        have he2 := Option.some.inj he
        rw [← he2]
        exact ⟨rfl, Nat.le_refl i, rfl,
          by show i < i + (d :: rest).length; rw [hlen]; omega⟩
    · intro hn c hc
      by_cases hd : okayChar d = true
      · have hred : checkIntegrityAux (d :: rest) i
            = checkIntegrityAux rest (i + 1) := by
          simp only [checkIntegrityAux]
          rw [if_pos hd]
        rw [hred] at hn
        rcases List.mem_cons.mp hc with h | h
        · rw [h]; exact hd
        · exact (ih (i + 1)).2 hn c h
      · have hred : checkIntegrityAux (d :: rest) i
            = some ⟨"Illegal character", i, i + 1⟩ := by
          simp only [checkIntegrityAux]
          rw [if_neg hd]
        rw [hred] at hn
        exact Option.noConfusion hn

theorem okayChar_dollar : okayChar '$' = false := by decide

/-- An input that passes the integrity check contains no end-marker
character. -/
theorem checkIntegrity_no_dollar (input : List Char)
    (h : checkIntegrity input = none) : '$' ∉ input := by
  intro hmem
  have hok := (checkIntegrityAux_spec input 0).2 h '$' hmem
  rw [okayChar_dollar] at hok
  exact Bool.noConfusion hok

/-- The scanner's illegal-character message is never the parser's
nothing-is-negated message, whatever the offending character. -/
theorem charMsg_ne_nada (c : Char) :
    ¬ ("O carácter " ++ String.mk [c] ++ " não deveria estar aqui.")
      = "Nada é negado por este operador." := by
  intro h
  have hl := congrArg String.length h
  rw [String.length_append, String.length_append] at hl
  have h1 : (String.mk [c]).length = 1 := rfl
  have h2 : ("O carácter " : String).length = 11 := rfl
  have h3 : (" não deveria estar aqui." : String).length = 24 := rfl
  have h4 : ("Nada é negado por este operador." : String).length = 32 := rfl
  rw [h1, h2, h3, h4] at hl
  omega

/-- A scan failure lies inside the input and is never the
nothing-is-negated parser message. -/
theorem scan_err_spec (input : List Char) (e : ErrObj)
    (h : scan input = .error e) :
    e.start ≤ e.endPos ∧ e.endPos ≤ input.length
    ∧ ¬ e.description = "Nada é negado por este operador." := by
  cases hci : checkIntegrity input with
  | some e2 =>
    have hred : scan input = .error e2 := by
      unfold scan
      rw [hci]
    rw [hred] at h
    have he := Except.error.inj h
    subst he
    have hr := (checkIntegrityAux_spec input 0).1 e2 hci
    refine ⟨by omega, by omega, ?_⟩
    rw [hr.1]
    decide
  | none =>
    cases hp : preliminaryScan input with
    | ok pre =>
      have hred : scan input = .ok (numberVariables pre) := by
        unfold scan
        rw [hci, hp]
      rw [hred] at h
      exact Except.noConfusion h
    | error e2 =>
      have hred : scan input = .error e2 := by
        unfold scan
        rw [hci, hp]
      rw [hred] at h
      have he := Except.error.inj h
      subst he
      unfold preliminaryScan at hp
      have hr := (preliminaryScanAux_spec (input.length + 2) input 0 []
        (by omega) (checkIntegrity_no_dollar input hci) List.nodup_nil).1 e2 hp
      obtain ⟨h0, h1, h2, c, hdesc⟩ := hr
      refine ⟨by omega, by omega, ?_⟩
      rw [hdesc]
      exact charMsg_ne_nada c

/-- Structure of a successful scan: the token list is the body tokens
followed by the end marker spanning [length, length+1); body tokens lie
inside the input, are never the end marker, and variable tokens carry
indexes into the variable table; the table is distinct, strictly
sorted, holds only well-formed names, and every table position is the
index of some variable token. -/
theorem scan_ok_spec (input : List Char) (toks : List Token)
    (vars : List String) (h : scan input = .ok (toks, vars)) :
    ∃ ts, toks = ts ++ [⟨"$", 0, input.length, input.length + 1⟩]
    ∧ (∀ t ∈ ts, ¬ t.type = "$" ∧ t.start ≤ t.endPos
        ∧ t.endPos ≤ input.length
        ∧ (t.type = "variable" → t.index < vars.length))
    ∧ vars.Nodup
    ∧ List.Pairwise (fun a b => stringLt a b = true) vars
    ∧ (∀ v ∈ vars, goodName v.toList = true)
    ∧ (∀ j, j < vars.length →
        ∃ t ∈ ts, t.type = "variable" ∧ t.index = j) := by
  cases hci : checkIntegrity input with
  | some e2 =>
    have hred : scan input = .error e2 := by
      unfold scan
      rw [hci]
    rw [hred] at h
    exact Except.noConfusion h
  | none =>
    cases hp : preliminaryScan input with
    | error e2 =>
      have hred : scan input = .error e2 := by
        unfold scan
        rw [hci, hp]
      rw [hred] at h
      exact Except.noConfusion h
    | ok pre =>
      obtain ⟨ptoks, varSet⟩ := pre
      have hred : scan input = .ok (numberVariables (ptoks, varSet)) := by
        unfold scan
        rw [hci, hp]
      rw [hred] at h
      have hnv2 : (ptoks.map (fun t =>
          if t.type = "variable" then
            (⟨t.type, (List.insertionSort (fun a b => stringLe a b = true)
                varSet).indexOf t.name, t.start, t.endPos⟩ : Token)
          else ⟨t.type, 0, t.start, t.endPos⟩),
          List.insertionSort (fun a b => stringLe a b = true) varSet)
          = (toks, vars) := Except.ok.inj h
      obtain ⟨htoks, hvars⟩ := Prod.mk.inj hnv2
      unfold preliminaryScan at hp
      obtain ⟨pts, hptoks, hfacts, hvsnd, hmem⟩ :=
        (preliminaryScanAux_spec (input.length + 2) input 0 []
          (by omega) (checkIntegrity_no_dollar input hci)
          List.nodup_nil).2 ptoks varSet hp
      have hsort := insertionSort_stringLe_spec varSet hvsnd
      have hvmem : ∀ n : String, n ∈ vars ↔
          ∃ t ∈ pts, t.type = "variable" ∧ t.name = n := by
        intro n
        rw [← hvars]
        rw [hsort.2.2 n, hmem n]
        simp
      refine ⟨pts.map fun t =>
          if t.type = "variable" then
            (⟨t.type, (List.insertionSort (fun a b => stringLe a b = true)
                varSet).indexOf t.name, t.start, t.endPos⟩ : Token)
          else ⟨t.type, 0, t.start, t.endPos⟩, ?_, ?_, ?_, ?_, ?_, ?_⟩
      · rw [← htoks, hptoks, List.map_append]
        simp
      · intro t ht
        obtain ⟨pt, hpt, hfpt⟩ := List.mem_map.mp ht
        obtain ⟨htd, hs1, hs2, hs3, himp⟩ := hfacts pt hpt
        by_cases hv : pt.type = "variable"
        · rw [if_pos hv] at hfpt
          rw [← hfpt]
          have hmemv : pt.name ∈ vars := by
            rw [← hvars]
            exact (hsort.2.2 pt.name).mpr ((himp hv).1)
          refine ⟨?_, ?_, ?_, ?_⟩
          · show ¬ pt.type = "$"
            exact htd
          · show pt.start ≤ pt.endPos
            omega
          · show pt.endPos ≤ input.length
            omega
          · intro _
            show (List.insertionSort (fun a b => stringLe a b = true)
                varSet).indexOf pt.name < vars.length
            rw [hvars, List.indexOf_lt_length]
            exact hmemv
        · rw [if_neg hv] at hfpt
          rw [← hfpt]
          refine ⟨?_, ?_, ?_, ?_⟩
          · show ¬ pt.type = "$"
            exact htd
          · show pt.start ≤ pt.endPos
            omega
          · show pt.endPos ≤ input.length
            omega
          · intro hc
            exact absurd (show pt.type = "variable" from hc) hv
      · rw [← hvars]; exact hsort.1
      · rw [← hvars]; exact hsort.2.1
      · intro v hvv
        obtain ⟨t, ht, htv, htn⟩ := (hvmem v).mp hvv
        obtain ⟨htd, hs1, hs2, hs3, himp⟩ := hfacts t ht
        rw [← htn]
        exact (himp htv).2
      · intro j hj
        have hjv : vars.get ⟨j, hj⟩ ∈ vars := List.get_mem vars j hj
        obtain ⟨t, ht, htv, htn⟩ := (hvmem _).mp hjv
        have hnd2 : vars.Nodup := by
          rw [← hvars]; exact hsort.1
        refine ⟨⟨t.type, (List.insertionSort
            (fun a b => stringLe a b = true) varSet).indexOf t.name,
            t.start, t.endPos⟩, ?_, htv, ?_⟩
        · have hmm := List.mem_map_of_mem (fun t : PToken =>
            if t.type = "variable" then
              (⟨t.type, (List.insertionSort (fun a b => stringLe a b = true)
                  varSet).indexOf t.name, t.start, t.endPos⟩ : Token)
            else ⟨t.type, 0, t.start, t.endPos⟩) ht
          dsimp only [] at hmm
          rw [if_pos htv] at hmm
          exact hmm
        · show (List.insertionSort (fun a b => stringLe a b = true)
              varSet).indexOf t.name = j
          rw [hvars, htn]
          have hidx := List.indexOf_getElem hnd2 j hj
          simpa using hidx

theorem resolveOperators_step (fuel : Nat) (curr top : Token)
    (rest : List Token) (opn : List Node) :
    resolveOperators fuel curr (top :: rest) opn
      = if top.type = "(" then .ok (top :: rest, opn)
        else
          match priorityOf top, priorityOf curr with
          | some pt, some pc =>
            if pt ≤ pc then .ok (top :: rest, opn)
            else
              match fuel with
              | 0 => .error (.bug "fuel")
              | fuel + 1 =>
                match opn with
                | rhs :: lhs :: operandsRest =>
                  match createOperatorNode lhs top rhs with
                  | some node =>
                    let pair := addOperand node operandsRest rest
                    resolveOperators fuel curr pair.2 pair.1
                  | none => .error (.bug "createOperatorNode")
                | _ => .error (.bug "operand stack underflow")
          | _, _ => .error (.bug "priorityOf") := by
  cases fuel with
  | zero =>
    simp only [resolveOperators] <;> rfl
  | succ f =>
    cases opn with
    | nil => simp only [resolveOperators] <;> rfl
    | cons rhs opn1 =>
      cases opn1 with
      | nil => simp only [resolveOperators] <;> rfl
      | cons lhs operandsRest => simp only [resolveOperators] <;> rfl
theorem closeParenLoop_step (fuel : Nat) (currToken currOp : Token)
    (rest : List Token) (operands : List Node) :
    closeParenLoop fuel currToken (currOp :: rest) operands
      = if currOp.type = "(" then
          match operands with
          | expr :: operandsRest =>
            let pair := addOperand expr operandsRest rest
            .ok (pair.2, pair.1)
          | [] => .error (.bug "operand stack underflow")
        else if currOp.type = "~" then
          .error (parseError "Nada é negado por este operador."
            currOp.start currOp.endPos)
        else
          match fuel with
          | 0 => .error (.bug "fuel")
          | fuel + 1 =>
            match operands with
            | rhs :: lhs :: operandsRest =>
              match createOperatorNode lhs currOp rhs with
              | some node =>
                let pair := addOperand node operandsRest rest
                closeParenLoop fuel currToken pair.2 pair.1
              | none => .error (.bug "createOperatorNode")
            | _ => .error (.bug "operand stack underflow") := by
  cases fuel with
  | zero =>
    cases operands with
    | nil => simp only [closeParenLoop] <;> rfl
    | cons rhs opn1 =>
      cases opn1 with
      | nil => simp only [closeParenLoop] <;> rfl
      | cons lhs operandsRest => simp only [closeParenLoop] <;> rfl
  | succ f =>
    cases operands with
    | nil => simp only [closeParenLoop] <;> rfl
    | cons rhs opn1 =>
      cases opn1 with
      | nil => simp only [closeParenLoop] <;> rfl
      | cons lhs operandsRest => simp only [closeParenLoop] <;> rfl

theorem parseLoop_cons (currToken : Token) (ts operators : List Token)
    (operands : List Node) (needOperand : Bool) :
    parseLoop (currToken :: ts) operators operands needOperand
      = if needOperand then
          if isOperand currToken then
            match wrapOperand currToken with
            | some node =>
              let pair := addOperand node operands operators
              parseLoop ts pair.2 pair.1 false
            | none => .error (.bug "wrapOperand")
          else if currToken.type = "(" || currToken.type = "~" then
            parseLoop ts (currToken :: operators) operands true
          else if currToken.type = "$" then
            match operators with
            | [] => .error (parseError "" 0 0)
            | top :: _ =>
              if top.type = "(" then
                .error (parseError
                  "Este parêntesis aberto não tem parêntesis fechado correspondente."
                  top.start top.endPos)
              else
                .error (parseError "Falta um operando a este operador."
                  top.start top.endPos)
          else
            .error (parseError
              "Esperávamos aqui uma variável, uma constante ou um parêntesis aberto."
              currToken.start currToken.endPos)
        else
          if isBinaryOperator currToken || currToken.type = "$" then
            match resolveOperators operators.length currToken operators operands with
            | .ok (operators2, operands2) =>
              if currToken.type = "$" then
                .ok (currToken :: operators2, operands2)
              else
                parseLoop ts (currToken :: operators2) operands2 true
            | .error e => .error e
          else if currToken.type = ")" then
            match closeParenLoop operators.length currToken operators operands with
            | .ok (operators2, operands2) => parseLoop ts operators2 operands2 false
            | .error e => .error e
          else
            .error (parseError
              "Esperávamos aqui um parêntesis fechado ou um conectivo binário."
              currToken.start currToken.endPos) := by
  cases needOperand with
  | false => simp only [parseLoop] <;> rfl
  | true => simp only [parseLoop] <;> rfl

/-- A parenthesis token is not a negation token. -/
theorem type_paren_ne_neg {t : Token} (h : t.type = "(") : ¬ t.type = "~" := by
  rw [h]; decide

/-- isBinaryOperator is false on an open parenthesis. -/
theorem isBinaryOperator_paren {t : Token} (h : t.type = "(") :
    isBinaryOperator t = false := by
  unfold isBinaryOperator; rw [h]; decide

/-- isBinaryOperator is false on a negation marker. -/
theorem isBinaryOperator_neg {t : Token} (h : t.type = "~") :
    isBinaryOperator t = false := by
  unfold isBinaryOperator; rw [h]; decide

/-- isBinaryOperator is false on the end marker. -/
theorem isBinaryOperator_eof {t : Token} (h : t.type = "$") :
    isBinaryOperator t = false := by
  unfold isBinaryOperator; rw [h]; decide

/-- A binary-connective token is not a variable token, so it carries no
variable index. -/
theorem binary_not_variable {t : Token} (h : isBinaryOperator t = true) :
    ¬ t.type = "variable" := by
  unfold isBinaryOperator at h
  simp only [Bool.or_eq_true, decide_eq_true_eq] at h
  rcases h with ((h | h) | h) | h <;> rw [h] <;> decide

/-- Tokens that are not variable references carry no variable index. -/
theorem tokenVarIndices_not_var {t : Token} (h : ¬ t.type = "variable") :
    tokenVarIndices t = [] := by
  unfold tokenVarIndices
  rw [if_neg h]

/-- Moving a block across an append, up to permutation. -/
theorem perm_append_bridge (a b c : List Nat) :
    ((a ++ b) ++ c).Perm (b ++ (a ++ c)) := by
  have h1 : ((a ++ b) ++ c).Perm ((b ++ a) ++ c) :=
    List.Perm.append_right c List.perm_append_comm
  have h2 : (b ++ a) ++ c = b ++ (a ++ c) := List.append_assoc b a c
  rw [h2] at h1
  exact h1

/-- addOperand pushes the operand (wrapped in one negation per popped
negation marker) and pops a block of negation markers: the remaining
operator stack is a suffix whose head is not a negation marker and whose
binary-operator count is unchanged, and the pushed node keeps exactly
the operand's variable references. -/
theorem addOperand_spec : ∀ (node : Node) (opn : List Node)
    (ops : List Token),
    ∃ nd ops2, addOperand node opn ops = (nd :: opn, ops2)
    ∧ ops2 <:+ ops
    ∧ varIndices nd = varIndices node
    ∧ (∀ t, ops2.head? = some t → ¬ t.type = "~")
    ∧ List.countP isBinaryOperator ops2
        = List.countP isBinaryOperator ops := by
  intro node opn ops
  induction ops generalizing node with
  | nil =>
    refine ⟨node, [], rfl, List.nil_suffix, rfl, ?_, rfl⟩
    intro t ht
    exact Option.noConfusion ht
  | cons t rest ih =>
    by_cases htt : t.type = "~"
    · have hred : addOperand node opn (t :: rest)
          = addOperand (.negateNode node) opn rest := by
        simp only [addOperand]
        rw [if_pos htt]
      obtain ⟨nd, ops2, heq, hsuf, hvar, hhd, hcount⟩ := ih (.negateNode node)
      refine ⟨nd, ops2, by rw [hred, heq], hsuf.trans (List.suffix_cons t rest),
        by rw [hvar]; rfl, hhd, ?_⟩
      rw [hcount, List.countP_cons_of_neg]
      rw [isBinaryOperator_neg htt]
      simp
    · have hred : addOperand node opn (t :: rest) = (node :: opn, t :: rest) := by
        simp only [addOperand]
        rw [if_neg htt]
      refine ⟨node, t :: rest, hred, List.suffix_refl _, rfl, ?_, rfl⟩
      intro u hu
      have : t = u := Option.some.inj hu
      rw [← this]
      exact htt

/-- createOperatorNode succeeds on every binary-connective token and
builds a node whose variable references are those of the two children in
order. -/
theorem createOperatorNode_some (l r : Node) (t : Token)
    (h : isBinaryOperator t = true) :
    ∃ node, createOperatorNode l t r = some node
    ∧ varIndices node = varIndices l ++ varIndices r := by
  unfold isBinaryOperator at h
  simp only [Bool.or_eq_true, decide_eq_true_eq] at h
  unfold createOperatorNode
  rcases h with ((h | h) | h) | h <;> rw [h]
  · exact ⟨.iffNode l r, by simp, rfl⟩
  · exact ⟨.impliesNode l r, by simp, rfl⟩
  · exact ⟨.andNode l r, by simp, rfl⟩
  · exact ⟨.orNode l r, by simp, rfl⟩

/-- priorityOf succeeds on every binary-connective token, with a
priority between 0 and 3. -/
theorem priorityOf_binary (t : Token) (h : isBinaryOperator t = true) :
    ∃ p : Int, priorityOf t = some p ∧ 0 ≤ p ∧ p ≤ 3 := by
  unfold isBinaryOperator at h
  simp only [Bool.or_eq_true, decide_eq_true_eq] at h
  unfold priorityOf
  rcases h with ((h | h) | h) | h <;> rw [h]
  · exact ⟨0, by decide, by decide, by decide⟩
  · exact ⟨1, by decide, by decide, by decide⟩
  · exact ⟨3, by decide, by decide, by decide⟩
  · exact ⟨2, by decide, by decide, by decide⟩

/-- wrapOperand succeeds on every operand token and builds the leaf
with exactly the token's variable references. -/
theorem wrapOperand_operand (t : Token) (h : isOperand t = true) :
    ∃ node, wrapOperand t = some node
    ∧ varIndices node = tokenVarIndices t := by
  unfold isOperand at h
  simp only [Bool.or_eq_true, decide_eq_true_eq] at h
  unfold wrapOperand tokenVarIndices
  rcases h with (h | h) | h <;> rw [h]
  · exact ⟨.trueNode, by simp, rfl⟩
  · exact ⟨.falseNode, by simp, rfl⟩
  · exact ⟨.variableNode t.index, by simp, rfl⟩

/-- The precedence-resolution loop never fails when the operand stack
carries one more operand than there are binary operators stacked, the
stack top is not a pending negation, and the stack holds only operator
tokens: it returns a suffix of the stack in the same balanced state,
preserving the multiset of variable references; on end-of-input
priority the returned stack is empty or an open parenthesis is on
top. -/
theorem resolveOperators_spec : ∀ (fuel : Nat) (curr : Token)
    (ops : List Token) (opn : List Node) (pc : Int),
    priorityOf curr = some pc →
    List.countP isBinaryOperator ops ≤ fuel →
    opn.length = List.countP isBinaryOperator ops + 1 →
    (∀ t, ops.head? = some t → ¬ t.type = "~") →
    (∀ t ∈ ops, t.type = "~" ∨ t.type = "(" ∨ isBinaryOperator t = true) →
    ∃ ops2 opn2, resolveOperators fuel curr ops opn = .ok (ops2, opn2)
    ∧ ops2 <:+ ops
    ∧ opn2.length = List.countP isBinaryOperator ops2 + 1
    ∧ (∀ t, ops2.head? = some t → ¬ t.type = "~")
    ∧ (pc = -1 → ops2 = [] ∨ ∃ t rest2, ops2 = t :: rest2 ∧ t.type = "(")
    ∧ (opn2.flatMap varIndices).Perm (opn.flatMap varIndices) := by
  intro fuel
  induction fuel with
  | zero =>
    intro curr ops opn pc hpc hfuel hlen hhd hok
    cases ops with
    | nil =>
      refine ⟨[], opn, rfl, List.suffix_refl _, hlen, ?_, fun _ => Or.inl rfl,
        List.Perm.refl _⟩
      intro t ht
      exact Option.noConfusion ht
    | cons top rest =>
      by_cases hpar : top.type = "("
      · have hred : resolveOperators 0 curr (top :: rest) opn
            = .ok (top :: rest, opn) := by
          rw [resolveOperators_step, if_pos hpar]
        refine ⟨top :: rest, opn, hred, List.suffix_refl _, hlen, ?_,
          fun _ => Or.inr ⟨top, rest, rfl, hpar⟩, List.Perm.refl _⟩
        intro t ht
        have : top = t := Option.some.inj ht
        rw [← this]
        exact type_paren_ne_neg hpar
      · have hneg : ¬ top.type = "~" := hhd top rfl
        have htop : isBinaryOperator top = true := by
          rcases hok top (List.mem_cons_self top rest) with h | h | h
          · exact absurd h hneg
          · exact absurd h hpar
          · exact h
        exfalso
        rw [List.countP_cons_of_pos _ _ htop] at hfuel
        omega
  | succ fuel ih =>
    intro curr ops opn pc hpc hfuel hlen hhd hok
    cases ops with
    | nil =>
      refine ⟨[], opn, rfl, List.suffix_refl _, hlen, ?_, fun _ => Or.inl rfl,
        List.Perm.refl _⟩
      intro t ht
      exact Option.noConfusion ht
    | cons top rest =>
      by_cases hpar : top.type = "("
      · have hred : resolveOperators (fuel + 1) curr (top :: rest) opn
            = .ok (top :: rest, opn) := by
          rw [resolveOperators_step, if_pos hpar]
        refine ⟨top :: rest, opn, hred, List.suffix_refl _, hlen, ?_,
          fun _ => Or.inr ⟨top, rest, rfl, hpar⟩, List.Perm.refl _⟩
        intro t ht
        have : top = t := Option.some.inj ht
        rw [← this]
        exact type_paren_ne_neg hpar
      · have hneg : ¬ top.type = "~" := hhd top rfl
        have htop : isBinaryOperator top = true := by
          rcases hok top (List.mem_cons_self top rest) with h | h | h
          · exact absurd h hneg
          · exact absurd h hpar
          · exact h
        obtain ⟨pt, hpt, hpt0, hpt3⟩ := priorityOf_binary top htop
        by_cases hle : pt ≤ pc
        · have hred : resolveOperators (fuel + 1) curr (top :: rest) opn
              = .ok (top :: rest, opn) := by
            rw [resolveOperators_step, if_neg hpar, hpt, hpc]
            dsimp only []
            rw [if_pos hle]
          refine ⟨top :: rest, opn, hred, List.suffix_refl _, hlen, hhd,
            ?_, List.Perm.refl _⟩
          intro hpcm
          exfalso
          rw [hpcm] at hle
          omega
        · rw [List.countP_cons_of_pos _ _ htop] at hfuel hlen
          cases opn with
          | nil =>
            exfalso
            rw [List.length_nil] at hlen
            omega
          | cons rhs opn1 =>
            cases opn1 with
            | nil =>
              exfalso
              simp only [List.length_cons, List.length_nil] at hlen
              omega
            | cons lhs operandsRest =>
              obtain ⟨node, hnode, hvarnode⟩ :=
                createOperatorNode_some lhs rhs top htop
              obtain ⟨nd, ops2a, heq, hsuf, hvn, hhd2, hcnt⟩ :=
                addOperand_spec node operandsRest rest
              have hred : resolveOperators (fuel + 1) curr (top :: rest)
                  (rhs :: lhs :: operandsRest)
                  = resolveOperators fuel curr ops2a (nd :: operandsRest) := by
                rw [resolveOperators_step, if_neg hpar, hpt, hpc]
                dsimp only []
                rw [if_neg hle]
                rw [hnode]
                dsimp only []
                rw [heq]
              have hlen2 : (nd :: operandsRest).length
                  = List.countP isBinaryOperator ops2a + 1 := by
                simp only [List.length_cons] at hlen ⊢
                rw [hcnt]
                omega
              obtain ⟨ops2, opn2, hres, hsuf2, hlen3, hhd3, hdollar, hperm⟩ :=
                ih curr ops2a (nd :: operandsRest) pc hpc
                  (by rw [hcnt]; omega) hlen2 hhd2
                  (fun t ht => hok t (List.mem_cons_of_mem top
                    (hsuf.subset ht)))
              refine ⟨ops2, opn2, by rw [hred, hres],
                (hsuf2.trans hsuf).trans (List.suffix_cons top rest),
                hlen3, hhd3, hdollar, ?_⟩
              refine hperm.trans ?_
              have h1 : (nd :: operandsRest).flatMap varIndices
                  = (varIndices lhs ++ varIndices rhs)
                    ++ operandsRest.flatMap varIndices := by
                simp only [List.flatMap_cons]
                rw [hvn, hvarnode]
              have h2 : (rhs :: lhs :: operandsRest).flatMap varIndices
                  = varIndices rhs ++ (varIndices lhs
                    ++ operandsRest.flatMap varIndices) := by
                simp only [List.flatMap_cons]
              rw [h1, h2]
              exact perm_append_bridge (varIndices lhs) (varIndices rhs)
                (operandsRest.flatMap varIndices)

/-- The close-parenthesis loop, entered with the operand stack one
deeper than the stacked binary operators and no pending negation on
top, either reports the unmatched-close-parenthesis user error or
finishes the parenthesised subtree: it never reports the
nothing-is-negated error and never hits an internal failure, and on
success returns a suffix of the stack in the same balanced state,
preserving the multiset of variable references. -/
theorem closeParenLoop_spec : ∀ (fuel : Nat) (curr : Token)
    (ops : List Token) (opn : List Node),
    List.countP isBinaryOperator ops ≤ fuel →
    opn.length = List.countP isBinaryOperator ops + 1 →
    (∀ t, ops.head? = some t → ¬ t.type = "~") →
    (∀ t ∈ ops, t.type = "~" ∨ t.type = "(" ∨ isBinaryOperator t = true) →
    (∀ f, closeParenLoop fuel curr ops opn = .error f →
        f = parseError
          "Este parêntesis fechado não corresponde a nenhum parêntesis aberto."
          curr.start curr.endPos)
    ∧ (∀ ops2 opn2, closeParenLoop fuel curr ops opn = .ok (ops2, opn2) →
        ops2 <:+ ops
        ∧ opn2.length = List.countP isBinaryOperator ops2 + 1
        ∧ (∀ t, ops2.head? = some t → ¬ t.type = "~")
        ∧ (opn2.flatMap varIndices).Perm (opn.flatMap varIndices)) := by
  intro fuel
  induction fuel with
  | zero =>
    intro curr ops opn hfuel hlen hhd hok
    cases ops with
    | nil =>
      constructor
      · intro f hf
        have hred : closeParenLoop 0 curr [] opn = .error (parseError
            "Este parêntesis fechado não corresponde a nenhum parêntesis aberto."
            curr.start curr.endPos) := rfl
        rw [hred] at hf
        exact (Except.error.inj hf).symm
      · intro ops2 opn2 h2
        have hred : closeParenLoop 0 curr [] opn = .error (parseError
            "Este parêntesis fechado não corresponde a nenhum parêntesis aberto."
            curr.start curr.endPos) := rfl
        rw [hred] at h2
        exact Except.noConfusion h2
    | cons top rest =>
      by_cases hpar : top.type = "("
      · have hnb : ¬ isBinaryOperator top = true := by
          rw [isBinaryOperator_paren hpar]
          decide
        rw [List.countP_cons_of_neg _ _ hnb] at hfuel hlen
        cases opn with
        | nil =>
          exfalso
          rw [List.length_nil] at hlen
          omega
        | cons expr operandsRest =>
          obtain ⟨nd, ops2a, heq, hsuf, hvn, hhd2, hcnt⟩ :=
            addOperand_spec expr operandsRest rest
          have hred : closeParenLoop 0 curr (top :: rest)
              (expr :: operandsRest) = .ok (ops2a, nd :: operandsRest) := by
            rw [closeParenLoop_step, if_pos hpar]
            dsimp only []
            rw [heq]
          constructor
          · intro f hf
            rw [hred] at hf
            exact Except.noConfusion hf
          · intro ops2 opn2 h2
            rw [hred] at h2
            obtain ⟨ho, hn⟩ := Prod.mk.inj (Except.ok.inj h2)
            rw [← ho, ← hn]
            refine ⟨hsuf.trans (List.suffix_cons top rest), ?_, hhd2, ?_⟩
            · simp only [List.length_cons] at hlen ⊢
              rw [hcnt]
              omega
            · simp only [List.flatMap_cons]
              rw [hvn]
      · have hneg : ¬ top.type = "~" := hhd top rfl
        have htop : isBinaryOperator top = true := by
          rcases hok top (List.mem_cons_self top rest) with h | h | h
          · exact absurd h hneg
          · exact absurd h hpar
          · exact h
        exfalso
        rw [List.countP_cons_of_pos _ _ htop] at hfuel
        omega
  | succ fuel ih =>
    intro curr ops opn hfuel hlen hhd hok
    cases ops with
    | nil =>
      constructor
      · intro f hf
        have hred : closeParenLoop (fuel + 1) curr [] opn
            = .error (parseError
            "Este parêntesis fechado não corresponde a nenhum parêntesis aberto."
            curr.start curr.endPos) := rfl
        rw [hred] at hf
        exact (Except.error.inj hf).symm
      · intro ops2 opn2 h2
        have hred : closeParenLoop (fuel + 1) curr [] opn
            = .error (parseError
            "Este parêntesis fechado não corresponde a nenhum parêntesis aberto."
            curr.start curr.endPos) := rfl
        rw [hred] at h2
        exact Except.noConfusion h2
    | cons top rest =>
      by_cases hpar : top.type = "("
      · have hnb : ¬ isBinaryOperator top = true := by
          rw [isBinaryOperator_paren hpar]
          decide
        rw [List.countP_cons_of_neg _ _ hnb] at hfuel hlen
        cases opn with
        | nil =>
          exfalso
          rw [List.length_nil] at hlen
          omega
        | cons expr operandsRest =>
          obtain ⟨nd, ops2a, heq, hsuf, hvn, hhd2, hcnt⟩ :=
            addOperand_spec expr operandsRest rest
          have hred : closeParenLoop (fuel + 1) curr (top :: rest)
              (expr :: operandsRest) = .ok (ops2a, nd :: operandsRest) := by
            rw [closeParenLoop_step, if_pos hpar]
            dsimp only []
            rw [heq]
          constructor
          · intro f hf
            rw [hred] at hf
            exact Except.noConfusion hf
          · intro ops2 opn2 h2
            rw [hred] at h2
            obtain ⟨ho, hn⟩ := Prod.mk.inj (Except.ok.inj h2)
            rw [← ho, ← hn]
            refine ⟨hsuf.trans (List.suffix_cons top rest), ?_, hhd2, ?_⟩
            · simp only [List.length_cons] at hlen ⊢
              rw [hcnt]
              omega
            · simp only [List.flatMap_cons]
              rw [hvn]
      · have hneg : ¬ top.type = "~" := hhd top rfl
        have htop : isBinaryOperator top = true := by
          rcases hok top (List.mem_cons_self top rest) with h | h | h
          · exact absurd h hneg
          · exact absurd h hpar
          · exact h
        rw [List.countP_cons_of_pos _ _ htop] at hfuel hlen
        cases opn with
        | nil =>
          exfalso
          rw [List.length_nil] at hlen
          omega
        | cons rhs opn1 =>
          cases opn1 with
          | nil =>
            exfalso
            simp only [List.length_cons, List.length_nil] at hlen
            omega
          | cons lhs operandsRest =>
            obtain ⟨node, hnode, hvarnode⟩ :=
              createOperatorNode_some lhs rhs top htop
            obtain ⟨nd, ops2a, heq, hsuf, hvn, hhd2, hcnt⟩ :=
              addOperand_spec node operandsRest rest
            have hred : closeParenLoop (fuel + 1) curr (top :: rest)
                (rhs :: lhs :: operandsRest)
                = closeParenLoop fuel curr ops2a (nd :: operandsRest) := by
              rw [closeParenLoop_step, if_neg hpar, if_neg hneg]
              dsimp only []
              rw [hnode]
              dsimp only []
              rw [heq]
            have hlen2 : (nd :: operandsRest).length
                = List.countP isBinaryOperator ops2a + 1 := by
              simp only [List.length_cons] at hlen ⊢
              rw [hcnt]
              omega
            obtain ⟨ihErr, ihOk⟩ := ih curr ops2a (nd :: operandsRest)
              (by rw [hcnt]; omega) hlen2 hhd2
              (fun t ht => hok t (List.mem_cons_of_mem top (hsuf.subset ht)))
            constructor
            · intro f hf
              rw [hred] at hf
              exact ihErr f hf
            · intro ops2 opn2 h2
              rw [hred] at h2
              obtain ⟨hsuf2, hlen3, hhd3, hperm⟩ := ihOk ops2 opn2 h2
              refine ⟨(hsuf2.trans hsuf).trans (List.suffix_cons top rest),
                hlen3, hhd3, ?_⟩
              refine hperm.trans ?_
              have h1 : (nd :: operandsRest).flatMap varIndices
                  = (varIndices lhs ++ varIndices rhs)
                    ++ operandsRest.flatMap varIndices := by
                simp only [List.flatMap_cons]
                rw [hvn, hvarnode]
              have h2' : (rhs :: lhs :: operandsRest).flatMap varIndices
                  = varIndices rhs ++ (varIndices lhs
                    ++ operandsRest.flatMap varIndices) := by
                simp only [List.flatMap_cons]
              rw [h1, h2']
              exact perm_append_bridge (varIndices lhs) (varIndices rhs)
                (operandsRest.flatMap varIndices)

/-- isOperand is false on the end marker. -/
theorem isOperand_eof {t : Token} (h : t.type = "$") : isOperand t = false := by
  unfold isOperand
  rw [h]
  decide

/-- The parser token loop, run on scanned body tokens followed by the
end marker, starting from any balanced state: every user error lies
inside the input and is never the nothing-is-negated message, no
internal failure is possible, and a successful exit leaves the end
marker atop the stack over either nothing (with exactly the finished
tree, holding the variable references of the consumed input) or an
unclosed open parenthesis. -/
theorem parseLoop_spec : ∀ (ts : List Token) (eofTok : Token)
    (ops : List Token) (opn : List Node) (needOp : Bool) (len : Nat),
    eofTok.type = "$" →
    (∀ t ∈ ts, ¬ t.type = "$" ∧ t.start ≤ t.endPos ∧ t.endPos ≤ len) →
    (needOp = false → ∀ t, ops.head? = some t → ¬ t.type = "~") →
    opn.length = List.countP isBinaryOperator ops
      + (if needOp then 0 else 1) →
    (∀ t ∈ ops, (t.type = "~" ∨ t.type = "(" ∨ isBinaryOperator t = true)
      ∧ t.start ≤ t.endPos ∧ t.endPos ≤ len) →
    (∀ e, parseLoop (ts ++ [eofTok]) ops opn needOp = .error (.userErr e) →
      e.start ≤ e.endPos ∧ e.endPos ≤ len
      ∧ ¬ e.description = "Nada é negado por este operador.")
    ∧ (∀ m, ¬ parseLoop (ts ++ [eofTok]) ops opn needOp = .error (.bug m))
    ∧ (∀ ops2 opn2,
        parseLoop (ts ++ [eofTok]) ops opn needOp = .ok (ops2, opn2) →
        ∃ rest2, ops2 = eofTok :: rest2
        ∧ ((rest2 = [] ∧ ∃ ast, opn2 = [ast]
              ∧ (varIndices ast).Perm
                  (opn.flatMap varIndices
                    ++ ts.flatMap tokenVarIndices))
           ∨ (∃ u rest3, rest2 = u :: rest3 ∧ u.type = "("
              ∧ u.start ≤ u.endPos ∧ u.endPos ≤ len))) := by
  intro ts
  induction ts with
  | nil =>
    intro eofTok ops opn needOp len heof hts hhd hlen hok
    rw [List.nil_append]
    cases needOp with
    | true =>
      have hio : ¬ isOperand eofTok = true := by
        rw [isOperand_eof heof]
        decide
      have hpn : ¬ (eofTok.type = "(" || eofTok.type = "~") = true := by
        rw [heof]
        decide
      cases ops with
      | nil =>
        have hred : parseLoop [eofTok] [] opn true
            = .error (parseError "" 0 0) := by
          rw [parseLoop_cons, if_pos rfl, if_neg hio, if_neg hpn, if_pos heof]
        refine ⟨?_, ?_, ?_⟩
        · intro e he
          rw [hred] at he
          have h2 := PFail.userErr.inj (Except.error.inj he)
          rw [← h2]
          exact ⟨Nat.le_refl 0, Nat.zero_le len, by decide⟩
        · intro m hm
          rw [hred] at hm
          exact PFail.noConfusion (Except.error.inj hm)
        · intro ops2 opn2 h2
          rw [hred] at h2
          exact Except.noConfusion h2
      | cons top rest =>
        obtain ⟨-, hsp1, hsp2⟩ := hok top (List.mem_cons_self top rest)
        by_cases hpar : top.type = "("
        · have hred : parseLoop [eofTok] (top :: rest) opn true
              = .error (parseError
                "Este parêntesis aberto não tem parêntesis fechado correspondente."
                top.start top.endPos) := by
            rw [parseLoop_cons, if_pos rfl, if_neg hio, if_neg hpn,
              if_pos heof]
            dsimp only []
            rw [if_pos hpar]
          refine ⟨?_, ?_, ?_⟩
          · intro e he
            rw [hred] at he
            have h2 := PFail.userErr.inj (Except.error.inj he)
            rw [← h2]
            refine ⟨hsp1, hsp2, ?_⟩
            show ¬ "Este parêntesis aberto não tem parêntesis fechado correspondente." = "Nada é negado por este operador."
            decide
          · intro m hm
            rw [hred] at hm
            exact PFail.noConfusion (Except.error.inj hm)
          · intro ops2 opn2 h2
            rw [hred] at h2
            exact Except.noConfusion h2
        · have hred : parseLoop [eofTok] (top :: rest) opn true
              = .error (parseError "Falta um operando a este operador."
                top.start top.endPos) := by
            rw [parseLoop_cons, if_pos rfl, if_neg hio, if_neg hpn,
              if_pos heof]
            dsimp only []
            rw [if_neg hpar]
          refine ⟨?_, ?_, ?_⟩
          · intro e he
            rw [hred] at he
            have h2 := PFail.userErr.inj (Except.error.inj he)
            rw [← h2]
            refine ⟨hsp1, hsp2, ?_⟩
            show ¬ "Falta um operando a este operador." = "Nada é negado por este operador."
            decide
          · intro m hm
            rw [hred] at hm
            exact PFail.noConfusion (Except.error.inj hm)
          · intro ops2 opn2 h2
            rw [hred] at h2
            exact Except.noConfusion h2
    | false =>
      obtain ⟨ops2a, opn2a, hok2, hsuf, hlen2, hhd2, hdollar, hperm⟩ :=
        resolveOperators_spec ops.length eofTok ops opn (-1)
          (priorityOf_eof eofTok heof) (List.countP_le_length _)
          (by rw [if_neg (by decide)] at hlen; exact hlen)
          (hhd rfl) (fun t ht => (hok t ht).1)
      have hred : parseLoop [eofTok] ops opn false
          = .ok (eofTok :: ops2a, opn2a) := by
        rw [parseLoop_cons, if_neg (by decide),
          if_pos (by rw [isBinaryOperator_eof heof, heof]; decide), hok2]
        dsimp only []
        rw [if_pos heof]
      refine ⟨?_, ?_, ?_⟩
      · intro e he
        rw [hred] at he
        exact Except.noConfusion he
      · intro m hm
        rw [hred] at hm
        exact Except.noConfusion hm
      · intro ops2 opn2 h2
        rw [hred] at h2
        obtain ⟨ho, hn⟩ := Prod.mk.inj (Except.ok.inj h2)
        refine ⟨ops2a, ho.symm, ?_⟩
        rcases hdollar rfl with hnil | ⟨u, rest3, hu, hupar⟩
        · left
          refine ⟨hnil, ?_⟩
          rw [hnil] at hlen2
          cases opn2a with
          | nil => exact absurd hlen2 (by simp)
          | cons ast opn3 =>
            cases opn3 with
            | nil =>
              refine ⟨ast, hn.symm, ?_⟩
              simp only [List.flatMap_cons, List.flatMap_nil,
                List.append_nil] at hperm ⊢
              exact hperm
            | cons b l =>
              exfalso
              simp only [List.length_cons, List.countP_nil] at hlen2
              omega
        · right
          have hmem : u ∈ ops2a := by
            rw [hu]
            exact List.mem_cons_self u rest3
          have hsp := hok u (hsuf.subset hmem)
          exact ⟨u, rest3, hu, hupar, hsp.2.1, hsp.2.2⟩
  | cons t ts2 ih =>
    intro eofTok ops opn needOp len heof hts hhd hlen hok
    obtain ⟨htd, hsp1, hsp2⟩ := hts t (List.mem_cons_self t ts2)
    have hts2 : ∀ u ∈ ts2, ¬ u.type = "$" ∧ u.start ≤ u.endPos
        ∧ u.endPos ≤ len := fun u hu => hts u (List.mem_cons_of_mem t hu)
    rw [List.cons_append]
    cases needOp with
    | true =>
      rw [if_pos rfl] at hlen
      by_cases hop : isOperand t = true
      · obtain ⟨node, hw, hvn⟩ := wrapOperand_operand t hop
        obtain ⟨nd, ops2a, heq, hsuf, hvnd, hhd2, hcnt⟩ :=
          addOperand_spec node opn ops
        have hred : parseLoop (t :: (ts2 ++ [eofTok])) ops opn true
            = parseLoop (ts2 ++ [eofTok]) ops2a (nd :: opn) false := by
          rw [parseLoop_cons, if_pos rfl, if_pos hop, hw]
          dsimp only []
          rw [heq]
        obtain ⟨ihErr, ihBug, ihOk⟩ := ih eofTok ops2a (nd :: opn) false len
          heof hts2 (fun _ => hhd2)
          (by
            rw [if_neg (by decide)]
            simp only [List.length_cons]
            rw [hcnt]
            omega)
          (fun u hu => hok u (hsuf.subset hu))
        refine ⟨?_, ?_, ?_⟩
        · intro e he
          rw [hred] at he
          exact ihErr e he
        · intro m hm
          rw [hred] at hm
          exact ihBug m hm
        · intro ops2 opn2 h2
          rw [hred] at h2
          obtain ⟨rest2, hops2, hcase⟩ := ihOk ops2 opn2 h2
          refine ⟨rest2, hops2, ?_⟩
          rcases hcase with ⟨hrest, ast, hopn2, hperm2⟩ | hr
          · left
            refine ⟨hrest, ast, hopn2, ?_⟩
            have h1 : (nd :: opn).flatMap varIndices
                = tokenVarIndices t ++ opn.flatMap varIndices := by
              simp only [List.flatMap_cons]
              rw [hvnd, hvn]
            have h2' : (t :: ts2).flatMap tokenVarIndices
                = tokenVarIndices t ++ ts2.flatMap tokenVarIndices := by
              simp only [List.flatMap_cons]
            rw [h1] at hperm2
            rw [h2']
            exact hperm2.trans (perm_append_bridge _ _ _)
          · right
            exact hr
      · by_cases hpn : (t.type = "(" || t.type = "~") = true
        · have hpn2 : t.type = "(" ∨ t.type = "~" := by
            have h2 := hpn
            simp only [Bool.or_eq_true, decide_eq_true_eq] at h2
            exact h2
          have hnotvar : ¬ t.type = "variable" := by
            rcases hpn2 with h | h
            · rw [h]
              decide
            · rw [h]
              decide
          have hnb : ¬ isBinaryOperator t = true := by
            rcases hpn2 with h | h
            · rw [isBinaryOperator_paren h]
              decide
            · rw [isBinaryOperator_neg h]
              decide
          have hred : parseLoop (t :: (ts2 ++ [eofTok])) ops opn true
              = parseLoop (ts2 ++ [eofTok]) (t :: ops) opn true := by
            rw [parseLoop_cons, if_pos rfl, if_neg hop, if_pos hpn]
          obtain ⟨ihErr, ihBug, ihOk⟩ := ih eofTok (t :: ops) opn true len
            heof hts2 (fun hfalse => Bool.noConfusion hfalse)
            (by
              rw [if_pos rfl, List.countP_cons_of_neg _ _ hnb]
              exact hlen)
            (fun u hu => by
              rcases List.mem_cons.mp hu with h | h
              · rw [h]
                refine ⟨?_, hsp1, hsp2⟩
                rcases hpn2 with h2 | h2
                · exact Or.inr (Or.inl h2)
                · exact Or.inl h2
              · exact hok u h)
          refine ⟨?_, ?_, ?_⟩
          · intro e he
            rw [hred] at he
            exact ihErr e he
          · intro m hm
            rw [hred] at hm
            exact ihBug m hm
          · intro ops2 opn2 h2
            rw [hred] at h2
            obtain ⟨rest2, hops2, hcase⟩ := ihOk ops2 opn2 h2
            refine ⟨rest2, hops2, ?_⟩
            rcases hcase with ⟨hrest, ast, hopn2, hperm2⟩ | hr
            · left
              refine ⟨hrest, ast, hopn2, ?_⟩
              have h2' : (t :: ts2).flatMap tokenVarIndices
                  = ts2.flatMap tokenVarIndices := by
                simp only [List.flatMap_cons]
                rw [tokenVarIndices_not_var hnotvar, List.nil_append]
              rw [h2']
              exact hperm2
            · right
              exact hr
        · have hred : parseLoop (t :: (ts2 ++ [eofTok])) ops opn true
              = .error (parseError
                "Esperávamos aqui uma variável, uma constante ou um parêntesis aberto."
                t.start t.endPos) := by
            rw [parseLoop_cons, if_pos rfl, if_neg hop, if_neg hpn,
              if_neg htd]
          refine ⟨?_, ?_, ?_⟩
          · intro e he
            rw [hred] at he
            have h2 := PFail.userErr.inj (Except.error.inj he)
            rw [← h2]
            refine ⟨hsp1, hsp2, ?_⟩
            show ¬ "Esperávamos aqui uma variável, uma constante ou um parêntesis aberto." = "Nada é negado por este operador."
            decide
          · intro m hm
            rw [hred] at hm
            exact PFail.noConfusion (Except.error.inj hm)
          · intro ops2 opn2 h2
            rw [hred] at h2
            exact Except.noConfusion h2
    | false =>
      rw [if_neg (by decide)] at hlen
      by_cases hbin : isBinaryOperator t = true
      · obtain ⟨pt, hpt, hpt0, hpt3⟩ := priorityOf_binary t hbin
        obtain ⟨ops2a, opn2a, hok2, hsuf, hlen2, hhd2, -, hperm⟩ :=
          resolveOperators_spec ops.length t ops opn pt hpt
            (List.countP_le_length _) hlen (hhd rfl)
            (fun u hu => (hok u hu).1)
        have hred : parseLoop (t :: (ts2 ++ [eofTok])) ops opn false
            = parseLoop (ts2 ++ [eofTok]) (t :: ops2a) opn2a true := by
          rw [parseLoop_cons, if_neg (by decide),
            if_pos (by rw [hbin]; exact Bool.true_or _), hok2]
          dsimp only []
          rw [if_neg htd]
        obtain ⟨ihErr, ihBug, ihOk⟩ := ih eofTok (t :: ops2a) opn2a true len
          heof hts2 (fun hfalse => Bool.noConfusion hfalse)
          (by
            rw [if_pos rfl, List.countP_cons_of_pos _ _ hbin]
            omega)
          (fun u hu => by
            rcases List.mem_cons.mp hu with h | h
            · rw [h]
              exact ⟨Or.inr (Or.inr hbin), hsp1, hsp2⟩
            · exact hok u (hsuf.subset h))
        refine ⟨?_, ?_, ?_⟩
        · intro e he
          rw [hred] at he
          exact ihErr e he
        · intro m hm
          rw [hred] at hm
          exact ihBug m hm
        · intro ops2 opn2 h2
          rw [hred] at h2
          obtain ⟨rest2, hops2, hcase⟩ := ihOk ops2 opn2 h2
          refine ⟨rest2, hops2, ?_⟩
          rcases hcase with ⟨hrest, ast, hopn2, hperm2⟩ | hr
          · left
            refine ⟨hrest, ast, hopn2, ?_⟩
            have h2' : (t :: ts2).flatMap tokenVarIndices
                = ts2.flatMap tokenVarIndices := by
              simp only [List.flatMap_cons]
              rw [tokenVarIndices_not_var (binary_not_variable hbin),
                List.nil_append]
            rw [h2']
            exact hperm2.trans (List.Perm.append_right _ hperm)
          · right
            exact hr
      · have hbincond : ¬ (isBinaryOperator t || t.type = "$") = true := by
          simp only [Bool.or_eq_true, decide_eq_true_eq]
          rintro (h | h)
          · exact hbin h
          · exact htd h
        by_cases hcp : t.type = ")"
        · obtain ⟨cpErr, cpOk⟩ := closeParenLoop_spec ops.length t ops opn
            (List.countP_le_length _) hlen (hhd rfl)
            (fun u hu => (hok u hu).1)
          cases hcl : closeParenLoop ops.length t ops opn with
          | error f =>
            have hf := cpErr f hcl
            have hred : parseLoop (t :: (ts2 ++ [eofTok])) ops opn false
                = .error f := by
              rw [parseLoop_cons, if_neg (by decide), if_neg hbincond,
                if_pos hcp, hcl]
            refine ⟨?_, ?_, ?_⟩
            · intro e he
              rw [hred, hf] at he
              have h2 := PFail.userErr.inj (Except.error.inj he)
              rw [← h2]
              refine ⟨hsp1, hsp2, ?_⟩
              show ¬ "Este parêntesis fechado não corresponde a nenhum parêntesis aberto." = "Nada é negado por este operador."
              decide
            · intro m hm
              rw [hred, hf] at hm
              exact PFail.noConfusion (Except.error.inj hm)
            · intro ops2 opn2 h2
              rw [hred] at h2
              exact Except.noConfusion h2
          | ok pair =>
            obtain ⟨ops2b, opn2b⟩ := pair
            obtain ⟨hsuf, hlen2, hhd2, hperm⟩ := cpOk ops2b opn2b hcl
            have hred : parseLoop (t :: (ts2 ++ [eofTok])) ops opn false
                = parseLoop (ts2 ++ [eofTok]) ops2b opn2b false := by
              rw [parseLoop_cons, if_neg (by decide), if_neg hbincond,
                if_pos hcp, hcl]
            obtain ⟨ihErr, ihBug, ihOk⟩ := ih eofTok ops2b opn2b false len
              heof hts2 (fun _ => hhd2)
              (by rw [if_neg (by decide)]; exact hlen2)
              (fun u hu => hok u (hsuf.subset hu))
            refine ⟨?_, ?_, ?_⟩
            · intro e he
              rw [hred] at he
              exact ihErr e he
            · intro m hm
              rw [hred] at hm
              exact ihBug m hm
            · intro ops2 opn2 h2
              rw [hred] at h2
              obtain ⟨rest2, hops2, hcase⟩ := ihOk ops2 opn2 h2
              refine ⟨rest2, hops2, ?_⟩
              rcases hcase with ⟨hrest, ast, hopn2, hperm2⟩ | hr
              · left
                refine ⟨hrest, ast, hopn2, ?_⟩
                have hnotvar : ¬ t.type = "variable" := by
                  rw [hcp]
                  decide
                have h2' : (t :: ts2).flatMap tokenVarIndices
                    = ts2.flatMap tokenVarIndices := by
                  simp only [List.flatMap_cons]
                  rw [tokenVarIndices_not_var hnotvar, List.nil_append]
                rw [h2']
                exact hperm2.trans (List.Perm.append_right _ hperm)
              · right
                exact hr
        · have hred : parseLoop (t :: (ts2 ++ [eofTok])) ops opn false
              = .error (parseError
                "Esperávamos aqui um parêntesis fechado ou um conectivo binário."
                t.start t.endPos) := by
            rw [parseLoop_cons, if_neg (by decide), if_neg hbincond,
              if_neg hcp]
          refine ⟨?_, ?_, ?_⟩
          · intro e he
            rw [hred] at he
            have h2 := PFail.userErr.inj (Except.error.inj he)
            rw [← h2]
            refine ⟨hsp1, hsp2, ?_⟩
            show ¬ "Esperávamos aqui um parêntesis fechado ou um conectivo binário." = "Nada é negado por este operador."
            decide
          · intro m hm
            rw [hred] at hm
            exact PFail.noConfusion (Except.error.inj hm)
          · intro ops2 opn2 h2
            rw [hred] at h2
            exact Except.noConfusion h2


/-- A variable index carried by a token pins the token's type and
index. -/
theorem mem_tokenVarIndices {i : Nat} {t : Token}
    (h : i ∈ tokenVarIndices t) : t.type = "variable" ∧ i = t.index := by
  unfold tokenVarIndices at h
  by_cases hv : t.type = "variable"
  · rw [if_pos hv] at h
    exact ⟨hv, List.mem_singleton.mp h⟩
  · rw [if_neg hv] at h
    exact absurd h (List.not_mem_nil i)

/-- A variable token carries exactly its index. -/
theorem tokenVarIndices_var {t : Token} (h : t.type = "variable") :
    tokenVarIndices t = [t.index] := by
  unfold tokenVarIndices
  rw [if_pos h]

/-- Master specification of parse (the compile operation): it never
reports an internal failure; every error lies inside the input and is
never the nothing-is-negated message; and a successful result carries a
distinct, strictly sorted table of well-formed variable names, with
every variable reference of the AST indexing into the table and every
table position referenced by the AST. -/
theorem parse_spec (input : List Char) :
    (∀ m, ¬ parse input = .bug m)
    ∧ (∀ e, parse input = .err e →
        e.start ≤ e.endPos ∧ e.endPos ≤ input.length
        ∧ ¬ e.description = "Nada é negado por este operador.")
    ∧ (∀ ast vars, parse input = .ok ast vars →
        vars.Nodup
        ∧ List.Pairwise (fun a b => stringLt a b = true) vars
        ∧ (∀ v ∈ vars, goodName v.toList = true)
        ∧ (∀ i ∈ varIndices ast, i < vars.length)
        ∧ (∀ j, j < vars.length → j ∈ varIndices ast)
        ∧ (∃ toks, scan input = .ok (toks, vars))) := by
  cases hscan : scan input with
  | error e0 =>
    have hred : parse input = .err e0 := by
      unfold parse
      rw [hscan]
    obtain ⟨hs1, hs2, hs3⟩ := scan_err_spec input e0 hscan
    refine ⟨?_, ?_, ?_⟩
    · intro m hm
      rw [hred] at hm
      exact PResult.noConfusion hm
    · intro e he
      rw [hred] at he
      have h2 := PResult.err.inj he
      rw [← h2]
      exact ⟨hs1, hs2, hs3⟩
    · intro ast vars h
      rw [hred] at h
      exact PResult.noConfusion h
  | ok pair =>
    obtain ⟨toks, vars⟩ := pair
    obtain ⟨ts, htoks, htfacts, hnd, hpw, hgood, hdense⟩ :=
      scan_ok_spec input toks vars hscan
    subst htoks
    obtain ⟨plErr, plBug, plOk⟩ := parseLoop_spec ts
      ⟨"$", 0, input.length, input.length + 1⟩ [] [] true input.length rfl
      (fun t ht => ⟨(htfacts t ht).1, (htfacts t ht).2.1,
        (htfacts t ht).2.2.1⟩)
      (fun hfalse => Bool.noConfusion hfalse)
      rfl
      (fun t ht => absurd ht (List.not_mem_nil t))
    cases hpl : parseLoop
        (ts ++ [⟨"$", 0, input.length, input.length + 1⟩]) [] [] true with
    | error f =>
      cases f with
      | userErr e0 =>
        have hred : parse input = .err e0 := by
          unfold parse
          rw [hscan]
          dsimp only []
          rw [hpl]
        obtain ⟨h1, h2, h3⟩ := plErr e0 hpl
        refine ⟨?_, ?_, ?_⟩
        · intro m hm
          rw [hred] at hm
          exact PResult.noConfusion hm
        · intro e he
          rw [hred] at he
          have h4 := PResult.err.inj he
          rw [← h4]
          exact ⟨h1, h2, h3⟩
        · intro ast vars2 h
          rw [hred] at h
          exact PResult.noConfusion h
      | bug m0 =>
        exact absurd hpl (plBug m0)
    | ok pair2 =>
      obtain ⟨operators, operands⟩ := pair2
      obtain ⟨rest2, hops, hcase⟩ := plOk operators operands hpl
      rcases hcase with ⟨hrest, ast0, hopn, hperm⟩ |
          ⟨u, rest3, hrest, hupar, hus1, hus2⟩
      · have hred : parse input = .ok ast0 vars := by
          unfold parse
          rw [hscan]
          dsimp only []
          rw [hpl]
          dsimp only []
          rw [hops, hrest, hopn]
          dsimp only []
          rw [if_pos rfl]
        simp only [List.flatMap_nil, List.nil_append] at hperm
        refine ⟨?_, ?_, ?_⟩
        · intro m hm
          rw [hred] at hm
          exact PResult.noConfusion hm
        · intro e he
          rw [hred] at he
          exact PResult.noConfusion he
        · intro ast vars2 h
          rw [hred] at h
          obtain ⟨ha, hv⟩ := PResult.ok.inj h
          subst ha
          subst hv
          refine ⟨hnd, hpw, hgood, ?_, ?_, ⟨_, rfl⟩⟩
          · intro i hi
            have hmem := hperm.mem_iff.mp hi
            obtain ⟨t, ht, hit⟩ := List.mem_flatMap.mp hmem
            obtain ⟨htv, hidx⟩ := mem_tokenVarIndices hit
            rw [hidx]
            exact (htfacts t ht).2.2.2 htv
          · intro j hj
            obtain ⟨t, ht, htv, hidx⟩ := hdense j hj
            refine hperm.mem_iff.mpr (List.mem_flatMap.mpr ⟨t, ht, ?_⟩)
            rw [tokenVarIndices_var htv, hidx]
            exact List.mem_singleton.mpr rfl
      · have hred : parse input = .err
            ⟨"Não há parêntesis fechado correspondente para este parêntesis aberto.",
              u.start, u.endPos⟩ := by
          unfold parse
          rw [hscan]
          dsimp only []
          rw [hpl]
          dsimp only []
          rw [hops, hrest]
          dsimp only []
          rw [if_pos rfl]
          rw [if_pos hupar]
        refine ⟨?_, ?_, ?_⟩
        · intro m hm
          rw [hred] at hm
          exact PResult.noConfusion hm
        · intro e he
          rw [hred] at he
          have h2 := PResult.err.inj he
          rw [← h2]
          refine ⟨hus1, hus2, ?_⟩
          show ¬ "Não há parêntesis fechado correspondente para este parêntesis aberto." = "Nada é negado por este operador."
          decide
        · intro ast vars2 h
          rw [hred] at h
          exact PResult.noConfusion h

/-- Variable numbering is consistent: numberVariables keeps each
token's type and span, and rewrites a variable token's index to a
position that looks up exactly the name the scanner recorded. -/
theorem numberVariables_consistent (ptoks : List PToken)
    (varSet : List String)
    (hnames : ∀ pt ∈ ptoks, pt.type = "variable" →
        pt.name ∈ (numberVariables (ptoks, varSet)).2) :
    List.Forall₂ (fun (pt : PToken) (t : Token) =>
        t.type = pt.type ∧ t.start = pt.start ∧ t.endPos = pt.endPos
        ∧ (pt.type = "variable" →
            ((numberVariables (ptoks, varSet)).2).get? t.index
              = some pt.name))
      ptoks (numberVariables (ptoks, varSet)).1 := by
  have hfst : (numberVariables (ptoks, varSet)).1 = ptoks.map (fun pt =>
      if pt.type = "variable" then
        (⟨pt.type, (List.insertionSort (fun a b => stringLe a b = true)
            varSet).indexOf pt.name, pt.start, pt.endPos⟩ : Token)
      else ⟨pt.type, 0, pt.start, pt.endPos⟩) := rfl
  rw [hfst, List.forall₂_map_right_iff, List.forall₂_same]
  intro pt hpt
  by_cases hv : pt.type = "variable"
  · rw [if_pos hv]
    exact ⟨rfl, rfl, rfl, fun _ => List.indexOf_get? (hnames pt hpt hv)⟩
  · rw [if_neg hv]
    exact ⟨rfl, rfl, rfl, fun hc => absurd hc hv⟩

/-- C6.  For every input, compile returns a result or throws a
structured user error, and never hits an internal assertion or
unreachable-code failure: no operand-stack pop underflows, the operator
stack ends non-empty with the end marker on top, and priorityOf,
createOperatorNode and wrapOperand are applied only to token types
they handle. -/
theorem claim6_no_internal_failure (input : List Char) :
    isBug (parse input) = false := by
  cases hp : parse input with
  | ok ast vars => rfl
  | err e => rfl
  | bug m => exact absurd hp ((parse_spec input).1 m)

/-- C7.  Every error value compile throws satisfies
0 ≤ start ≤ end ≤ input.length: the half-open span lies within the
original input, before the end-of-input sentinel is appended. -/
theorem claim7_error_ranges (input : List Char) (e : ErrObj)
    (h : parse input = .err e) :
    0 ≤ e.start ∧ e.start ≤ e.endPos ∧ e.endPos ≤ input.length := by
  obtain ⟨h1, h2, -⟩ := (parse_spec input).2.1 e h
  exact ⟨Nat.zero_le _, h1, h2⟩

/-- Witness for C7 at the concrete input "(p": the unmatched-open
error spans [0, 1), inside the two-character input. -/
theorem claim7_error_ranges_witness :
    0 ≤ (0 : Nat) ∧ (0 : Nat) ≤ 1 ∧ 1 ≤ ("(p".toList).length :=
  claim7_error_ranges "(p".toList
    ⟨"Não há parêntesis fechado correspondente para este parêntesis aberto.",
      0, 1⟩ (by decide)

/-- C10.  addOperand pops every contiguous negation marker off the
operator stack before pushing an operand, so in operator-expected
state the stack top is never a negation; consequently the
close-parenthesis branch reporting "Nada é negado por este operador."
is unreachable: no input makes compile throw that message. -/
theorem claim10_negation_unreachable :
    (∀ (node : Node) (opn : List Node) (ops : List Token) (t : Token),
        ((addOperand node opn ops).2).head? = some t → ¬ t.type = "~")
    ∧ (∀ (input : List Char) (e : ErrObj), parse input = .err e →
        ¬ e.description = "Nada é negado por este operador.") := by
  constructor
  · intro node opn ops t ht
    obtain ⟨nd, ops2, heq, -, -, hhd, -⟩ := addOperand_spec node opn ops
    rw [heq] at ht
    exact hhd t ht
  · intro input e h
    exact ((parse_spec input).2.1 e h).2.2

/-- Witness for C10 at the concrete input "p)": its unmatched-close
error message is not the nothing-is-negated message. -/
theorem claim10_negation_unreachable_witness :
    ¬ ("Este parêntesis fechado não corresponde a nenhum parêntesis aberto."
        : String) = "Nada é negado por este operador." :=
  claim10_negation_unreachable.2 "p)".toList
    ⟨"Este parêntesis fechado não corresponde a nenhum parêntesis aberto.",
      1, 2⟩ (by decide)

/-- C2.  For every input compile accepts, the variable table is
strictly sorted with no duplicates, every variable reference in the
AST is a dense zero-based index below the table length (dense: every
table position is referenced), and the numbering is consistent: each
scanned variable token's index looks up exactly the name the scanner
recorded for that token. -/
theorem claim2_variable_table (input : List Char) (ast : Node)
    (vars : List String) (h : parse input = .ok ast vars) :
    List.Pairwise (fun a b => stringLt a b = true) vars
    ∧ vars.Nodup
    ∧ (∀ i ∈ varIndices ast, i < vars.length)
    ∧ (∀ j, j < vars.length → j ∈ varIndices ast)
    ∧ (∀ ptoks varSet, preliminaryScan input = .ok (ptoks, varSet) →
        vars = (numberVariables (ptoks, varSet)).2
        ∧ List.Forall₂ (fun (pt : PToken) (t : Token) =>
            t.type = pt.type ∧ t.start = pt.start ∧ t.endPos = pt.endPos
            ∧ (pt.type = "variable" → vars.get? t.index = some pt.name))
          ptoks (numberVariables (ptoks, varSet)).1) := by
  obtain ⟨hnd, hpw, hgood, hbound, hdense, toks, hscan⟩ :=
    (parse_spec input).2.2 ast vars h
  refine ⟨hpw, hnd, hbound, hdense, ?_⟩
  intro ptoks varSet hp
  cases hci : checkIntegrity input with
  | some e2 =>
    exfalso
    have : scan input = .error e2 := by
      unfold scan
      rw [hci]
    rw [this] at hscan
    exact Except.noConfusion hscan
  | none =>
    have hscan2 : scan input = .ok (numberVariables (ptoks, varSet)) := by
      unfold scan
      rw [hci, hp]
    rw [hscan2] at hscan
    have hpair := Except.ok.inj hscan
    have hvars : (numberVariables (ptoks, varSet)).2 = vars :=
      congrArg Prod.snd hpair
    refine ⟨hvars.symm, ?_⟩
    unfold preliminaryScan at hp
    obtain ⟨pts, hptoks, hfacts, hvsnd, hmem⟩ :=
      (preliminaryScanAux_spec (input.length + 2) input 0 []
        (by omega) (checkIntegrity_no_dollar input hci)
        List.nodup_nil).2 ptoks varSet hp
    have hsort := insertionSort_stringLe_spec varSet hvsnd
    have hcons := numberVariables_consistent ptoks varSet (by
      intro pt hpt hv
      have hn : pt.name ∈ varSet := by
        rw [hptoks] at hpt
        rcases List.mem_append.mp hpt with hin | hin
        · exact ((hfacts pt hin).2.2.2.2 hv).1
        · exfalso
          have h3 := List.mem_singleton.mp hin
          rw [h3] at hv
          exact absurd hv (by decide : ¬ ("$" : String) = "variable")
      show pt.name ∈ List.insertionSort (fun a b => stringLe a b = true)
        varSet
      exact (hsort.2.2 pt.name).mpr hn)
    refine List.Forall₂.imp ?_ hcons
    intro pt t hc
    refine ⟨hc.1, hc.2.1, hc.2.2.1, fun hv => ?_⟩
    rw [← hvars]
    exact hc.2.2.2 hv

/-- Witness for C2 at the concrete input "q /\ p": the table is
["p", "q"], strictly sorted, and the AST And(q, p) references indices
1 and 0, both below the table length. -/
theorem claim2_variable_table_witness :
    List.Pairwise (fun a b => stringLt a b = true) ["p", "q"]
    ∧ (∀ i ∈ varIndices (Node.andNode (.variableNode 1) (.variableNode 0)),
        i < (["p", "q"] : List String).length) := by
  have h := claim2_variable_table "q /\\ p".toList
    (.andNode (.variableNode 1) (.variableNode 0)) ["p", "q"] (by decide)
  exact ⟨h.1, h.2.2.1⟩


/-- A whitespace character cannot begin a variable name. -/
theorem ws_not_varstart {c : Char} (h : isWhitespace c = true) :
    ¬ isVariableStartChar c = true := by
  unfold isWhitespace at h
  unfold isVariableStartChar isLetterChar
  intro h2
  simp only [Bool.or_eq_true, Bool.and_eq_true, decide_eq_true_eq] at h h2
  have hn : 65 ≤ c.toNat ∧ c.toNat ≤ 90 ∨ 97 ≤ c.toNat ∧ c.toNat ≤ 122
      ∨ c.toNat = 95 := by
    rcases h2 with (⟨ha, hb⟩ | ⟨ha, hb⟩) | hu
    · rw [Char.le_def, UInt32.le_def, BitVec.le_def] at ha hb
      have e1 : (('A').val.toBitVec).toNat = 65 := rfl
      have e2 : (('Z').val.toBitVec).toNat = 90 := rfl
      have e3 : ((c.val).toBitVec).toNat = c.toNat := rfl
      rw [e1, e3] at ha
      rw [e2, e3] at hb
      exact Or.inl ⟨ha, hb⟩
    · rw [Char.le_def, UInt32.le_def, BitVec.le_def] at ha hb
      have e1 : (('a').val.toBitVec).toNat = 97 := rfl
      have e2 : (('z').val.toBitVec).toNat = 122 := rfl
      have e3 : ((c.val).toBitVec).toNat = c.toNat := rfl
      rw [e1, e3] at ha
      rw [e2, e3] at hb
      exact Or.inr (Or.inl ⟨ha, hb⟩)
    · exact Or.inr (Or.inr (by rw [hu]; rfl))
  have hw : c.toNat = 32 ∨ (9 ≤ c.toNat ∧ c.toNat ≤ 13) ∨ c.toNat = 160
      ∨ c.toNat = 5760 ∨ (8192 ≤ c.toNat ∧ c.toNat ≤ 8202) ∨ c.toNat = 8232
      ∨ c.toNat = 8233 ∨ c.toNat = 8239 ∨ c.toNat = 8287 ∨ c.toNat = 12288
      ∨ c.toNat = 65279 := by
    rcases h with (((((((((hc | hr) | h1) | h2') | h3) | h4) | h5) | h6)
        | h7) | h8) | h9
    · exact Or.inl (by rw [hc]; rfl)
    · exact Or.inr (Or.inl hr)
    · exact Or.inr (Or.inr (Or.inl h1))
    · exact Or.inr (Or.inr (Or.inr (Or.inl h2')))
    · exact Or.inr (Or.inr (Or.inr (Or.inr (Or.inl h3))))
    · exact Or.inr (Or.inr (Or.inr (Or.inr (Or.inr (Or.inl h4)))))
    · exact Or.inr (Or.inr (Or.inr (Or.inr (Or.inr (Or.inr (Or.inl h5))))))
    · exact Or.inr (Or.inr (Or.inr (Or.inr (Or.inr (Or.inr (Or.inr
        (Or.inl h6)))))))
    · exact Or.inr (Or.inr (Or.inr (Or.inr (Or.inr (Or.inr (Or.inr
        (Or.inr (Or.inl h7))))))))
    · exact Or.inr (Or.inr (Or.inr (Or.inr (Or.inr (Or.inr (Or.inr
        (Or.inr (Or.inr (Or.inl h8)))))))))
    · exact Or.inr (Or.inr (Or.inr (Or.inr (Or.inr (Or.inr (Or.inr
        (Or.inr (Or.inr (Or.inr h9)))))))))
  omega

/-- A whitespace character is accepted by the integrity check. -/
theorem okayChar_of_ws {c : Char} (h : isWhitespace c = true) :
    okayChar c = true := by
  unfold okayChar
  rw [h]
  simp

/-- The end marker is not whitespace. -/
theorem ws_ne_dollar {c : Char} (h : isWhitespace c = true) :
    ¬ c = kScannerEOF := by
  intro hc
  rw [hc] at h
  exact absurd h (by decide)

/-- An input of acceptable characters passes the integrity check. -/
theorem checkIntegrityAux_none_of_all : ∀ (l : List Char) (i : Nat),
    (∀ c ∈ l, okayChar c = true) → checkIntegrityAux l i = none := by
  intro l
  induction l with
  | nil => intro i _; rfl
  | cons c rest ih =>
    intro i hall
    have hred : checkIntegrityAux (c :: rest) i
        = checkIntegrityAux rest (i + 1) := by
      simp only [checkIntegrityAux]
      rw [if_pos (hall c (List.mem_cons_self c rest))]
    rw [hred]
    exact ih (i + 1) (fun d hd => hall d (List.mem_cons_of_mem c hd))

/-- Every operator spelling begins with a non-whitespace character. -/
theorem opSpellings_head_not_ws : ∀ w ∈ opSpellings,
    ¬ w = [] ∧ isWhitespace (w.headD 'x') = false := by
  decide

/-- No operator spelling can be read at a whitespace character. -/
theorem tryReadOperator_ws_none {c : Char} (h : isWhitespace c = true)
    (rest : List Char) : tryReadOperator (c :: rest) = none := by
  cases hop : tryReadOperator (c :: rest) with
  | none => rfl
  | some t =>
    exfalso
    obtain ⟨hmem, htake, h1, hlen⟩ := tryReadOperator_mem _ t hop
    obtain ⟨hne, hd⟩ := opSpellings_head_not_ws t hmem
    cases t with
    | nil => exact hne rfl
    | cons d w2 =>
      have hcd : c = d := by
        rw [List.length_cons, List.take_succ_cons] at htake
        exact (List.cons.inj htake).1
      have hd2 : isWhitespace d = false := hd
      rw [hcd] at h
      rw [h] at hd2
      exact Bool.noConfusion hd2

/-- No variable name can be read at a whitespace character. -/
theorem tryReadVariableName_ws_none {c : Char} (h : isWhitespace c = true)
    (rest : List Char) : tryReadVariableName (c :: rest) = none := by
  unfold tryReadVariableName
  dsimp only []
  rw [if_neg (ws_not_varstart h)]

/-- Scanning a whitespace-only body yields only the end-marker token
and collects no variables. -/
theorem preliminaryScanAux_ws : ∀ (body : List Char) (fuel i : Nat)
    (varSet : List String),
    (∀ c ∈ body, isWhitespace c = true) → body.length < fuel →
    preliminaryScanAux fuel (body ++ [kScannerEOF]) i varSet
      = .ok ([⟨"$", "", i + body.length, i + body.length + 1⟩], varSet) := by
  intro body
  induction body with
  | nil =>
    intro fuel i varSet hws hfuel
    cases fuel with
    | zero => omega
    | succ f =>
      have hred : preliminaryScanAux (f + 1) ([] ++ [kScannerEOF]) i varSet
          = .ok ([makeIdentityToken [kScannerEOF] i], varSet) := rfl
      rw [hred]
      simp [makeIdentityToken, translate, kScannerEOF]
  | cons c body2 ih =>
    intro fuel i varSet hws hfuel
    have hcw : isWhitespace c = true := hws c (List.mem_cons_self c body2)
    have hcd : ¬ c = kScannerEOF := ws_ne_dollar hcw
    cases fuel with
    | zero => exact absurd hfuel (by omega)
    | succ f =>
      rw [List.cons_append,
        preliminaryScanAux_cons f c (body2 ++ [kScannerEOF]) i varSet hcd]
      rw [tryReadVariableName_ws_none hcw]
      dsimp only []
      rw [tryReadOperator_ws_none hcw]
      dsimp only []
      rw [if_pos hcw]
      rw [ih f (i + 1) varSet
        (fun d hd => hws d (List.mem_cons_of_mem c hd))
        (by rw [List.length_cons] at hfuel; omega)]
      have harith : i + 1 + body2.length = i + (c :: body2).length := by
        rw [List.length_cons]
        omega
      rw [harith]

/-- C8 counterexample: on the empty input, compile throws the error
⟨"", 0, 0⟩ — its description is the empty string, not a non-empty
human-readable message. -/
theorem claim8_empty_counterexample :
    parse [] = .err ⟨"", 0, 0⟩
    ∧ (ErrObj.mk "" 0 0).description.length = 0 := by
  exact ⟨by decide, rfl⟩

/-- C8 amended: on the empty input and on every whitespace-only input,
compile fails with the structured error ⟨"", 0, 0⟩ — the
expression-expected condition — whose description is the EMPTY string
(not a non-empty message) and whose range is the empty span [0, 0). -/
theorem claim8_empty_input (input : List Char)
    (hws : ∀ c ∈ input, isWhitespace c = true) :
    parse input = .err ⟨"", 0, 0⟩ := by
  have hci : checkIntegrity input = none :=
    checkIntegrityAux_none_of_all input 0
      (fun c hc => okayChar_of_ws (hws c hc))
  have hscan : scan input
      = .ok ([⟨"$", 0, 0 + input.length, 0 + input.length + 1⟩], []) := by
    unfold scan
    rw [hci]
    unfold preliminaryScan
    rw [preliminaryScanAux_ws input (input.length + 2) 0 [] hws (by omega)]
    rfl
  have hio : isOperand
      (⟨"$", 0, 0 + input.length, 0 + input.length + 1⟩ : Token)
      = false := rfl
  have hpn : ((⟨"$", 0, 0 + input.length, 0 + input.length + 1⟩
      : Token).type = "(" ||
      (⟨"$", 0, 0 + input.length, 0 + input.length + 1⟩ : Token).type = "~")
      = false := rfl
  have hred : parseLoop
      [(⟨"$", 0, 0 + input.length, 0 + input.length + 1⟩ : Token)] [] [] true
      = .error (parseError "" 0 0) := by
    rw [parseLoop_cons, if_pos rfl, if_neg (by rw [hio]; decide),
      if_neg (by rw [hpn]; decide), if_pos rfl]
  unfold parse
  rw [hscan]
  dsimp only []
  rw [hred]
  rfl

/-- Witness for the amended C8 at the concrete whitespace-only
input " ". -/
theorem claim8_empty_input_witness : parse [' '] = .err ⟨"", 0, 0⟩ :=
  claim8_empty_input [' '] (by decide)

/-- Rebuilding a string from its characters is the identity. -/
theorem string_mk_toList : ∀ s : String, String.mk s.toList = s := by
  intro s
  cases s
  rfl

/-- Appending strings appends their character lists. -/
theorem string_toList_append (s t : String) :
    (s ++ t).toList = s.toList ++ t.toList := by
  cases s
  cases t
  rfl

/-- Strict below implies non-strict below for character lists. -/
theorem charListLe_of_lt : ∀ a b : List Char,
    charListLt a b = true → charListLe a b = true := by
  intro a
  induction a with
  | nil => intro b _; rfl
  | cons x xs ih =>
    intro b h
    cases b with
    | nil => exact absurd h (by simp [charListLt])
    | cons y ys =>
      simp only [charListLt, Bool.or_eq_true, Bool.and_eq_true,
        decide_eq_true_eq] at h
      simp only [charListLe]
      rcases h with h | ⟨he, hr⟩
      · rw [if_pos h]
      · rw [if_neg (by omega), if_neg (by omega)]
        exact ih ys hr

theorem stringLe_of_lt {a b : String} (h : stringLt a b = true) :
    stringLe a b = true :=
  charListLe_of_lt a.toList b.toList h

/-- A variable-name character is accepted by the integrity check. -/
theorem okayChar_of_varChar {c : Char} (h : isVariableChar c = true) :
    okayChar c = true := by
  unfold isVariableChar at h
  unfold okayChar
  simp only [Bool.or_eq_true] at h ⊢
  tauto

/-- One step of the decoding loop on a non-empty input. -/
theorem decodeEntitiesAux_cons (fuel : Nat) (c : Char) (rest : List Char) :
    decodeEntitiesAux (fuel + 1) (c :: rest)
      = if c = '&' then
          match entityHead rest with
          | some (d, rest2) => d :: decodeEntitiesAux fuel rest2
          | none => c :: decodeEntitiesAux fuel rest
        else c :: decodeEntitiesAux fuel rest := rfl

/-- A successful entity match consumes at least three characters. -/
theorem entityHead_some_len (l : List Char) (d : Char) (r2 : List Char)
    (h : entityHead l = some (d, r2)) : r2.length + 3 ≤ l.length := by
  unfold entityHead at h
  split_ifs at h with h1 h2 h3 h4 h5 h6 h7
  · obtain ⟨-, hr⟩ := Prod.mk.inj (Option.some.inj h)
    rw [← hr, List.length_drop]
    have hl := congrArg List.length h1
    have hlit : ("#8868;".toList).length = 6 := rfl
    rw [List.length_take, hlit] at hl
    omega
  · obtain ⟨-, hr⟩ := Prod.mk.inj (Option.some.inj h)
    rw [← hr, List.length_drop]
    have hl := congrArg List.length h2
    have hlit : ("#8869;".toList).length = 6 := rfl
    rw [List.length_take, hlit] at hl
    omega
  · obtain ⟨-, hr⟩ := Prod.mk.inj (Option.some.inj h)
    rw [← hr, List.length_drop]
    have hl := congrArg List.length h3
    have hlit : ("not;".toList).length = 4 := rfl
    rw [List.length_take, hlit] at hl
    omega
  · obtain ⟨-, hr⟩ := Prod.mk.inj (Option.some.inj h)
    rw [← hr, List.length_drop]
    have hl := congrArg List.length h4
    have hlit : ("and;".toList).length = 4 := rfl
    rw [List.length_take, hlit] at hl
    omega
  · obtain ⟨-, hr⟩ := Prod.mk.inj (Option.some.inj h)
    rw [← hr, List.length_drop]
    have hl := congrArg List.length h5
    have hlit : ("or;".toList).length = 3 := rfl
    rw [List.length_take, hlit] at hl
    omega
  · obtain ⟨-, hr⟩ := Prod.mk.inj (Option.some.inj h)
    rw [← hr, List.length_drop]
    have hl := congrArg List.length h6
    have hlit : ("rarr;".toList).length = 5 := rfl
    rw [List.length_take, hlit] at hl
    omega
  · obtain ⟨-, hr⟩ := Prod.mk.inj (Option.some.inj h)
    rw [← hr, List.length_drop]
    have hl := congrArg List.length h7
    have hlit : ("harr;".toList).length = 5 := rfl
    rw [List.length_take, hlit] at hl
    omega

/-- The decoding loop ignores extra fuel. -/
theorem decodeEntitiesAux_irrel : ∀ (b : Nat) (l : List Char)
    (fuel1 fuel2 : Nat), l.length ≤ b → l.length ≤ fuel1 →
    l.length ≤ fuel2 →
    decodeEntitiesAux fuel1 l = decodeEntitiesAux fuel2 l := by
  intro b
  induction b with
  | zero =>
    intro l fuel1 fuel2 hb h1 h2
    have hl : l = [] := List.length_eq_zero.mp (Nat.le_zero.mp hb)
    subst hl
    cases fuel1 <;> cases fuel2 <;> rfl
  | succ b ih =>
    intro l fuel1 fuel2 hb h1 h2
    cases l with
    | nil => cases fuel1 <;> cases fuel2 <;> rfl
    | cons c rest =>
      rw [List.length_cons] at hb h1 h2
      cases fuel1 with
      | zero => omega
      | succ f1 =>
        cases fuel2 with
        | zero => omega
        | succ f2 =>
          rw [decodeEntitiesAux_cons, decodeEntitiesAux_cons]
          by_cases hc : c = '&'
          · rw [if_pos hc, if_pos hc]
            cases hE : entityHead rest with
            | some p =>
              obtain ⟨d, r2⟩ := p
              have hlen := entityHead_some_len rest d r2 hE
              dsimp only []
              rw [ih r2 f1 f2 (by omega) (by omega) (by omega)]
            | none =>
              dsimp only []
              rw [ih rest f1 f2 (by omega) (by omega) (by omega)]
          · rw [if_neg hc, if_neg hc]
            rw [ih rest f1 f2 (by omega) (by omega) (by omega)]

/-- The decoding loop passes over an ampersand-free block. -/
theorem decodeEntitiesAux_pass : ∀ (u rest : List Char) (fuel : Nat),
    (∀ c ∈ u, ¬ c = '&') → (u ++ rest).length ≤ fuel →
    decodeEntitiesAux fuel (u ++ rest)
      = u ++ decodeEntitiesAux rest.length rest := by
  intro u
  induction u with
  | nil =>
    intro rest fuel _ hf
    rw [List.nil_append, List.nil_append]
    exact decodeEntitiesAux_irrel (rest.length) rest fuel rest.length
      (Nat.le_refl _) (by simpa using hf) (Nat.le_refl _)
  | cons c u2 ih =>
    intro rest fuel hn hf
    rw [List.cons_append]
    rw [List.cons_append, List.length_cons] at hf
    cases fuel with
    | zero => omega
    | succ f =>
      rw [decodeEntitiesAux_cons,
        if_neg (hn c (List.mem_cons_self c u2))]
      rw [ih rest f (fun d hd => hn d (List.mem_cons_of_mem c hd))
        (by omega)]
      rfl

/-- Decoding the empty list yields the empty list. -/
theorem decodeEntities_nil : decodeEntities [] = [] := rfl

/-- Decoding passes over a character other than an ampersand. -/
theorem decodeEntities_cons_ne (c : Char) (rest : List Char)
    (hc : ¬ c = '&') :
    decodeEntities (c :: rest) = c :: decodeEntities rest := by
  show decodeEntitiesAux (rest.length + 1) (c :: rest)
    = c :: decodeEntitiesAux rest.length rest
  rw [decodeEntitiesAux_cons, if_neg hc]

/-- Decoding an ampersand followed by a recognised entity tail yields
the decoded character. -/
theorem decodeEntities_entity (rest r2 : List Char) (d : Char)
    (hE : entityHead rest = some (d, r2)) :
    decodeEntities ('&' :: rest) = d :: decodeEntities r2 := by
  have hlen := entityHead_some_len rest d r2 hE
  show decodeEntitiesAux (rest.length + 1) ('&' :: rest)
    = d :: decodeEntitiesAux r2.length r2
  rw [decodeEntitiesAux_cons, if_pos rfl, hE]
  dsimp only []
  rw [decodeEntitiesAux_irrel rest.length r2 rest.length r2.length
    (by omega) (by omega) (by omega)]

/-- Decoding passes over a whole ampersand-free block. -/
theorem decodeEntities_append_pass (u rest : List Char)
    (hu : ∀ c ∈ u, ¬ c = '&') :
    decodeEntities (u ++ rest) = u ++ decodeEntities rest := by
  show decodeEntitiesAux (u ++ rest).length (u ++ rest)
    = u ++ decodeEntitiesAux rest.length rest
  exact decodeEntitiesAux_pass u rest (u ++ rest).length hu (Nat.le_refl _)

theorem entityHead_top (x : List Char) :
    entityHead ("#8868;".toList ++ x) = some ('⊤', x) := rfl

theorem entityHead_bot (x : List Char) :
    entityHead ("#8869;".toList ++ x) = some ('⊥', x) := rfl

theorem entityHead_not (x : List Char) :
    entityHead ("not;".toList ++ x) = some ('¬', x) := rfl

theorem entityHead_and (x : List Char) :
    entityHead ("and;".toList ++ x) = some ('∧', x) := rfl

theorem entityHead_or (x : List Char) :
    entityHead ("or;".toList ++ x) = some ('∨', x) := rfl

theorem entityHead_rarr (x : List Char) :
    entityHead ("rarr;".toList ++ x) = some ('→', x) := rfl

theorem entityHead_harr (x : List Char) :
    entityHead ("harr;".toList ++ x) = some ('↔', x) := rfl

/-- Decoding the rendered form of an AST, followed by any remaining
input, yields the glyph rendering of the AST followed by the decoded
remainder, provided the referenced variable names contain no
ampersand. -/
theorem decodeEntities_render : ∀ (n : Node) (vars : List String)
    (rest : List Char),
    (∀ k ∈ varIndices n, ∀ c ∈ (vars.getD k "").toList, ¬ c = '&') →
    decodeEntities ((nodeToString n vars).toList ++ rest)
      = dchars n vars ++ decodeEntities rest := by
  intro n
  induction n with
  | trueNode =>
    intro vars rest _
    have hs : (nodeToString .trueNode vars).toList
        = '&' :: "#8868;".toList := rfl
    rw [hs, List.cons_append,
      decodeEntities_entity _ _ _ (entityHead_top rest)]
    rfl
  | falseNode =>
    intro vars rest _
    have hs : (nodeToString .falseNode vars).toList
        = '&' :: "#8869;".toList := rfl
    rw [hs, List.cons_append,
      decodeEntities_entity _ _ _ (entityHead_bot rest)]
    rfl
  | negateNode u ih =>
    intro vars rest hn
    have hs : (nodeToString (.negateNode u) vars).toList ++ rest
        = '&' :: ("not;".toList ++ ((nodeToString u vars).toList ++ rest)) := by
      show ("&not;" ++ nodeToString u vars).toList ++ rest = _
      rw [string_toList_append]
      rfl
    rw [hs, decodeEntities_entity _ _ _ (entityHead_not _)]
    rw [ih vars rest (fun k hk => hn k hk)]
    rfl
  | andNode l r ihl ihr =>
    intro vars rest hn
    have hnl : ∀ k ∈ varIndices l, ∀ c ∈ (vars.getD k "").toList,
        ¬ c = '&' := fun k hk =>
      hn k (by simp only [varIndices]; exact List.mem_append.mpr (Or.inl hk))
    have hnr : ∀ k ∈ varIndices r, ∀ c ∈ (vars.getD k "").toList,
        ¬ c = '&' := fun k hk =>
      hn k (by simp only [varIndices]; exact List.mem_append.mpr (Or.inr hk))
    have hs : (nodeToString (.andNode l r) vars).toList ++ rest
        = '(' :: ((nodeToString l vars).toList
            ++ (' ' :: '&' :: ("and;".toList
              ++ (' ' :: ((nodeToString r vars).toList
                ++ (')' :: rest)))))) := by
      show (((("(" ++ nodeToString l vars) ++ " &and; ")
          ++ nodeToString r vars) ++ ")").toList ++ rest = _
      rw [string_toList_append, string_toList_append,
        string_toList_append, string_toList_append]
      simp only [List.append_assoc]
      rfl
    rw [hs, decodeEntities_cons_ne '(' _ (by decide)]
    rw [ihl vars _ hnl]
    rw [decodeEntities_cons_ne ' ' _ (by decide)]
    rw [decodeEntities_entity _ _ _ (entityHead_and _)]
    rw [decodeEntities_cons_ne ' ' _ (by decide)]
    rw [ihr vars _ hnr]
    rw [decodeEntities_cons_ne ')' _ (by decide)]
    simp only [dchars, List.cons_append, List.append_assoc, List.nil_append]
  | orNode l r ihl ihr =>
    intro vars rest hn
    have hnl : ∀ k ∈ varIndices l, ∀ c ∈ (vars.getD k "").toList,
        ¬ c = '&' := fun k hk =>
      hn k (by simp only [varIndices]; exact List.mem_append.mpr (Or.inl hk))
    have hnr : ∀ k ∈ varIndices r, ∀ c ∈ (vars.getD k "").toList,
        ¬ c = '&' := fun k hk =>
      hn k (by simp only [varIndices]; exact List.mem_append.mpr (Or.inr hk))
    have hs : (nodeToString (.orNode l r) vars).toList ++ rest
        = '(' :: ((nodeToString l vars).toList
            ++ (' ' :: '&' :: ("or;".toList
              ++ (' ' :: ((nodeToString r vars).toList
                ++ (')' :: rest)))))) := by
      show (((("(" ++ nodeToString l vars) ++ " &or; ")
          ++ nodeToString r vars) ++ ")").toList ++ rest = _
      rw [string_toList_append, string_toList_append,
        string_toList_append, string_toList_append]
      simp only [List.append_assoc]
      rfl
    rw [hs, decodeEntities_cons_ne '(' _ (by decide)]
    rw [ihl vars _ hnl]
    rw [decodeEntities_cons_ne ' ' _ (by decide)]
    rw [decodeEntities_entity _ _ _ (entityHead_or _)]
    rw [decodeEntities_cons_ne ' ' _ (by decide)]
    rw [ihr vars _ hnr]
    rw [decodeEntities_cons_ne ')' _ (by decide)]
    simp only [dchars, List.cons_append, List.append_assoc, List.nil_append]
  | impliesNode l r ihl ihr =>
    intro vars rest hn
    have hnl : ∀ k ∈ varIndices l, ∀ c ∈ (vars.getD k "").toList,
        ¬ c = '&' := fun k hk =>
      hn k (by simp only [varIndices]; exact List.mem_append.mpr (Or.inl hk))
    have hnr : ∀ k ∈ varIndices r, ∀ c ∈ (vars.getD k "").toList,
        ¬ c = '&' := fun k hk =>
      hn k (by simp only [varIndices]; exact List.mem_append.mpr (Or.inr hk))
    have hs : (nodeToString (.impliesNode l r) vars).toList ++ rest
        = '(' :: ((nodeToString l vars).toList
            ++ (' ' :: '&' :: ("rarr;".toList
              ++ (' ' :: ((nodeToString r vars).toList
                ++ (')' :: rest)))))) := by
      show (((("(" ++ nodeToString l vars) ++ " &rarr; ")
          ++ nodeToString r vars) ++ ")").toList ++ rest = _
      rw [string_toList_append, string_toList_append,
        string_toList_append, string_toList_append]
      simp only [List.append_assoc]
      rfl
    rw [hs, decodeEntities_cons_ne '(' _ (by decide)]
    rw [ihl vars _ hnl]
    rw [decodeEntities_cons_ne ' ' _ (by decide)]
    rw [decodeEntities_entity _ _ _ (entityHead_rarr _)]
    rw [decodeEntities_cons_ne ' ' _ (by decide)]
    rw [ihr vars _ hnr]
    rw [decodeEntities_cons_ne ')' _ (by decide)]
    simp only [dchars, List.cons_append, List.append_assoc, List.nil_append]
  | iffNode l r ihl ihr =>
    intro vars rest hn
    have hnl : ∀ k ∈ varIndices l, ∀ c ∈ (vars.getD k "").toList,
        ¬ c = '&' := fun k hk =>
      hn k (by simp only [varIndices]; exact List.mem_append.mpr (Or.inl hk))
    have hnr : ∀ k ∈ varIndices r, ∀ c ∈ (vars.getD k "").toList,
        ¬ c = '&' := fun k hk =>
      hn k (by simp only [varIndices]; exact List.mem_append.mpr (Or.inr hk))
    have hs : (nodeToString (.iffNode l r) vars).toList ++ rest
        = '(' :: ((nodeToString l vars).toList
            ++ (' ' :: '&' :: ("harr;".toList
              ++ (' ' :: ((nodeToString r vars).toList
                ++ (')' :: rest)))))) := by
      show (((("(" ++ nodeToString l vars) ++ " &harr; ")
          ++ nodeToString r vars) ++ ")").toList ++ rest = _
      rw [string_toList_append, string_toList_append,
        string_toList_append, string_toList_append]
      simp only [List.append_assoc]
      rfl
    rw [hs, decodeEntities_cons_ne '(' _ (by decide)]
    rw [ihl vars _ hnl]
    rw [decodeEntities_cons_ne ' ' _ (by decide)]
    rw [decodeEntities_entity _ _ _ (entityHead_harr _)]
    rw [decodeEntities_cons_ne ' ' _ (by decide)]
    rw [ihr vars _ hnr]
    rw [decodeEntities_cons_ne ')' _ (by decide)]
    simp only [dchars, List.cons_append, List.append_assoc, List.nil_append]
  | variableNode k =>
    intro vars rest hn
    have hu : ∀ c ∈ (vars.getD k "").toList, ¬ c = '&' :=
      hn k (by simp [varIndices])
    show decodeEntities ((vars.getD k "").toList ++ rest) = _
    rw [decodeEntities_append_pass _ _ hu]
    rfl

/-- Decoding the full rendered form of an AST yields its glyph
rendering. -/
theorem decodeEntities_nodeToString (n : Node) (vars : List String)
    (hn : ∀ k ∈ varIndices n, ∀ c ∈ (vars.getD k "").toList, ¬ c = '&') :
    decodeEntities ((nodeToString n vars).toList) = dchars n vars := by
  have h := decodeEntities_render n vars [] hn
  rw [List.append_nil, decodeEntities_nil, List.append_nil] at h
  exact h

/-- The head of a take of a cons is the cons head. -/
theorem take_cons_headD {α : Type} (n : Nat) (a d : α) (l w : List α)
    (h : (a :: l).take (n + 1) = w) : w.headD d = a := by
  rw [← h, List.take_succ_cons]
  rfl

/-- tryReadOperator reads each rendered glyph as a one-character
operator. -/
theorem tryReadOperator_glyph (g : Char) (rest : List Char)
    (hg : g ∈ glyphChars) : tryReadOperator (g :: rest) = some [g] := by
  unfold tryReadOperator
  rw [if_neg (by
    rintro ⟨-, h | h⟩ <;>
      (have hh := take_cons_headD 14 g 'x' rest _ h
       rw [← hh] at hg
       exact absurd hg (by decide)))]
  rw [if_neg (by
    rintro ⟨-, h | h⟩ <;>
      (have hh := take_cons_headD 10 g 'x' rest _ h
       rw [← hh] at hg
       exact absurd hg (by decide)))]
  rw [if_neg (by
    rintro ⟨-, h⟩
    have hh := take_cons_headD 6 g 'x' rest _ h
    rw [← hh] at hg
    exact absurd hg (by decide))]
  rw [if_neg (by
    rintro ⟨-, h⟩
    have hh := take_cons_headD 5 g 'x' rest _ h
    rw [← hh] at hg
    exact absurd hg (by decide))]
  rw [if_neg (by
    rintro ⟨-, h | h | h | h⟩ <;>
      (have hh := take_cons_headD 4 g 'x' rest _ h
       rw [← hh] at hg
       exact absurd hg (by decide)))]
  rw [if_neg (by
    rintro ⟨-, h | h | h | h | h | h⟩ <;>
      (have hh := take_cons_headD 3 g 'x' rest _ h
       rw [← hh] at hg
       exact absurd hg (by decide)))]
  rw [if_neg (by
    rintro ⟨-, h | h | h | h | h | h⟩ <;>
      (have hh := take_cons_headD 2 g 'x' rest _ h
       rw [← hh] at hg
       exact absurd hg (by decide)))]
  rw [if_neg (by
    rintro ⟨-, h | h | h | h | h | h | h⟩ <;>
      (have hh := take_cons_headD 1 g 'x' rest _ h
       rw [← hh] at hg
       exact absurd hg (by decide)))]
  dsimp only []
  rw [if_pos (by fin_cases hg <;> rfl)]

/-- No rendered glyph starts a variable name. -/
theorem tryReadVariableName_glyph (g : Char) (rest : List Char)
    (hg : g ∈ glyphChars) : tryReadVariableName (g :: rest) = none := by
  unfold tryReadVariableName
  dsimp only []
  rw [if_neg (by fin_cases hg <;> decide)]

/-- No rendered glyph is the scanner end marker. -/
theorem glyph_ne_dollar (g : Char) (hg : g ∈ glyphChars) :
    ¬ g = kScannerEOF := by
  fin_cases hg <;> decide

/-- A variable start character is not the scanner end marker. -/
theorem varstart_ne_dollar {c : Char} (h : isVariableStartChar c = true) :
    ¬ c = kScannerEOF := by
  intro hc
  rw [hc] at h
  exact absurd h (by decide)

/-- takeWhile over a block of matching characters followed by a
non-matching boundary returns exactly the block. -/
theorem takeWhile_append_block (p : Char → Bool) : ∀ (u v : List Char),
    (∀ c ∈ u, p c = true) → (∀ c ∈ v.take 1, p c = false) →
    (u ++ v).takeWhile p = u := by
  intro u
  induction u with
  | nil =>
    intro v _ hv
    cases v with
    | nil => rfl
    | cons x v2 =>
      rw [List.nil_append]
      exact List.takeWhile_cons_of_neg (by
        rw [hv x (by rw [List.take_succ_cons]; exact List.mem_cons_self x _)]
        exact Bool.false_ne_true)
  | cons a u2 ih =>
    intro v hu hv
    rw [List.cons_append,
      List.takeWhile_cons_of_pos (hu a (List.mem_cons_self a u2)),
      ih v (fun c hc => hu c (List.mem_cons_of_mem a hc)) hv]

/-- tryReadVariableName reads a well-formed name up to a non-name
boundary character. -/
theorem tryReadVariableName_good (name rest : List Char)
    (hgood : goodName name = true)
    (hb : ¬ isVariableChar (rest.headD ' ') = true) :
    tryReadVariableName (name ++ rest) = some name := by
  cases name with
  | nil => exact absurd hgood (by decide)
  | cons c n2 =>
    simp only [goodName, Bool.and_eq_true, Bool.not_eq_true',
      List.all_eq_true] at hgood
    obtain ⟨⟨hstart, hall⟩, hres⟩ := hgood
    have hv1 : ∀ d ∈ rest.take 1, isVariableChar d = false := by
      intro d hd
      cases rest with
      | nil => exact absurd hd (by rw [List.take_nil]; exact List.not_mem_nil d)
      | cons x r2 =>
        rw [List.take_succ_cons, List.take_zero] at hd
        have hdx : d = x := List.mem_singleton.mp hd
        have hx : ¬ isVariableChar x = true := hb
        rw [hdx]
        cases hxx : isVariableChar x with
        | false => rfl
        | true => exact absurd hxx hx
    have htw : ((c :: n2) ++ rest).takeWhile isVariableChar = c :: n2 :=
      takeWhile_append_block isVariableChar (c :: n2) rest hall hv1
    rw [List.cons_append] at htw
    rw [List.cons_append]
    unfold tryReadVariableName
    dsimp only []
    rw [if_pos hstart, htw, if_neg (by rw [hres]; exact Bool.false_ne_true)]

/-- The scanner loop ignores extra fuel. -/
theorem preliminaryScanAux_irrel : ∀ (b : Nat) (s : List Char) (i : Nat)
    (vs : List String) (f1 f2 : Nat), s.length < f1 → s.length < f2 →
    s.length ≤ b →
    preliminaryScanAux f1 s i vs = preliminaryScanAux f2 s i vs := by
  intro b
  induction b with
  | zero =>
    intro s i vs f1 f2 h1 h2 hb
    have hs : s = [] := List.length_eq_zero.mp (Nat.le_zero.mp hb)
    subst hs
    cases f1 with
    | zero => omega
    | succ g1 =>
      cases f2 with
      | zero => omega
      | succ g2 => rfl
  | succ b ih =>
    intro s i vs f1 f2 h1 h2 hb
    cases s with
    | nil =>
      cases f1 with
      | zero => omega
      | succ g1 =>
        cases f2 with
        | zero => omega
        | succ g2 => rfl
    | cons c rest =>
      rw [List.length_cons] at h1 h2 hb
      cases f1 with
      | zero => omega
      | succ g1 =>
        cases f2 with
        | zero => omega
        | succ g2 =>
          by_cases hc : c = kScannerEOF
          · have e1 : preliminaryScanAux (g1 + 1) (c :: rest) i vs
                = .ok ([makeIdentityToken [c] i], vs) := by
              simp only [preliminaryScanAux]
              rw [if_pos hc]
            have e2 : preliminaryScanAux (g2 + 1) (c :: rest) i vs
                = .ok ([makeIdentityToken [c] i], vs) := by
              simp only [preliminaryScanAux]
              rw [if_pos hc]
            rw [e1, e2]
          · rw [preliminaryScanAux_cons g1 c rest i vs hc,
              preliminaryScanAux_cons g2 c rest i vs hc]
            cases hv : tryReadVariableName (c :: rest) with
            | some varName =>
              dsimp only []
              obtain ⟨-, -, hv1, hv2⟩ := tryReadVariableName_sound _ _ hv
              rw [List.length_cons] at hv2
              rw [ih ((c :: rest).drop varName.length) (i + varName.length)
                (insertVariable (String.mk varName) vs) g1 g2
                (by rw [List.length_drop, List.length_cons]; omega)
                (by rw [List.length_drop, List.length_cons]; omega)
                (by rw [List.length_drop, List.length_cons]; omega)]
            | none =>
              dsimp only []
              cases ho : tryReadOperator (c :: rest) with
              | some token =>
                dsimp only []
                obtain ⟨-, -, ho1, ho2⟩ := tryReadOperator_mem _ token ho
                rw [List.length_cons] at ho2
                rw [ih ((c :: rest).drop token.length) (i + token.length)
                  vs g1 g2
                  (by rw [List.length_drop, List.length_cons]; omega)
                  (by rw [List.length_drop, List.length_cons]; omega)
                  (by rw [List.length_drop, List.length_cons]; omega)]
              | none =>
                dsimp only []
                by_cases hw : isWhitespace c
                · rw [if_pos hw, if_pos hw]
                  exact ih rest (i + 1) vs g1 g2 (by omega) (by omega)
                    (by omega)
                · rw [if_neg hw, if_neg hw]

/-- Scanning from the end marker alone returns only its token. -/
theorem scanFrom_dollar (i : Nat) (vs : List String) :
    scanFrom [kScannerEOF] i vs = .ok ([makeIdentityToken [kScannerEOF] i], vs) := by
  show preliminaryScanAux (0 + 1 + 1) [kScannerEOF] i vs = _
  simp only [preliminaryScanAux]
  rw [if_pos trivial]

/-- Scanning skips a leading whitespace character. -/
theorem scanFrom_ws (c : Char) (rest : List Char) (i : Nat)
    (vs : List String) (hw : isWhitespace c = true) :
    scanFrom (c :: rest) i vs = scanFrom rest (i + 1) vs := by
  show preliminaryScanAux (rest.length + 1 + 1) (c :: rest) i vs = _
  rw [preliminaryScanAux_cons _ _ _ _ _ (ws_ne_dollar hw),
    tryReadVariableName_ws_none hw]
  dsimp only []
  rw [tryReadOperator_ws_none hw]
  dsimp only []
  rw [if_pos hw]
  rfl

/-- Scanning a leading glyph produces its operator token and
continues. -/
theorem scanFrom_glyph (g : Char) (rest : List Char) (i : Nat)
    (vs : List String) (hg : g ∈ glyphChars) :
    scanFrom (g :: rest) i vs
      = psPrepend [makeIdentityToken [g] i] (scanFrom rest (i + 1) vs) := by
  show preliminaryScanAux (rest.length + 1 + 1) (g :: rest) i vs = _
  rw [preliminaryScanAux_cons _ _ _ _ _ (glyph_ne_dollar g hg),
    tryReadVariableName_glyph g rest hg]
  dsimp only []
  rw [tryReadOperator_glyph g rest hg]
  dsimp only []
  have hdrop : (g :: rest).drop ([g] : List Char).length = rest := rfl
  have hlen1 : ([g] : List Char).length = 1 := rfl
  rw [hdrop, hlen1]
  have hsf : preliminaryScanAux (rest.length + 1) rest (i + 1) vs
      = scanFrom rest (i + 1) vs := rfl
  rw [hsf]
  cases hres : scanFrom rest (i + 1) vs with
  | ok pair =>
    obtain ⟨toks, vs2⟩ := pair
    rfl
  | error e => rfl

/-- Scanning a leading well-formed variable name produces its variable
token, records the name, and continues past the name. -/
theorem scanFrom_var (name rest : List Char) (i : Nat) (vs : List String)
    (hgood : goodName name = true)
    (hb : ¬ isVariableChar (rest.headD ' ') = true) :
    scanFrom (name ++ rest) i vs
      = psPrepend [makeVariableToken name i (i + name.length)]
          (scanFrom rest (i + name.length)
            (insertVariable (String.mk name) vs)) := by
  cases name with
  | nil => exact absurd hgood (by decide)
  | cons c n2 =>
    have hstart : isVariableStartChar c = true := by
      simp only [goodName, Bool.and_eq_true] at hgood
      exact hgood.1.1
    have htv := tryReadVariableName_good (c :: n2) rest hgood hb
    rw [List.cons_append] at htv
    rw [List.cons_append]
    show preliminaryScanAux ((n2 ++ rest).length + 1 + 1)
      (c :: (n2 ++ rest)) i vs = _
    rw [preliminaryScanAux_cons _ _ _ _ _ (varstart_ne_dollar hstart), htv]
    dsimp only []
    have hdrop : (c :: (n2 ++ rest)).drop (c :: n2).length = rest := by
      show ((c :: n2) ++ rest).drop (c :: n2).length = rest
      exact List.drop_left _ _
    rw [hdrop]
    have hirr := preliminaryScanAux_irrel rest.length rest
      (i + (c :: n2).length) (insertVariable (String.mk (c :: n2)) vs)
      ((n2 ++ rest).length + 1) (rest.length + 1)
      (by rw [List.length_append]; omega) (by omega) (Nat.le_refl _)
    rw [hirr]
    have hsf : preliminaryScanAux (rest.length + 1) rest
        (i + (c :: n2).length) (insertVariable (String.mk (c :: n2)) vs)
        = scanFrom rest (i + (c :: n2).length)
            (insertVariable (String.mk (c :: n2)) vs) := rfl
    rw [hsf]
    cases hres : scanFrom rest (i + (c :: n2).length)
        (insertVariable (String.mk (c :: n2)) vs) with
    | ok pair =>
      obtain ⟨toks, vs2⟩ := pair
      rfl
    | error e => rfl

/-- Prepending token blocks composes by appending the blocks. -/
theorem psPrepend_psPrepend (a b : List PToken)
    (r : Except ErrObj (List PToken × List String)) :
    psPrepend a (psPrepend b r) = psPrepend (a ++ b) r := by
  cases r with
  | ok pair =>
    obtain ⟨toks, vs⟩ := pair
    simp only [psPrepend, List.append_assoc]
  | error e => rfl

/-- pushVars over an appended index list processes the blocks in
order. -/
theorem pushVars_append (vars : List String) : ∀ (a b : List Nat)
    (varSet : List String),
    pushVars vars (a ++ b) varSet = pushVars vars b (pushVars vars a varSet) := by
  intro a
  induction a with
  | nil => intro b varSet; rfl
  | cons k ks ih =>
    intro b varSet
    rw [List.cons_append]
    show pushVars vars (ks ++ b) (insertVariable (vars.getD k "") varSet) = _
    rw [ih]
    rfl

/-- Scanning the glyph rendering of an AST followed by remaining input
produces tokens whose type and recorded name follow the structure of
the AST, records exactly the referenced variable names, and continues
at the remaining input. -/
theorem dchars_scan : ∀ (n : Node) (vars : List String) (rest : List Char)
    (i : Nat) (varSet : List String),
    (∀ k ∈ varIndices n, goodName (vars.getD k "").toList = true) →
    ¬ isVariableChar (rest.headD ' ') = true →
    ∃ ptoks, ptoks.map (fun t => (t.type, t.name)) = linSig n vars ∧
      scanFrom (dchars n vars ++ rest) i varSet
        = psPrepend ptoks (scanFrom rest (i + (dchars n vars).length)
            (pushVars vars (varIndices n) varSet)) := by
  intro n
  induction n with
  | trueNode =>
    intro vars rest i varSet _ _
    refine ⟨[makeIdentityToken ['⊤'] i], rfl, ?_⟩
    have hx : dchars .trueNode vars ++ rest = '⊤' :: rest := rfl
    rw [hx]
    exact scanFrom_glyph '⊤' rest i varSet (by decide)
  | falseNode =>
    intro vars rest i varSet _ _
    refine ⟨[makeIdentityToken ['⊥'] i], rfl, ?_⟩
    have hx : dchars .falseNode vars ++ rest = '⊥' :: rest := rfl
    rw [hx]
    exact scanFrom_glyph '⊥' rest i varSet (by decide)
  | negateNode u ih =>
    intro vars rest i varSet h1 h2
    have hx : dchars (.negateNode u) vars ++ rest
        = '¬' :: (dchars u vars ++ rest) := by
      show ('¬' :: dchars u vars) ++ rest = _
      rw [List.cons_append]
    rw [hx, scanFrom_glyph '¬' _ i varSet (by decide)]
    obtain ⟨pu, hsig, hscan⟩ := ih vars rest (i + 1) varSet
      (fun k hk => h1 k hk) h2
    rw [hscan, psPrepend_psPrepend]
    have hpos : i + 1 + (dchars u vars).length
        = i + (dchars (.negateNode u) vars).length := by
      simp only [dchars, List.length_cons]
      omega
    rw [hpos]
    refine ⟨makeIdentityToken ['¬'] i :: pu, ?_, rfl⟩
    simp only [List.map_cons]
    rw [hsig]
    rfl
  | andNode l r ihl ihr =>
    intro vars rest i varSet h1 h2
    have h1l : ∀ k ∈ varIndices l, goodName (vars.getD k "").toList = true :=
      fun k hk => h1 k (by
        simp only [varIndices]; exact List.mem_append.mpr (Or.inl hk))
    have h1r : ∀ k ∈ varIndices r, goodName (vars.getD k "").toList = true :=
      fun k hk => h1 k (by
        simp only [varIndices]; exact List.mem_append.mpr (Or.inr hk))
    have hsplit : dchars (.andNode l r) vars ++ rest
        = '(' :: (dchars l vars
            ++ (' ' :: ('∧' :: (' ' :: (dchars r vars
              ++ (')' :: rest)))))) := by
      show ('(' :: (dchars l vars
          ++ (' ' :: '∧' :: ' ' :: (dchars r vars ++ [')'])))) ++ rest = _
      simp only [List.cons_append, List.append_assoc, List.singleton_append,
        List.nil_append]
    rw [hsplit, scanFrom_glyph '(' _ i varSet (by decide)]
    obtain ⟨pl, hsigl, hscanl⟩ := ihl vars
      (' ' :: ('∧' :: (' ' :: (dchars r vars ++ (')' :: rest)))))
      (i + 1) varSet h1l (by exact (by decide : ¬ isVariableChar ' ' = true))
    rw [hscanl, scanFrom_ws ' ' _ _ _ (by decide),
      scanFrom_glyph '∧' _ _ _ (by decide),
      scanFrom_ws ' ' _ _ _ (by decide)]
    obtain ⟨pr, hsigr, hscanr⟩ := ihr vars (')' :: rest)
      (i + 1 + (dchars l vars).length + 1 + 1 + 1)
      (pushVars vars (varIndices l) varSet) h1r
      (by exact (by decide : ¬ isVariableChar ')' = true))
    rw [hscanr, scanFrom_glyph ')' _ _ _ (by decide),
      psPrepend_psPrepend, psPrepend_psPrepend, psPrepend_psPrepend,
      psPrepend_psPrepend]
    simp only [List.append_assoc]
    have hpos : i + 1 + (dchars l vars).length + 1 + 1 + 1
        + (dchars r vars).length + 1
        = i + (dchars (.andNode l r) vars).length := by
      simp only [dchars, List.length_cons, List.length_append,
        List.length_nil]
      omega
    rw [hpos]
    have hvs : pushVars vars (varIndices (.andNode l r)) varSet
        = pushVars vars (varIndices r)
            (pushVars vars (varIndices l) varSet) := by
      show pushVars vars (varIndices l ++ varIndices r) varSet = _
      rw [pushVars_append]
    rw [hvs]
    refine ⟨makeIdentityToken ['('] i :: (pl
      ++ (makeIdentityToken ['∧'] (i + 1 + (dchars l vars).length + 1)
        :: (pr ++ [makeIdentityToken [')']
            (i + 1 + (dchars l vars).length + 1 + 1 + 1
              + (dchars r vars).length)]))), ?_, rfl⟩
    simp only [List.map_cons, List.map_append, List.map_nil]
    rw [hsigl, hsigr]
    rfl
  | orNode l r ihl ihr =>
    intro vars rest i varSet h1 h2
    have h1l : ∀ k ∈ varIndices l, goodName (vars.getD k "").toList = true :=
      fun k hk => h1 k (by
        simp only [varIndices]; exact List.mem_append.mpr (Or.inl hk))
    have h1r : ∀ k ∈ varIndices r, goodName (vars.getD k "").toList = true :=
      fun k hk => h1 k (by
        simp only [varIndices]; exact List.mem_append.mpr (Or.inr hk))
    have hsplit : dchars (.orNode l r) vars ++ rest
        = '(' :: (dchars l vars
            ++ (' ' :: ('∨' :: (' ' :: (dchars r vars
              ++ (')' :: rest)))))) := by
      show ('(' :: (dchars l vars
          ++ (' ' :: '∨' :: ' ' :: (dchars r vars ++ [')'])))) ++ rest = _
      simp only [List.cons_append, List.append_assoc, List.singleton_append,
        List.nil_append]
    rw [hsplit, scanFrom_glyph '(' _ i varSet (by decide)]
    obtain ⟨pl, hsigl, hscanl⟩ := ihl vars
      (' ' :: ('∨' :: (' ' :: (dchars r vars ++ (')' :: rest)))))
      (i + 1) varSet h1l (by exact (by decide : ¬ isVariableChar ' ' = true))
    rw [hscanl, scanFrom_ws ' ' _ _ _ (by decide),
      scanFrom_glyph '∨' _ _ _ (by decide),
      scanFrom_ws ' ' _ _ _ (by decide)]
    obtain ⟨pr, hsigr, hscanr⟩ := ihr vars (')' :: rest)
      (i + 1 + (dchars l vars).length + 1 + 1 + 1)
      (pushVars vars (varIndices l) varSet) h1r
      (by exact (by decide : ¬ isVariableChar ')' = true))
    rw [hscanr, scanFrom_glyph ')' _ _ _ (by decide),
      psPrepend_psPrepend, psPrepend_psPrepend, psPrepend_psPrepend,
      psPrepend_psPrepend]
    simp only [List.append_assoc]
    have hpos : i + 1 + (dchars l vars).length + 1 + 1 + 1
        + (dchars r vars).length + 1
        = i + (dchars (.orNode l r) vars).length := by
      simp only [dchars, List.length_cons, List.length_append,
        List.length_nil]
      omega
    rw [hpos]
    have hvs : pushVars vars (varIndices (.orNode l r)) varSet
        = pushVars vars (varIndices r)
            (pushVars vars (varIndices l) varSet) := by
      show pushVars vars (varIndices l ++ varIndices r) varSet = _
      rw [pushVars_append]
    rw [hvs]
    refine ⟨makeIdentityToken ['('] i :: (pl
      ++ (makeIdentityToken ['∨'] (i + 1 + (dchars l vars).length + 1)
        :: (pr ++ [makeIdentityToken [')']
            (i + 1 + (dchars l vars).length + 1 + 1 + 1
              + (dchars r vars).length)]))), ?_, rfl⟩
    simp only [List.map_cons, List.map_append, List.map_nil]
    rw [hsigl, hsigr]
    rfl
  | impliesNode l r ihl ihr =>
    intro vars rest i varSet h1 h2
    have h1l : ∀ k ∈ varIndices l, goodName (vars.getD k "").toList = true :=
      fun k hk => h1 k (by
        simp only [varIndices]; exact List.mem_append.mpr (Or.inl hk))
    have h1r : ∀ k ∈ varIndices r, goodName (vars.getD k "").toList = true :=
      fun k hk => h1 k (by
        simp only [varIndices]; exact List.mem_append.mpr (Or.inr hk))
    have hsplit : dchars (.impliesNode l r) vars ++ rest
        = '(' :: (dchars l vars
            ++ (' ' :: ('→' :: (' ' :: (dchars r vars
              ++ (')' :: rest)))))) := by
      show ('(' :: (dchars l vars
          ++ (' ' :: '→' :: ' ' :: (dchars r vars ++ [')'])))) ++ rest = _
      simp only [List.cons_append, List.append_assoc, List.singleton_append,
        List.nil_append]
    rw [hsplit, scanFrom_glyph '(' _ i varSet (by decide)]
    obtain ⟨pl, hsigl, hscanl⟩ := ihl vars
      (' ' :: ('→' :: (' ' :: (dchars r vars ++ (')' :: rest)))))
      (i + 1) varSet h1l (by exact (by decide : ¬ isVariableChar ' ' = true))
    rw [hscanl, scanFrom_ws ' ' _ _ _ (by decide),
      scanFrom_glyph '→' _ _ _ (by decide),
      scanFrom_ws ' ' _ _ _ (by decide)]
    obtain ⟨pr, hsigr, hscanr⟩ := ihr vars (')' :: rest)
      (i + 1 + (dchars l vars).length + 1 + 1 + 1)
      (pushVars vars (varIndices l) varSet) h1r
      (by exact (by decide : ¬ isVariableChar ')' = true))
    rw [hscanr, scanFrom_glyph ')' _ _ _ (by decide),
      psPrepend_psPrepend, psPrepend_psPrepend, psPrepend_psPrepend,
      psPrepend_psPrepend]
    simp only [List.append_assoc]
    have hpos : i + 1 + (dchars l vars).length + 1 + 1 + 1
        + (dchars r vars).length + 1
        = i + (dchars (.impliesNode l r) vars).length := by
      simp only [dchars, List.length_cons, List.length_append,
        List.length_nil]
      omega
    rw [hpos]
    have hvs : pushVars vars (varIndices (.impliesNode l r)) varSet
        = pushVars vars (varIndices r)
            (pushVars vars (varIndices l) varSet) := by
      show pushVars vars (varIndices l ++ varIndices r) varSet = _
      rw [pushVars_append]
    rw [hvs]
    refine ⟨makeIdentityToken ['('] i :: (pl
      ++ (makeIdentityToken ['→'] (i + 1 + (dchars l vars).length + 1)
        :: (pr ++ [makeIdentityToken [')']
            (i + 1 + (dchars l vars).length + 1 + 1 + 1
              + (dchars r vars).length)]))), ?_, rfl⟩
    simp only [List.map_cons, List.map_append, List.map_nil]
    rw [hsigl, hsigr]
    rfl
  | iffNode l r ihl ihr =>
    intro vars rest i varSet h1 h2
    have h1l : ∀ k ∈ varIndices l, goodName (vars.getD k "").toList = true :=
      fun k hk => h1 k (by
        simp only [varIndices]; exact List.mem_append.mpr (Or.inl hk))
    have h1r : ∀ k ∈ varIndices r, goodName (vars.getD k "").toList = true :=
      fun k hk => h1 k (by
        simp only [varIndices]; exact List.mem_append.mpr (Or.inr hk))
    have hsplit : dchars (.iffNode l r) vars ++ rest
        = '(' :: (dchars l vars
            ++ (' ' :: ('↔' :: (' ' :: (dchars r vars
              ++ (')' :: rest)))))) := by
      show ('(' :: (dchars l vars
          ++ (' ' :: '↔' :: ' ' :: (dchars r vars ++ [')'])))) ++ rest = _
      simp only [List.cons_append, List.append_assoc, List.singleton_append,
        List.nil_append]
    rw [hsplit, scanFrom_glyph '(' _ i varSet (by decide)]
    obtain ⟨pl, hsigl, hscanl⟩ := ihl vars
      (' ' :: ('↔' :: (' ' :: (dchars r vars ++ (')' :: rest)))))
      (i + 1) varSet h1l (by exact (by decide : ¬ isVariableChar ' ' = true))
    rw [hscanl, scanFrom_ws ' ' _ _ _ (by decide),
      scanFrom_glyph '↔' _ _ _ (by decide),
      scanFrom_ws ' ' _ _ _ (by decide)]
    obtain ⟨pr, hsigr, hscanr⟩ := ihr vars (')' :: rest)
      (i + 1 + (dchars l vars).length + 1 + 1 + 1)
      (pushVars vars (varIndices l) varSet) h1r
      (by exact (by decide : ¬ isVariableChar ')' = true))
    rw [hscanr, scanFrom_glyph ')' _ _ _ (by decide),
      psPrepend_psPrepend, psPrepend_psPrepend, psPrepend_psPrepend,
      psPrepend_psPrepend]
    simp only [List.append_assoc]
    have hpos : i + 1 + (dchars l vars).length + 1 + 1 + 1
        + (dchars r vars).length + 1
        = i + (dchars (.iffNode l r) vars).length := by
      simp only [dchars, List.length_cons, List.length_append,
        List.length_nil]
      omega
    rw [hpos]
    have hvs : pushVars vars (varIndices (.iffNode l r)) varSet
        = pushVars vars (varIndices r)
            (pushVars vars (varIndices l) varSet) := by
      show pushVars vars (varIndices l ++ varIndices r) varSet = _
      rw [pushVars_append]
    rw [hvs]
    refine ⟨makeIdentityToken ['('] i :: (pl
      ++ (makeIdentityToken ['↔'] (i + 1 + (dchars l vars).length + 1)
        :: (pr ++ [makeIdentityToken [')']
            (i + 1 + (dchars l vars).length + 1 + 1 + 1
              + (dchars r vars).length)]))), ?_, rfl⟩
    simp only [List.map_cons, List.map_append, List.map_nil]
    rw [hsigl, hsigr]
    rfl
  | variableNode k =>
    intro vars rest i varSet h1 h2
    have hgood : goodName (vars.getD k "").toList = true :=
      h1 k (by simp [varIndices])
    refine ⟨[makeVariableToken (vars.getD k "").toList i
      (i + ((vars.getD k "").toList).length)], ?_, ?_⟩
    · show [(("variable" : String), String.mk (vars.getD k "").toList)]
        = [("variable", vars.getD k "")]
      rw [string_mk_toList]
    · exact scanFrom_var (vars.getD k "").toList rest i varSet hgood h2

/-- Membership in the built-up variable set. -/
theorem pushVars_mem (vars : List String) : ∀ (ks : List Nat)
    (varSet : List String) (x : String),
    x ∈ pushVars vars ks varSet
      ↔ x ∈ varSet ∨ ∃ k ∈ ks, x = vars.getD k "" := by
  intro ks
  induction ks with
  | nil =>
    intro varSet x
    simp [pushVars]
  | cons k ks ih =>
    intro varSet x
    show x ∈ pushVars vars ks (insertVariable (vars.getD k "") varSet) ↔ _
    rw [ih (insertVariable (vars.getD k "") varSet) x,
      insertVariable_mem]
    constructor
    · rintro ((h | h) | ⟨j, hj, hx⟩)
      · exact Or.inr ⟨k, List.mem_cons_self k ks, h⟩
      · exact Or.inl h
      · exact Or.inr ⟨j, List.mem_cons_of_mem k hj, hx⟩
    · rintro (h | ⟨j, hj, hx⟩)
      · exact Or.inl (Or.inr h)
      · rcases List.mem_cons.mp hj with rfl | hj2
        · exact Or.inl (Or.inl hx)
        · exact Or.inr ⟨j, hj2, hx⟩

/-- The built-up variable set stays duplicate-free. -/
theorem pushVars_nodup (vars : List String) : ∀ (ks : List Nat)
    (varSet : List String), varSet.Nodup → (pushVars vars ks varSet).Nodup := by
  intro ks
  induction ks with
  | nil => intro varSet h; exact h
  | cons k ks ih =>
    intro varSet h
    exact ih (insertVariable (vars.getD k "") varSet)
      (insertVariable_nodup (vars.getD k "") varSet h)

/-- Every character of the glyph rendering is accepted by the
integrity check. -/
theorem dchars_ok : ∀ (n : Node) (vars : List String),
    (∀ k ∈ varIndices n, goodName (vars.getD k "").toList = true) →
    ∀ c ∈ dchars n vars, okayChar c = true := by
  intro n
  induction n with
  | trueNode =>
    intro vars _ c hc
    rw [List.mem_singleton.mp hc]
    decide
  | falseNode =>
    intro vars _ c hc
    rw [List.mem_singleton.mp hc]
    decide
  | negateNode u ih =>
    intro vars h c hc
    rcases List.mem_cons.mp hc with rfl | hc2
    · decide
    · exact ih vars (fun k hk => h k hk) c hc2
  | andNode l r ihl ihr =>
    intro vars h c hc
    have hl := fun k hk => h k (by
      simp only [varIndices]; exact List.mem_append.mpr (Or.inl hk))
    have hr := fun k hk => h k (by
      simp only [varIndices]; exact List.mem_append.mpr (Or.inr hk))
    rcases List.mem_cons.mp hc with rfl | hc2
    · decide
    · rcases List.mem_append.mp hc2 with hcl | hcm
      · exact ihl vars hl c hcl
      · rcases List.mem_cons.mp hcm with rfl | hcm2
        · decide
        · rcases List.mem_cons.mp hcm2 with rfl | hcm3
          · decide
          · rcases List.mem_cons.mp hcm3 with rfl | hcm4
            · decide
            · rcases List.mem_append.mp hcm4 with hcr | hcp
              · exact ihr vars hr c hcr
              · rw [List.mem_singleton.mp hcp]
                decide
  | orNode l r ihl ihr =>
    intro vars h c hc
    have hl := fun k hk => h k (by
      simp only [varIndices]; exact List.mem_append.mpr (Or.inl hk))
    have hr := fun k hk => h k (by
      simp only [varIndices]; exact List.mem_append.mpr (Or.inr hk))
    rcases List.mem_cons.mp hc with rfl | hc2
    · decide
    · rcases List.mem_append.mp hc2 with hcl | hcm
      · exact ihl vars hl c hcl
      · rcases List.mem_cons.mp hcm with rfl | hcm2
        · decide
        · rcases List.mem_cons.mp hcm2 with rfl | hcm3
          · decide
          · rcases List.mem_cons.mp hcm3 with rfl | hcm4
            · decide
            · rcases List.mem_append.mp hcm4 with hcr | hcp
              · exact ihr vars hr c hcr
              · rw [List.mem_singleton.mp hcp]
                decide
  | impliesNode l r ihl ihr =>
    intro vars h c hc
    have hl := fun k hk => h k (by
      simp only [varIndices]; exact List.mem_append.mpr (Or.inl hk))
    have hr := fun k hk => h k (by
      simp only [varIndices]; exact List.mem_append.mpr (Or.inr hk))
    rcases List.mem_cons.mp hc with rfl | hc2
    · decide
    · rcases List.mem_append.mp hc2 with hcl | hcm
      · exact ihl vars hl c hcl
      · rcases List.mem_cons.mp hcm with rfl | hcm2
        · decide
        · rcases List.mem_cons.mp hcm2 with rfl | hcm3
          · decide
          · rcases List.mem_cons.mp hcm3 with rfl | hcm4
            · decide
            · rcases List.mem_append.mp hcm4 with hcr | hcp
              · exact ihr vars hr c hcr
              · rw [List.mem_singleton.mp hcp]
                decide
  | iffNode l r ihl ihr =>
    intro vars h c hc
    have hl := fun k hk => h k (by
      simp only [varIndices]; exact List.mem_append.mpr (Or.inl hk))
    have hr := fun k hk => h k (by
      simp only [varIndices]; exact List.mem_append.mpr (Or.inr hk))
    rcases List.mem_cons.mp hc with rfl | hc2
    · decide
    · rcases List.mem_append.mp hc2 with hcl | hcm
      · exact ihl vars hl c hcl
      · rcases List.mem_cons.mp hcm with rfl | hcm2
        · decide
        · rcases List.mem_cons.mp hcm2 with rfl | hcm3
          · decide
          · rcases List.mem_cons.mp hcm3 with rfl | hcm4
            · decide
            · rcases List.mem_append.mp hcm4 with hcr | hcp
              · exact ihr vars hr c hcr
              · rw [List.mem_singleton.mp hcp]
                decide
  | variableNode k =>
    intro vars h c hc
    have hg := h k (by simp [varIndices])
    exact okayChar_of_varChar (goodName_all_varChar hg c hc)

/-- The preliminary scan of a glyph rendering succeeds with the
structured token list and the referenced variable names. -/
theorem dchars_scan_ok (n : Node) (vars : List String)
    (hgood : ∀ k ∈ varIndices n, goodName (vars.getD k "").toList = true) :
    ∃ ptoks,
      ptoks.map (fun t => (t.type, t.name)) = linSig n vars ∧
      preliminaryScan (dchars n vars)
        = .ok (ptoks ++ [⟨"$", "", (dchars n vars).length,
            (dchars n vars).length + 1⟩], pushVars vars (varIndices n) []) := by
  obtain ⟨ptoks, hsig, hscan⟩ := dchars_scan n vars [kScannerEOF] 0 [] hgood
    (by exact (by decide : ¬ isVariableChar '$' = true))
  refine ⟨ptoks, hsig, ?_⟩
  have hps : preliminaryScan (dchars n vars)
      = scanFrom (dchars n vars ++ [kScannerEOF]) 0 [] := by
    show preliminaryScanAux ((dchars n vars).length + 2) _ 0 []
      = preliminaryScanAux ((dchars n vars ++ [kScannerEOF]).length + 1) _ 0 []
    have hl : (dchars n vars ++ [kScannerEOF]).length + 1
        = (dchars n vars).length + 2 := by simp
    rw [hl]
  rw [hps, hscan, scanFrom_dollar]
  have hz : (0 : Nat) + (dchars n vars).length = (dchars n vars).length :=
    Nat.zero_add _
  rw [hz]
  rfl

/-- In a duplicate-free table, indexOf inverts positional lookup. -/
theorem indexOf_getD (vars : List String) (hnd : vars.Nodup) (k : Nat)
    (hk : k < vars.length) : vars.indexOf (vars.getD k "") = k := by
  rw [List.getD_eq_getElem vars "" hk]
  have h := List.indexOf_getElem hnd k hk
  simpa using h

/-- Sorting the variable set collected from the rendering of a parse
result recovers the original sorted table. -/
theorem pushVars_table (vars : List String) (ks : List Nat)
    (hnd : vars.Nodup)
    (hpw : List.Pairwise (fun a b => stringLt a b = true) vars)
    (hb : ∀ k ∈ ks, k < vars.length)
    (hd : ∀ j, j < vars.length → j ∈ ks) :
    List.insertionSort (fun a b => stringLe a b = true)
      (pushVars vars ks []) = vars := by
  haveI : IsTotal String (fun a b => stringLe a b = true) := ⟨stringLe_total⟩
  haveI : IsTrans String (fun a b => stringLe a b = true) :=
    ⟨fun a b c h1 h2 => stringLe_trans h1 h2⟩
  haveI : IsAntisymm String (fun a b => stringLe a b = true) :=
    ⟨fun a b h1 h2 => stringLe_antisymm h1 h2⟩
  have hndp : (pushVars vars ks []).Nodup :=
    pushVars_nodup vars ks [] List.nodup_nil
  have hmem : ∀ x, x ∈ pushVars vars ks [] ↔ x ∈ vars := by
    intro x
    rw [pushVars_mem]
    constructor
    · rintro (h | ⟨k, hk, rfl⟩)
      · exact absurd h (List.not_mem_nil x)
      · have hkl := hb k hk
        rw [List.getD_eq_getElem vars "" hkl]
        exact List.getElem_mem hkl
    · intro hx
      obtain ⟨j, hget⟩ := List.mem_iff_get.mp hx
      refine Or.inr ⟨j.1, hd j.1 j.2, ?_⟩
      rw [List.getD_eq_getElem vars "" j.2, ← hget]
      rfl
  have hperm : List.Perm (List.insertionSort
      (fun a b => stringLe a b = true) (pushVars vars ks [])) vars :=
    (List.perm_insertionSort _ _).trans
      ((List.perm_ext_iff_of_nodup hndp hnd).mpr hmem)
  exact List.eq_of_perm_of_sorted hperm
    (List.sorted_insertionSort _ _)
    (hpw.imp (fun h => stringLe_of_lt h))

/-- Renumbering the structural token signature indexes each variable by
its own table position. -/
theorem linSig_map_idx (vars : List String) : ∀ (n : Node),
    (∀ k ∈ varIndices n, vars.indexOf (vars.getD k "") = k) →
    (linSig n vars).map (fun p =>
        (p.1, if p.1 = "variable" then vars.indexOf p.2 else 0))
      = linIdxSig n := by
  intro n
  induction n with
  | trueNode => intro _; rfl
  | falseNode => intro _; rfl
  | negateNode u ih =>
    intro h
    simp only [linSig, List.map_cons]
    rw [ih (fun k hk => h k hk)]
    rfl
  | andNode l r ihl ihr =>
    intro h
    simp only [linSig, List.map_cons, List.map_append]
    rw [ihl (fun k hk => h k (by
        simp only [varIndices]; exact List.mem_append.mpr (Or.inl hk))),
      ihr (fun k hk => h k (by
        simp only [varIndices]; exact List.mem_append.mpr (Or.inr hk)))]
    rfl
  | orNode l r ihl ihr =>
    intro h
    simp only [linSig, List.map_cons, List.map_append]
    rw [ihl (fun k hk => h k (by
        simp only [varIndices]; exact List.mem_append.mpr (Or.inl hk))),
      ihr (fun k hk => h k (by
        simp only [varIndices]; exact List.mem_append.mpr (Or.inr hk)))]
    rfl
  | impliesNode l r ihl ihr =>
    intro h
    simp only [linSig, List.map_cons, List.map_append]
    rw [ihl (fun k hk => h k (by
        simp only [varIndices]; exact List.mem_append.mpr (Or.inl hk))),
      ihr (fun k hk => h k (by
        simp only [varIndices]; exact List.mem_append.mpr (Or.inr hk)))]
    rfl
  | iffNode l r ihl ihr =>
    intro h
    simp only [linSig, List.map_cons, List.map_append]
    rw [ihl (fun k hk => h k (by
        simp only [varIndices]; exact List.mem_append.mpr (Or.inl hk))),
      ihr (fun k hk => h k (by
        simp only [varIndices]; exact List.mem_append.mpr (Or.inr hk)))]
    rfl
  | variableNode k =>
    intro h
    show [(("variable" : String), if ("variable" : String) = "variable"
        then vars.indexOf (vars.getD k "") else 0)] = [("variable", k)]
    rw [if_pos rfl, h k (by simp [varIndices])]

/-- The full scan of a glyph rendering: structural tokens indexed by
the original table, the end marker, and the original table itself. -/
theorem dchars_scan_numbered (n : Node) (vars : List String)
    (hnd : vars.Nodup)
    (hpw : List.Pairwise (fun a b => stringLt a b = true) vars)
    (hgood : ∀ k ∈ varIndices n, goodName (vars.getD k "").toList = true)
    (hb : ∀ k ∈ varIndices n, k < vars.length)
    (hd : ∀ j, j < vars.length → j ∈ varIndices n) :
    ∃ toks, toks.map (fun t => (t.type, t.index)) = linIdxSig n ∧
      scan (dchars n vars)
        = .ok (toks ++ [⟨"$", 0, (dchars n vars).length,
            (dchars n vars).length + 1⟩], vars) := by
  obtain ⟨ptoks, hsig, hpre⟩ := dchars_scan_ok n vars hgood
  have hci : checkIntegrity (dchars n vars) = none :=
    checkIntegrityAux_none_of_all _ 0 (dchars_ok n vars hgood)
  have hsort : List.insertionSort (fun a b => stringLe a b = true)
      (pushVars vars (varIndices n) []) = vars :=
    pushVars_table vars (varIndices n) hnd hpw hb hd
  have hscan : scan (dchars n vars)
      = .ok (numberVariables (ptoks ++ [(⟨"$", "", (dchars n vars).length,
          (dchars n vars).length + 1⟩ : PToken)],
          pushVars vars (varIndices n) [])) := by
    unfold scan
    rw [hci, hpre]
  have hnv : numberVariables (ptoks ++ [(⟨"$", "", (dchars n vars).length,
        (dchars n vars).length + 1⟩ : PToken)], pushVars vars (varIndices n) [])
      = ((ptoks ++ [(⟨"$", "", (dchars n vars).length,
          (dchars n vars).length + 1⟩ : PToken)]).map (fun t : PToken =>
            if t.type = "variable" then
              (⟨t.type, (List.insertionSort (fun a b => stringLe a b = true)
                  (pushVars vars (varIndices n) [])).indexOf t.name,
                t.start, t.endPos⟩ : Token)
            else ⟨t.type, 0, t.start, t.endPos⟩),
          List.insertionSort (fun a b => stringLe a b = true)
            (pushVars vars (varIndices n) [])) := rfl
  rw [hnv, hsort, List.map_append] at hscan
  have hpe : [(⟨"$", "", (dchars n vars).length,
        (dchars n vars).length + 1⟩ : PToken)].map (fun t : PToken =>
          if t.type = "variable" then
            (⟨t.type, vars.indexOf t.name, t.start, t.endPos⟩ : Token)
          else ⟨t.type, 0, t.start, t.endPos⟩)
      = [⟨"$", 0, (dchars n vars).length, (dchars n vars).length + 1⟩] := by
    simp only [List.map_cons, List.map_nil]
    rw [if_neg (by exact (by decide : ¬ ("$" : String) = "variable"))]
  rw [hpe] at hscan
  refine ⟨ptoks.map (fun t : PToken =>
    if t.type = "variable" then
      (⟨t.type, vars.indexOf t.name, t.start, t.endPos⟩ : Token)
    else ⟨t.type, 0, t.start, t.endPos⟩), ?_, hscan⟩
  rw [List.map_map]
  have hpt : ptoks.map ((fun t : Token => (t.type, t.index))
        ∘ (fun t : PToken =>
          if t.type = "variable" then
            (⟨t.type, vars.indexOf t.name, t.start, t.endPos⟩ : Token)
          else ⟨t.type, 0, t.start, t.endPos⟩))
      = ptoks.map ((fun p : String × String =>
          (p.1, if p.1 = "variable" then vars.indexOf p.2 else 0))
        ∘ (fun t : PToken => (t.type, t.name))) := by
    refine List.map_congr_left (fun t ht => ?_)
    by_cases hv : t.type = "variable" <;> simp [hv]
  rw [hpt, ← List.map_map, hsig]
  exact linSig_map_idx vars n (fun k hk => indexOf_getD vars hnd k (hb k hk))

/-- Feeding the structural token sequence of an AST to the parser loop
in operand-expected state rebuilds exactly that AST on the operand
stack. -/
theorem parseLoop_lin : ∀ (n : Node) (ts restT : List Token)
    (ops : List Token) (opn : List Node),
    ts.map (fun t => (t.type, t.index)) = linIdxSig n →
    parseLoop (ts ++ restT) ops opn true
      = parseLoop restT (addOperand n opn ops).2
          (addOperand n opn ops).1 false := by
  intro n
  induction n with
  | trueNode =>
    intro ts restT ops opn hsig
    obtain ⟨t, ts2, rfl, hft, hnil⟩ := List.map_eq_cons_iff.mp hsig
    have hts2 : ts2 = [] := by
      cases ts2 with
      | nil => rfl
      | cons a lx => exact absurd hnil (by simp)
    subst hts2
    have htype : t.type = "T" := congrArg Prod.fst hft
    rw [List.singleton_append, parseLoop_cons, if_pos rfl,
      if_pos (show isOperand t = true by simp [isOperand, htype]),
      show wrapOperand t = some .trueNode by
        unfold wrapOperand
        rw [if_pos htype]]
  | falseNode =>
    intro ts restT ops opn hsig
    obtain ⟨t, ts2, rfl, hft, hnil⟩ := List.map_eq_cons_iff.mp hsig
    have hts2 : ts2 = [] := by
      cases ts2 with
      | nil => rfl
      | cons a lx => exact absurd hnil (by simp)
    subst hts2
    have htype : t.type = "F" := congrArg Prod.fst hft
    rw [List.singleton_append, parseLoop_cons, if_pos rfl,
      if_pos (show isOperand t = true by simp [isOperand, htype]),
      show wrapOperand t = some .falseNode by
        unfold wrapOperand
        rw [if_neg (by rw [htype]; decide), if_pos htype]]
  | negateNode u ih =>
    intro ts restT ops opn hsig
    rw [show linIdxSig (.negateNode u) = ("~", 0) :: linIdxSig u
      from rfl] at hsig
    obtain ⟨t, ts2, rfl, hft, hsig2⟩ := List.map_eq_cons_iff.mp hsig
    have htype : t.type = "~" := congrArg Prod.fst hft
    rw [List.cons_append, parseLoop_cons, if_pos rfl,
      if_neg (show ¬ isOperand t = true by simp [isOperand, htype]),
      if_pos (show (t.type = "(" || t.type = "~") = true by simp [htype]),
      ih ts2 restT (t :: ops) opn hsig2,
      show addOperand u opn (t :: ops) = addOperand (.negateNode u) opn ops by
        have hstep : addOperand u opn (t :: ops)
            = if t.type = "~" then addOperand (.negateNode u) opn ops
              else (u :: opn, t :: ops) := rfl
        rw [hstep, if_pos htype]]
  | andNode l r ihl ihr =>
    intro ts restT ops opn hsig
    rw [show linIdxSig (.andNode l r)
        = ("(", 0) :: (linIdxSig l ++ (("/\\", 0)
          :: (linIdxSig r ++ [((")" : String), 0)]))) from rfl] at hsig
    obtain ⟨t0, ts1, rfl, hft0, hsig1⟩ := List.map_eq_cons_iff.mp hsig
    obtain ⟨tsL, ts3, rfl, hsigL, hsig3⟩ := List.map_eq_append_iff.mp hsig1
    obtain ⟨t4, ts5, rfl, hft4, hsig5⟩ := List.map_eq_cons_iff.mp hsig3
    obtain ⟨tsR, ts6, rfl, hsigR, hsig6⟩ := List.map_eq_append_iff.mp hsig5
    obtain ⟨t7, ts8, rfl, hft7, hnil8⟩ := List.map_eq_cons_iff.mp hsig6
    have hts8 : ts8 = [] := by
      cases ts8 with
      | nil => rfl
      | cons a lx => exact absurd hnil8 (by simp)
    subst hts8
    have htype0 : t0.type = "(" := congrArg Prod.fst hft0
    have htype4 : t4.type = "/\\" := congrArg Prod.fst hft4
    have htype7 : t7.type = ")" := congrArg Prod.fst hft7
    have haddL : addOperand l opn (t0 :: ops) = (l :: opn, t0 :: ops) := by
      have hstep : addOperand l opn (t0 :: ops)
          = if t0.type = "~" then addOperand (.negateNode l) opn ops
            else (l :: opn, t0 :: ops) := rfl
      rw [hstep, if_neg (by rw [htype0]; decide)]
    have haddR : addOperand r (l :: opn) (t4 :: (t0 :: ops))
        = (r :: (l :: opn), t4 :: (t0 :: ops)) := by
      have hstep : addOperand r (l :: opn) (t4 :: (t0 :: ops))
          = if t4.type = "~" then
              addOperand (.negateNode r) (l :: opn) (t0 :: ops)
            else (r :: (l :: opn), t4 :: (t0 :: ops)) := rfl
      rw [hstep, if_neg (by rw [htype4]; decide)]
    have haddmid : addOperand (.andNode l r) opn (t0 :: ops)
        = ((Node.andNode l r) :: opn, t0 :: ops) := by
      have hstep : addOperand (.andNode l r) opn (t0 :: ops)
          = if t0.type = "~" then
              addOperand (.negateNode (.andNode l r)) opn ops
            else ((Node.andNode l r) :: opn, t0 :: ops) := rfl
      rw [hstep, if_neg (by rw [htype0]; decide)]
    have hcreate : createOperatorNode l t4 r = some (.andNode l r) := by
      unfold createOperatorNode
      rw [if_neg (by rw [htype4]; decide), if_neg (by rw [htype4]; decide),
        if_neg (by rw [htype4]; decide), if_pos htype4]
    have hres : resolveOperators (t0 :: ops).length t4 (t0 :: ops) (l :: opn)
        = .ok (t0 :: ops, l :: opn) := by
      rw [resolveOperators_step, if_pos htype0]
    have hclose : closeParenLoop (t4 :: (t0 :: ops)).length t7
        (t4 :: (t0 :: ops)) (r :: (l :: opn))
        = .ok ((addOperand (.andNode l r) opn ops).2,
            (addOperand (.andNode l r) opn ops).1) := by
      have hf1 : (t4 :: (t0 :: ops)).length = (t0 :: ops).length + 1 := rfl
      rw [hf1, closeParenLoop_step,
        if_neg (by rw [htype4]; decide), if_neg (by rw [htype4]; decide)]
      dsimp only []
      rw [hcreate]
      dsimp only []
      rw [haddmid]
      dsimp only []
      rw [closeParenLoop_step, if_pos htype0]
    rw [List.cons_append, parseLoop_cons, if_pos rfl,
      if_neg (show ¬ isOperand t0 = true by simp [isOperand, htype0]),
      if_pos (show (t0.type = "(" || t0.type = "~") = true by simp [htype0]),
      List.append_assoc,
      ihl tsL ((t4 :: (tsR ++ [t7])) ++ restT) (t0 :: ops) opn hsigL, haddL]
    dsimp only []
    rw [List.cons_append, parseLoop_cons, if_neg Bool.false_ne_true,
      if_pos (show (isBinaryOperator t4 || t4.type = "$") = true by
        simp [isBinaryOperator, htype4]),
      hres]
    dsimp only []
    rw [if_neg (show ¬ t4.type = "$" by rw [htype4]; decide),
      List.append_assoc,
      ihr tsR ([t7] ++ restT) (t4 :: (t0 :: ops)) (l :: opn) hsigR, haddR]
    dsimp only []
    rw [List.singleton_append, parseLoop_cons, if_neg Bool.false_ne_true,
      if_neg (show ¬ (isBinaryOperator t7 || t7.type = "$") = true by
        simp [isBinaryOperator, htype7]),
      if_pos htype7, hclose]
  | orNode l r ihl ihr =>
    intro ts restT ops opn hsig
    rw [show linIdxSig (.orNode l r)
        = ("(", 0) :: (linIdxSig l ++ (("\\/", 0)
          :: (linIdxSig r ++ [((")" : String), 0)]))) from rfl] at hsig
    obtain ⟨t0, ts1, rfl, hft0, hsig1⟩ := List.map_eq_cons_iff.mp hsig
    obtain ⟨tsL, ts3, rfl, hsigL, hsig3⟩ := List.map_eq_append_iff.mp hsig1
    obtain ⟨t4, ts5, rfl, hft4, hsig5⟩ := List.map_eq_cons_iff.mp hsig3
    obtain ⟨tsR, ts6, rfl, hsigR, hsig6⟩ := List.map_eq_append_iff.mp hsig5
    obtain ⟨t7, ts8, rfl, hft7, hnil8⟩ := List.map_eq_cons_iff.mp hsig6
    have hts8 : ts8 = [] := by
      cases ts8 with
      | nil => rfl
      | cons a lx => exact absurd hnil8 (by simp)
    subst hts8
    have htype0 : t0.type = "(" := congrArg Prod.fst hft0
    have htype4 : t4.type = "\\/" := congrArg Prod.fst hft4
    have htype7 : t7.type = ")" := congrArg Prod.fst hft7
    have haddL : addOperand l opn (t0 :: ops) = (l :: opn, t0 :: ops) := by
      have hstep : addOperand l opn (t0 :: ops)
          = if t0.type = "~" then addOperand (.negateNode l) opn ops
            else (l :: opn, t0 :: ops) := rfl
      rw [hstep, if_neg (by rw [htype0]; decide)]
    have haddR : addOperand r (l :: opn) (t4 :: (t0 :: ops))
        = (r :: (l :: opn), t4 :: (t0 :: ops)) := by
      have hstep : addOperand r (l :: opn) (t4 :: (t0 :: ops))
          = if t4.type = "~" then
              addOperand (.negateNode r) (l :: opn) (t0 :: ops)
            else (r :: (l :: opn), t4 :: (t0 :: ops)) := rfl
      rw [hstep, if_neg (by rw [htype4]; decide)]
    have haddmid : addOperand (.orNode l r) opn (t0 :: ops)
        = ((Node.orNode l r) :: opn, t0 :: ops) := by
      have hstep : addOperand (.orNode l r) opn (t0 :: ops)
          = if t0.type = "~" then
              addOperand (.negateNode (.orNode l r)) opn ops
            else ((Node.orNode l r) :: opn, t0 :: ops) := rfl
      rw [hstep, if_neg (by rw [htype0]; decide)]
    have hcreate : createOperatorNode l t4 r = some (.orNode l r) := by
      unfold createOperatorNode
      rw [if_neg (by rw [htype4]; decide), if_neg (by rw [htype4]; decide),
        if_pos htype4]
    have hres : resolveOperators (t0 :: ops).length t4 (t0 :: ops) (l :: opn)
        = .ok (t0 :: ops, l :: opn) := by
      rw [resolveOperators_step, if_pos htype0]
    have hclose : closeParenLoop (t4 :: (t0 :: ops)).length t7
        (t4 :: (t0 :: ops)) (r :: (l :: opn))
        = .ok ((addOperand (.orNode l r) opn ops).2,
            (addOperand (.orNode l r) opn ops).1) := by
      have hf1 : (t4 :: (t0 :: ops)).length = (t0 :: ops).length + 1 := rfl
      rw [hf1, closeParenLoop_step,
        if_neg (by rw [htype4]; decide), if_neg (by rw [htype4]; decide)]
      dsimp only []
      rw [hcreate]
      dsimp only []
      rw [haddmid]
      dsimp only []
      rw [closeParenLoop_step, if_pos htype0]
    rw [List.cons_append, parseLoop_cons, if_pos rfl,
      if_neg (show ¬ isOperand t0 = true by simp [isOperand, htype0]),
      if_pos (show (t0.type = "(" || t0.type = "~") = true by simp [htype0]),
      List.append_assoc,
      ihl tsL ((t4 :: (tsR ++ [t7])) ++ restT) (t0 :: ops) opn hsigL, haddL]
    dsimp only []
    rw [List.cons_append, parseLoop_cons, if_neg Bool.false_ne_true,
      if_pos (show (isBinaryOperator t4 || t4.type = "$") = true by
        simp [isBinaryOperator, htype4]),
      hres]
    dsimp only []
    rw [if_neg (show ¬ t4.type = "$" by rw [htype4]; decide),
      List.append_assoc,
      ihr tsR ([t7] ++ restT) (t4 :: (t0 :: ops)) (l :: opn) hsigR, haddR]
    dsimp only []
    rw [List.singleton_append, parseLoop_cons, if_neg Bool.false_ne_true,
      if_neg (show ¬ (isBinaryOperator t7 || t7.type = "$") = true by
        simp [isBinaryOperator, htype7]),
      if_pos htype7, hclose]
  | impliesNode l r ihl ihr =>
    intro ts restT ops opn hsig
    rw [show linIdxSig (.impliesNode l r)
        = ("(", 0) :: (linIdxSig l ++ (("->", 0)
          :: (linIdxSig r ++ [((")" : String), 0)]))) from rfl] at hsig
    obtain ⟨t0, ts1, rfl, hft0, hsig1⟩ := List.map_eq_cons_iff.mp hsig
    obtain ⟨tsL, ts3, rfl, hsigL, hsig3⟩ := List.map_eq_append_iff.mp hsig1
    obtain ⟨t4, ts5, rfl, hft4, hsig5⟩ := List.map_eq_cons_iff.mp hsig3
    obtain ⟨tsR, ts6, rfl, hsigR, hsig6⟩ := List.map_eq_append_iff.mp hsig5
    obtain ⟨t7, ts8, rfl, hft7, hnil8⟩ := List.map_eq_cons_iff.mp hsig6
    have hts8 : ts8 = [] := by
      cases ts8 with
      | nil => rfl
      | cons a lx => exact absurd hnil8 (by simp)
    subst hts8
    have htype0 : t0.type = "(" := congrArg Prod.fst hft0
    have htype4 : t4.type = "->" := congrArg Prod.fst hft4
    have htype7 : t7.type = ")" := congrArg Prod.fst hft7
    have haddL : addOperand l opn (t0 :: ops) = (l :: opn, t0 :: ops) := by
      have hstep : addOperand l opn (t0 :: ops)
          = if t0.type = "~" then addOperand (.negateNode l) opn ops
            else (l :: opn, t0 :: ops) := rfl
      rw [hstep, if_neg (by rw [htype0]; decide)]
    have haddR : addOperand r (l :: opn) (t4 :: (t0 :: ops))
        = (r :: (l :: opn), t4 :: (t0 :: ops)) := by
      have hstep : addOperand r (l :: opn) (t4 :: (t0 :: ops))
          = if t4.type = "~" then
              addOperand (.negateNode r) (l :: opn) (t0 :: ops)
            else (r :: (l :: opn), t4 :: (t0 :: ops)) := rfl
      rw [hstep, if_neg (by rw [htype4]; decide)]
    have haddmid : addOperand (.impliesNode l r) opn (t0 :: ops)
        = ((Node.impliesNode l r) :: opn, t0 :: ops) := by
      have hstep : addOperand (.impliesNode l r) opn (t0 :: ops)
          = if t0.type = "~" then
              addOperand (.negateNode (.impliesNode l r)) opn ops
            else ((Node.impliesNode l r) :: opn, t0 :: ops) := rfl
      rw [hstep, if_neg (by rw [htype0]; decide)]
    have hcreate : createOperatorNode l t4 r = some (.impliesNode l r) := by
      unfold createOperatorNode
      rw [if_neg (by rw [htype4]; decide), if_pos htype4]
    have hres : resolveOperators (t0 :: ops).length t4 (t0 :: ops) (l :: opn)
        = .ok (t0 :: ops, l :: opn) := by
      rw [resolveOperators_step, if_pos htype0]
    have hclose : closeParenLoop (t4 :: (t0 :: ops)).length t7
        (t4 :: (t0 :: ops)) (r :: (l :: opn))
        = .ok ((addOperand (.impliesNode l r) opn ops).2,
            (addOperand (.impliesNode l r) opn ops).1) := by
      have hf1 : (t4 :: (t0 :: ops)).length = (t0 :: ops).length + 1 := rfl
      rw [hf1, closeParenLoop_step,
        if_neg (by rw [htype4]; decide), if_neg (by rw [htype4]; decide)]
      dsimp only []
      rw [hcreate]
      dsimp only []
      rw [haddmid]
      dsimp only []
      rw [closeParenLoop_step, if_pos htype0]
    rw [List.cons_append, parseLoop_cons, if_pos rfl,
      if_neg (show ¬ isOperand t0 = true by simp [isOperand, htype0]),
      if_pos (show (t0.type = "(" || t0.type = "~") = true by simp [htype0]),
      List.append_assoc,
      ihl tsL ((t4 :: (tsR ++ [t7])) ++ restT) (t0 :: ops) opn hsigL, haddL]
    dsimp only []
    rw [List.cons_append, parseLoop_cons, if_neg Bool.false_ne_true,
      if_pos (show (isBinaryOperator t4 || t4.type = "$") = true by
        simp [isBinaryOperator, htype4]),
      hres]
    dsimp only []
    rw [if_neg (show ¬ t4.type = "$" by rw [htype4]; decide),
      List.append_assoc,
      ihr tsR ([t7] ++ restT) (t4 :: (t0 :: ops)) (l :: opn) hsigR, haddR]
    dsimp only []
    rw [List.singleton_append, parseLoop_cons, if_neg Bool.false_ne_true,
      if_neg (show ¬ (isBinaryOperator t7 || t7.type = "$") = true by
        simp [isBinaryOperator, htype7]),
      if_pos htype7, hclose]
  | iffNode l r ihl ihr =>
    intro ts restT ops opn hsig
    rw [show linIdxSig (.iffNode l r)
        = ("(", 0) :: (linIdxSig l ++ (("<->", 0)
          :: (linIdxSig r ++ [((")" : String), 0)]))) from rfl] at hsig
    obtain ⟨t0, ts1, rfl, hft0, hsig1⟩ := List.map_eq_cons_iff.mp hsig
    obtain ⟨tsL, ts3, rfl, hsigL, hsig3⟩ := List.map_eq_append_iff.mp hsig1
    obtain ⟨t4, ts5, rfl, hft4, hsig5⟩ := List.map_eq_cons_iff.mp hsig3
    obtain ⟨tsR, ts6, rfl, hsigR, hsig6⟩ := List.map_eq_append_iff.mp hsig5
    obtain ⟨t7, ts8, rfl, hft7, hnil8⟩ := List.map_eq_cons_iff.mp hsig6
    have hts8 : ts8 = [] := by
      cases ts8 with
      | nil => rfl
      | cons a lx => exact absurd hnil8 (by simp)
    subst hts8
    have htype0 : t0.type = "(" := congrArg Prod.fst hft0
    have htype4 : t4.type = "<->" := congrArg Prod.fst hft4
    have htype7 : t7.type = ")" := congrArg Prod.fst hft7
    have haddL : addOperand l opn (t0 :: ops) = (l :: opn, t0 :: ops) := by
      have hstep : addOperand l opn (t0 :: ops)
          = if t0.type = "~" then addOperand (.negateNode l) opn ops
            else (l :: opn, t0 :: ops) := rfl
      rw [hstep, if_neg (by rw [htype0]; decide)]
    have haddR : addOperand r (l :: opn) (t4 :: (t0 :: ops))
        = (r :: (l :: opn), t4 :: (t0 :: ops)) := by
      have hstep : addOperand r (l :: opn) (t4 :: (t0 :: ops))
          = if t4.type = "~" then
              addOperand (.negateNode r) (l :: opn) (t0 :: ops)
            else (r :: (l :: opn), t4 :: (t0 :: ops)) := rfl
      rw [hstep, if_neg (by rw [htype4]; decide)]
    have haddmid : addOperand (.iffNode l r) opn (t0 :: ops)
        = ((Node.iffNode l r) :: opn, t0 :: ops) := by
      have hstep : addOperand (.iffNode l r) opn (t0 :: ops)
          = if t0.type = "~" then
              addOperand (.negateNode (.iffNode l r)) opn ops
            else ((Node.iffNode l r) :: opn, t0 :: ops) := rfl
      rw [hstep, if_neg (by rw [htype0]; decide)]
    have hcreate : createOperatorNode l t4 r = some (.iffNode l r) := by
      unfold createOperatorNode
      rw [if_pos htype4]
    have hres : resolveOperators (t0 :: ops).length t4 (t0 :: ops) (l :: opn)
        = .ok (t0 :: ops, l :: opn) := by
      rw [resolveOperators_step, if_pos htype0]
    have hclose : closeParenLoop (t4 :: (t0 :: ops)).length t7
        (t4 :: (t0 :: ops)) (r :: (l :: opn))
        = .ok ((addOperand (.iffNode l r) opn ops).2,
            (addOperand (.iffNode l r) opn ops).1) := by
      have hf1 : (t4 :: (t0 :: ops)).length = (t0 :: ops).length + 1 := rfl
      rw [hf1, closeParenLoop_step,
        if_neg (by rw [htype4]; decide), if_neg (by rw [htype4]; decide)]
      dsimp only []
      rw [hcreate]
      dsimp only []
      rw [haddmid]
      dsimp only []
      rw [closeParenLoop_step, if_pos htype0]
    rw [List.cons_append, parseLoop_cons, if_pos rfl,
      if_neg (show ¬ isOperand t0 = true by simp [isOperand, htype0]),
      if_pos (show (t0.type = "(" || t0.type = "~") = true by simp [htype0]),
      List.append_assoc,
      ihl tsL ((t4 :: (tsR ++ [t7])) ++ restT) (t0 :: ops) opn hsigL, haddL]
    dsimp only []
    rw [List.cons_append, parseLoop_cons, if_neg Bool.false_ne_true,
      if_pos (show (isBinaryOperator t4 || t4.type = "$") = true by
        simp [isBinaryOperator, htype4]),
      hres]
    dsimp only []
    rw [if_neg (show ¬ t4.type = "$" by rw [htype4]; decide),
      List.append_assoc,
      ihr tsR ([t7] ++ restT) (t4 :: (t0 :: ops)) (l :: opn) hsigR, haddR]
    dsimp only []
    rw [List.singleton_append, parseLoop_cons, if_neg Bool.false_ne_true,
      if_neg (show ¬ (isBinaryOperator t7 || t7.type = "$") = true by
        simp [isBinaryOperator, htype7]),
      if_pos htype7, hclose]
  | variableNode k =>
    intro ts restT ops opn hsig
    obtain ⟨t, ts2, rfl, hft, hnil⟩ := List.map_eq_cons_iff.mp hsig
    have hts2 : ts2 = [] := by
      cases ts2 with
      | nil => rfl
      | cons a lx => exact absurd hnil (by simp)
    subst hts2
    have htype : t.type = "variable" := congrArg Prod.fst hft
    have hidx : t.index = k := congrArg Prod.snd hft
    rw [List.singleton_append, parseLoop_cons, if_pos rfl,
      if_pos (show isOperand t = true by simp [isOperand, htype]),
      show wrapOperand t = some (.variableNode k) by
        unfold wrapOperand
        rw [if_neg (by rw [htype]; decide), if_neg (by rw [htype]; decide),
          if_pos htype, hidx]]

/-- Parsing the glyph rendering of a parse result recovers the same AST
and the same variable table. -/
theorem parse_dchars (ast : Node) (vars : List String)
    (hnd : vars.Nodup)
    (hpw : List.Pairwise (fun a b => stringLt a b = true) vars)
    (hgood : ∀ k ∈ varIndices ast, goodName (vars.getD k "").toList = true)
    (hb : ∀ k ∈ varIndices ast, k < vars.length)
    (hd : ∀ j, j < vars.length → j ∈ varIndices ast) :
    parse (dchars ast vars) = .ok ast vars := by
  obtain ⟨toks, hsig, hscan⟩ :=
    dchars_scan_numbered ast vars hnd hpw hgood hb hd
  unfold parse
  rw [hscan]
  dsimp only []
  rw [parseLoop_lin ast toks [⟨"$", 0, (dchars ast vars).length,
      (dchars ast vars).length + 1⟩] [] [] hsig,
    show addOperand ast ([] : List Node) ([] : List Token)
      = ([ast], ([] : List Token)) from rfl]
  dsimp only []
  rw [parseLoop_cons, if_neg Bool.false_ne_true,
    if_pos (show (isBinaryOperator ⟨"$", 0, (dchars ast vars).length,
        (dchars ast vars).length + 1⟩ || (⟨"$", 0, (dchars ast vars).length,
        (dchars ast vars).length + 1⟩ : Token).type = "$") = true by
      simp [isBinaryOperator]),
    show resolveOperators ([] : List Token).length (⟨"$", 0,
        (dchars ast vars).length, (dchars ast vars).length + 1⟩ : Token)
        ([] : List Token) [ast] = .ok (([] : List Token), [ast]) from rfl]
  dsimp only []
  rw [if_pos (show (⟨"$", 0, (dchars ast vars).length,
      (dchars ast vars).length + 1⟩ : Token).type = "$" from rfl)]
  dsimp only []
  rw [if_pos (show (⟨"$", 0, (dchars ast vars).length,
      (dchars ast vars).length + 1⟩ : Token).type = "$" from rfl)]

/-- C9 (amended): for every accepted input, rendering the resulting
AST with toString and decoding the HTML entities of the rendering to
the glyphs a browser displays, then re-lexing and re-parsing that
displayed text, succeeds and returns the very same AST and variable
table — so its truth table agrees with the original on every
assignment. -/
theorem claim9_display_roundtrip (input : List Char) (ast : Node)
    (vars : List String) (h : parse input = .ok ast vars) :
    parse (decodeEntities ((nodeToString ast vars).toList)) = .ok ast vars := by
  obtain ⟨-, -, hok⟩ := parse_spec input
  obtain ⟨hnd, hpw, hgoodv, hbound, hdense, -⟩ := hok ast vars h
  have hgood : ∀ k ∈ varIndices ast,
      goodName (vars.getD k "").toList = true := by
    intro k hk
    have hkl := hbound k hk
    rw [List.getD_eq_getElem vars "" hkl]
    exact hgoodv _ (List.getElem_mem hkl)
  have hamp : ∀ k ∈ varIndices ast, ∀ c ∈ (vars.getD k "").toList,
      ¬ c = '&' := by
    intro k hk c hc hce
    have hvc := goodName_all_varChar (hgood k hk) c hc
    rw [hce] at hvc
    exact absurd hvc (by decide)
  rw [decodeEntities_nodeToString ast vars hamp]
  exact parse_dchars ast vars hnd hpw hgood hbound hdense

/-- C9 counterexample to the literal reading: the raw rendered text of
an accepted input is NOT re-accepted by the lexer — the constant ⊤
renders as the HTML entity source text and its character # fails
checkIntegrity, so re-lexing the un-decoded rendering throws. -/
theorem claim9_display_counterexample :
    parse ['T'] = .ok .trueNode []
    ∧ nodeToString .trueNode [] = "&#8868;"
    ∧ parse ("&#8868;".toList) = .err ⟨"Illegal character", 1, 2⟩ := by
  refine ⟨by decide, rfl, by decide⟩

/-- Witness for the amended C9 at the concrete accepted input "p". -/
theorem claim9_display_roundtrip_witness :
    parse (decodeEntities ((nodeToString (.variableNode 0) ["p"]).toList))
      = .ok (.variableNode 0) ["p"] :=
  claim9_display_roundtrip ['p'] (.variableNode 0) ["p"] (by decide)

end CalcLogica
